import Mathlib

/-!
Formal verification of the SHARP benchmark-experiment driver
(`src/launcher/*.py`) against its natural-language specification.

Python strings are modelled as `List Char` (`Str`), Python dictionaries as
association lists preserving insertion order, Python floats as exact
rationals `ℚ`, and fallible code as `Option`/`Except`.  External library
functions (scipy, arviz, the shell) are passed in as explicit function
arguments or oracle data; everything that is code of the repository is
translated directly from the source.
-/

set_option maxRecDepth 10000

abbrev Str := List Char

/-- If `pat` is a prefix of `s`, return the remainder of `s` after it. -/
def stripPfx : Str → Str → Option Str
  | [], s => some s
  | _ :: _, [] => none
  | p :: ps, c :: cs => if c = p then stripPfx ps cs else none

/-- Fuel-driven worker for `replaceStr`; fuel `≥ s.length` always suffices. -/
def replaceFuel (pat rep : Str) : ℕ → Str → Str
  | _, [] => []
  | 0, s => s
  | n+1, c :: cs =>
    match stripPfx pat (c :: cs) with
    | some rest => rep ++ replaceFuel pat rep n rest
    | none => c :: replaceFuel pat rep n cs

/--
Python `s.replace(pat, rep)`: replace all non-overlapping occurrences of
`pat` left to right.  (Every pattern used by the launcher is non-empty;
for an empty pattern we simply return `s`.)
-/
def replaceStr (s pat rep : Str) : Str :=
  if pat = [] then s else replaceFuel pat rep s.length s

/-- Python `pat in s`: substring containment. -/
def containsStr (s pat : Str) : Bool :=
  match s with
  | [] => pat.isEmpty
  | _ :: cs => (stripPfx pat s).isSome || containsStr cs pat

/-- Python `s.lower()` (ASCII case folding suffices for the templates used). -/
def lowerStr (s : Str) : Str := s.map Char.toLower

/-- Whitespace characters recognised by the Python `str.strip`/`str.split`
    subset we model. -/
def wsChar (c : Char) : Bool := c = ' ' || c = '\t' || c = '\n' || c = '\r'

/-- Python `s.strip()`. -/
def stripStr (s : Str) : Str :=
  ((s.dropWhile wsChar).reverse.dropWhile wsChar).reverse

/-- Python `s.split()` (split on whitespace runs, no empty fields). -/
def splitWs : Str → List Str
  | [] => []
  | c :: cs =>
    if wsChar c then splitWs cs
    else
      match splitWs cs with
      | [] => [[c]]
      | w :: ws =>
        match cs with
        | [] => [[c]]
        | c2 :: _ => if wsChar c2 then [c] :: w :: ws else (c :: w) :: ws

/-- Split a string at newline characters (used to model both Python
    `str.splitlines` and iteration over the lines of a file). -/
def splitNl : Str → List Str
  | [] => [[]]
  | c :: cs =>
    if c = '\n' then [] :: splitNl cs
    else
      match splitNl cs with
      | [] => [[c]]
      | w :: ws => (c :: w) :: ws

/-- Python `str.splitlines()`: like `splitNl` but a trailing newline does not
    produce a final empty line, and an empty string has no lines. -/
def splitLines (s : Str) : List Str :=
  match s with
  | [] => []
  | _ =>
    let ls := splitNl s
    if ls.getLastD [] = [] then ls.dropLast else ls

/-- Decimal digit test (the launcher only ever deals with ASCII digits). -/
def isDigitCh (c : Char) : Bool := '0' ≤ c && c ≤ '9'

/-- Value of a string of decimal digits. -/
def digitsToNat (s : Str) : ℕ :=
  s.foldl (fun acc c => acc * 10 + (c.toNat - '0'.toNat)) 0

def digitCh (n : ℕ) : Char := Char.ofNat ('0'.toNat + n)

/-- Fuel-driven decimal printer for naturals. -/
def printNatFuel : ℕ → ℕ → Str
  | 0, _ => []
  | fuel+1, n => if n < 10 then [digitCh n] else printNatFuel fuel (n / 10) ++ [digitCh (n % 10)]

/-- Decimal representation of a natural number (Python `str(n)` for `n ≥ 0`). -/
def printNat (n : ℕ) : Str := printNatFuel (n + 1) n

/-- Decimal representation of an integer (Python `str(n)`). -/
def printInt (n : ℤ) : Str :=
  if n < 0 then '-' :: printNat n.natAbs else printNat n.natAbs

/-!
### Backend launcher and command-chain composition

Translated from `src/launcher/launcher.py` (class `Launcher`) and
`src/launcher/launch.py` (`chain_of_commands`).

A `Launcher` carries the data the command-building path of the class uses:
the backend `run` template and the option strings substituted by
`__expand_macros`.  `resolved_exec` stands for the result of
`self._find_exec(self._func)`, whose value depends on the file system and is
treated as an opaque input here.
-/

structure Launcher where
  run_tmpl : Str
  task : Str
  func : Str
  args : Str
  mpiflags : Str
  tmp_path : Str
  hosts : List Str
  resolved_exec : Str
deriving DecidableEq

/-- A throwaway `Launcher` used only as the default of `List.getLastD`
    (the Python code would raise `IndexError` where it is consulted). -/
def noLauncher : Launcher := ⟨[], [], [], [], [], [], [], []⟩

/-- `Launcher.__is_mpi_backend`: the run template mentions one of
    mpirun/mpiexec/srun (case-insensitively) and uses `$MPL`. -/
def is_mpi_backend (L : Launcher) : Bool :=
  (containsStr (lowerStr L.run_tmpl) "mpirun".data
    || containsStr (lowerStr L.run_tmpl) "mpiexec".data
    || containsStr (lowerStr L.run_tmpl) "srun".data)
  && containsStr L.run_tmpl "$MPL".data

/-- `Launcher.handles_concurrency_internally`. -/
def handles_concurrency_internally (L : Launcher) : Bool := is_mpi_backend L

/-- `Launcher.__expand_macros` (the `$TASK`/`$FN`/`$ARGS`/`$MPIFLAGS`/
    `$TMP_PATH`/`$HOST`/`$HOSTk` substitutions, in source order). -/
def expand_macros (L : Launcher) (src : Str) (copy_index : ℕ) : Str :=
  let r := replaceStr (replaceStr (replaceStr (replaceStr src
    "$TASK".data L.task) "$FN".data L.func) "$ARGS".data L.args)
    "$MPIFLAGS".data L.mpiflags
  let r := replaceStr r "$TMP_PATH".data L.tmp_path
  let r :=
    if containsStr r "$HOST".data then
      let host := if L.hosts = [] then "localhost".data
                  else L.hosts.getD (copy_index % L.hosts.length) []
      replaceStr r "$HOST".data host
    else r
  L.hosts.enum.foldl (fun acc p => replaceStr acc ("$HOST".data ++ printNat p.1) p.2) r

/-- `Launcher.__build_base_command`. -/
def build_base_command (L : Launcher) (copies : ℕ) (nested : Str) : Str :=
  if nested ≠ [] then
    let cmd := replaceStr L.run_tmpl "$CMD".data nested
    let cmd := if is_mpi_backend L then replaceStr cmd "$MPL".data (printNat copies) else cmd
    replaceStr (replaceStr (replaceStr cmd " $ARGS".data []) "$ARGS ".data []) "$ARGS".data []
  else
    let cmd := replaceStr L.run_tmpl "$CMD".data L.resolved_exec
    let cmd := replaceStr cmd "$MPL".data (printNat copies)
    if !containsStr L.run_tmpl "$ARGS".data then cmd ++ ' ' :: L.args else cmd

/-- `Launcher.__build_mpi_command`. -/
def build_mpi_command (L : Launcher) (copies : ℕ) (nested : Str) : Str :=
  expand_macros L (build_base_command L copies nested) 0

/-- `Launcher.__build_parallel_commands`. -/
def build_parallel_commands (L : Launcher) (copies : ℕ) (nested : Str) : List Str :=
  (List.range copies).map (fun i => expand_macros L (build_base_command L copies nested) i)

/-- `Launcher.run_commands`. -/
def run_commands (L : Launcher) (copies : ℕ) (nested : Str) : List Str :=
  if is_mpi_backend L then [build_mpi_command L copies nested]
  else build_parallel_commands L copies nested

/--
`chain_of_commands` from `src/launcher/launch.py`.

The Python code indexes `launchers[-1]`, `launchers[1:-1]` (reversed) and
`launchers[0]`; on an empty list it would raise `IndexError`, modelled as
returning `[]`.  The `[0]` indexing of each inner `run_commands` result is
modelled with `List.headD` (the lists in question are always non-empty).
-/
def chain_of_commands (launchers : List Launcher) (copies : ℕ) (override : Str) : List Str :=
  match launchers with
  | [] => []
  | [L] => if override ≠ [] then [override] else run_commands L copies []
  | L0 :: L1 :: rest =>
    let all := L0 :: L1 :: rest
    let inner := L1 :: rest
    let has_internal := all.any handles_concurrency_internally
    let last := inner.getLastD noLauncher
    let last_copies := if handles_concurrency_internally last then copies else 1
    let cmd0 := if override ≠ [] then override else (run_commands last last_copies []).headD []
    let cmd := inner.dropLast.foldr
      (fun l c => (run_commands l (if handles_concurrency_internally l then copies else 1) c).headD [])
      cmd0
    let outer_copies :=
      if handles_concurrency_internally L0 then copies
      else if has_internal then 1 else copies
    run_commands L0 outer_copies cmd

/-!
Helper views of the chain used to state what the composition does when it
contains exactly one mpi-style backend: `compose1 l` wraps a command in a
non-mpi backend invoked for a single copy, `innerChain post` is the command
composed from the backends strictly inside the mpi one, and `wrapPre pre`
wraps the mpi backend's command in the backends strictly outside it.
-/

/-- Wrap command `c` in non-mpi backend `l` run for one copy, taking the
    first (only) emitted command. -/
def compose1 (l : Launcher) (c : Str) : Str := (run_commands l 1 c).headD []

/-- Command composed from the backends strictly inside the mpi-style one
    (empty when the mpi backend is innermost). -/
def innerChain : List Launcher → Str
  | [] => []
  | p :: ps => (p :: ps).dropLast.foldr compose1
      ((run_commands ((p :: ps).getLastD noLauncher) 1 []).headD [])

/-- Wrap the command of the mpi-style backend in the backends strictly
    outside it (each invoked for a single copy). -/
def wrapPre : List Launcher → Str → List Str
  | [], c => [c]
  | L0 :: mids, c => run_commands L0 1 (mids.foldr compose1 c)

/-- An ssh-style (non-mpi) test backend. -/
def sshLauncher : Launcher :=
  { run_tmpl := "ssh $HOST $CMD $ARGS".data
    task := "t".data, func := "f".data, args := "a1".data
    mpiflags := [], tmp_path := "/tmp/".data
    hosts := ["h1".data, "h2".data, "h3".data]
    resolved_exec := "/fns/f/f.py".data }

/-- An mpi-style test backend (its template has mpirun and `$MPL`). -/
def mpiLauncher : Launcher :=
  { run_tmpl := "mpirun -np $MPL $MPIFLAGS $CMD $ARGS".data
    task := "t".data, func := "f".data, args := "a1".data
    mpiflags := "--oversubscribe".data, tmp_path := "/tmp/".data
    hosts := []
    resolved_exec := "/fns/f/f.py".data }

/-- A plain local (non-mpi) test backend. -/
def localLauncher : Launcher :=
  { run_tmpl := "$CMD $ARGS".data
    task := "t".data, func := "f".data, args := "a1".data
    mpiflags := [], tmp_path := "/tmp/".data
    hosts := []
    resolved_exec := "/fns/f/f.py".data }

/-!
### Runner: child supervision and metric harvesting

Translated from `Launcher._wait_for_run` and the loop body of
`Launcher.run` (`src/launcher/launcher.py`).  A child's fate (exit status or
timeout of `popen.wait`) and the rows its scratch file yields under metric
extraction are oracle inputs; the overall-timeout clock of the `while` loop
is not modelled (every child is assumed to be reached in time).
-/

/-- Outcome of `popen.wait` for one child process. -/
inductive ChildResult where
  | exited (status : ℤ)
  | timedOut
deriving DecidableEq

/-- One extracted metric row: a mapping from metric name to value string. -/
abbrev MetricRow := List (Str × Str)

/--
`Launcher._wait_for_run`: a timeout prints an error, kills the child and
returns `None`; exit status 127 raises; any other non-zero status warns and
returns `None`; status 0 falls through (returns `None` implicitly, with no
warning) — modelled as `some ()` to distinguish the fall-through from the
explicit early `return None` signals.
-/
def wait_for_run : ChildResult → Except Str (Option Unit)
  | .timedOut => .ok none
  | .exited s =>
    if s = 127 then .error "Failed to execute: no such file or directory".data
    else if s ≠ 0 then .ok none
    else .ok (some ())

/--
The per-child loop body of `Launcher.run`: for each child, wait for it
(propagating a raise), then — ignoring `_wait_for_run`'s return value, as
the source does — extract metrics from its scratch file and append every
extracted row to the shared `RunData`.  `children` pairs each child's fate
with the rows its output yields.
-/
def runChildren : List (ChildResult × List MetricRow) → Except Str (List MetricRow)
  | [] => .ok []
  | (r, rows) :: rest =>
    match wait_for_run r with
    | .error e => .error e
    | .ok _ =>
      match runChildren rest with
      | .error e => .error e
      | .ok acc => .ok (rows ++ acc)

/-!
### RunData ingestion: numeric coercion (C7)

Translated from `RunData.add_run` (`src/launcher/rundata.py`), which runs
`re.match(r"^-?\d+(?:\.\d+)$", value)` and converts to `float` on a match.
-/

/-- A stored metric value: a parsed floating-point number (modelled as an
    exact rational) or the original string. -/
inductive MVal where
  | num (q : ℚ)
  | str (s : Str)
deriving DecidableEq

/-- Full match of `-?\d+\.\d+` (one or more digits, a mandatory dot, one or
    more digits, optionally preceded by a minus sign, covering the entire
    string). -/
def decMatch (s : Str) : Bool :=
  let s1 := match s with | '-' :: t => t | _ => s
  let d1 := s1.takeWhile isDigitCh
  let r1 := s1.dropWhile isDigitCh
  d1 ≠ [] &&
    (match r1 with
     | '.' :: r2 => r2 ≠ [] && r2.all isDigitCh
     | _ => false)

/-- Python `re.match(r"^-?\d+(?:\.\d+)$", s) is not None`: `$` also matches
    just before a newline at the end of the string, so a single trailing
    newline is tolerated. -/
def pyReMatch (s : Str) : Bool :=
  decMatch s || (s.getLastD ' ' = '\n' && s ≠ [] && decMatch s.dropLast)

/-- Python `float(s)` on the strings accepted by `pyReMatch` (surrounding
    whitespace is stripped by `float`, so a trailing newline is dropped). -/
def parseFloat (s : Str) : ℚ :=
  let s := if s.getLastD ' ' = '\n' then s.dropLast else s
  let (neg, s1) : Bool × Str := match s with | '-' :: t => (true, t) | _ => (false, s)
  let d1 := s1.takeWhile isDigitCh
  let r1 := s1.dropWhile isDigitCh
  let frac := match r1 with | '.' :: f => f | _ => []
  let q : ℚ := (digitsToNat d1 : ℚ) + (digitsToNat frac : ℚ) / ((10 : ℚ) ^ frac.length)
  if neg then -q else q

/-- The value coercion performed by `RunData.add_run` on each metric value. -/
def coerceValue (v : Str) : MVal :=
  if pyReMatch v then .num (parseFloat v) else .str v

/-- Append `v` to the list stored under `k`, creating the key if absent
    (`if metric not in self.perf: self.perf[metric] = []` followed by
    `append`). -/
def appendToKey (d : List (Str × List MVal)) (k : Str) (v : MVal) :
    List (Str × List MVal) :=
  match d with
  | [] => [(k, [v])]
  | (k1, vs) :: rest =>
    if k1 = k then (k1, vs ++ [v]) :: rest else (k1, vs) :: appendToKey rest k v

/-- `RunData.add_run`: append the measured outer time, then each metric's
    coerced value (the wall-clock delta `outerT` is an oracle input). -/
def add_run (perf : List (Str × List MVal)) (outerT : ℚ) (metrics : List (Str × Str)) :
    List (Str × List MVal) :=
  let perf := appendToKey perf "outer_time".data (.num outerT)
  metrics.foldl (fun acc p => appendToKey acc p.1 (coerceValue p.2)) perf

/-!
### Metric extraction (C8)

Translated from `Launcher.parse_auto_metrics` and `Launcher._get_metrics`
(`src/launcher/launcher.py`).  The outcome of each per-metric extraction
shell command (`cat FILE | EXTRACT`) is an oracle input `ExtractResult`;
Python's insertion-ordered dictionaries are association lists.
-/

/-- The observable outcome of one extraction subprocess. -/
structure ExtractResult where
  returncode : ℤ
  stderr : Str
  stdout : Str
deriving DecidableEq

/-- Python `d[k] = v` on an insertion-ordered dictionary. -/
def dictSet {α : Type} (d : List (Str × α)) (k : Str) (v : α) : List (Str × α) :=
  match d with
  | [] => [(k, v)]
  | (k1, v1) :: rest => if k1 = k then (k1, v) :: rest else (k1, v1) :: dictSet rest k v

/-- Python `d.get(k)` / `k in d`. -/
def dictLookup {α : Type} (d : List (Str × α)) (k : Str) : Option α :=
  match d with
  | [] => none
  | (k1, v1) :: rest => if k1 = k then some v1 else dictLookup rest k

/-- Python `d.update(e)`. -/
def dictUpdate {α : Type} (d e : List (Str × α)) : List (Str × α) :=
  e.foldl (fun acc p => dictSet acc p.1 p.2) d

/-- Loop body of `parse_auto_metrics`: each line contributes `cols[1]` to the
    list under `cols[0]`; a line with fewer than two whitespace-separated
    columns raises `IndexError`. -/
def parseAutoLines : List Str → List (Str × List Str) → Except Str (List (Str × List Str))
  | [], acc => .ok acc
  | line :: rest, acc =>
    match splitWs line with
    | c0 :: c1 :: _ =>
      match dictLookup acc c0 with
      | some vs => parseAutoLines rest (dictSet acc c0 (vs ++ [c1]))
      | none => parseAutoLines rest (dictSet acc c0 [c1])
    | _ => .error "IndexError".data

/-- `Launcher.parse_auto_metrics`. -/
def parse_auto_metrics (output : Str) : Except Str (List (Str × List Str)) :=
  parseAutoLines (splitLines output) []

/--
The metric-collection loop of `Launcher._get_metrics`: for each metric
descriptor (paired with its extraction outcome), a failed or empty
extraction stores `["NA"]`, a normal metric stores the whitespace-split
stdout, and the special name `auto` parses `name value` lines and merges
them in.
-/
def collectMetrics : List (Str × ExtractResult) → List (Str × List Str) →
    Except Str (List (Str × List Str))
  | [], acc => .ok acc
  | (name, res) :: rest, acc =>
    if res.returncode ≠ 0 ∨ res.stderr ≠ [] ∨ res.stdout = [] then
      collectMetrics rest (dictSet acc name ["NA".data])
    else if name ≠ "auto".data then
      collectMetrics rest (dictSet acc name (splitWs res.stdout))
    else
      match parse_auto_metrics res.stdout with
      | .error e => .error e
      | .ok mets => collectMetrics rest (dictUpdate acc mets)

/--
`Launcher._get_metrics`: with no metric descriptors return a single empty
row; otherwise collect all metrics, raise if the per-metric row counts are
not all equal (`len(set(map(len, metrics.values()))) != 1`), and otherwise
return one row per row index, each mapping every metric to its value at
that index.
-/
def get_metrics (items : List (Str × ExtractResult)) :
    Except Str (List (List (Str × Str))) :=
  if items = [] then .ok [[]]
  else
    match collectMetrics items [] with
    | .error e => .error e
    | .ok metrics =>
      if (metrics.map (fun p => p.2.length)).dedup.length ≠ 1 then
        .error "Some metrics have fewer rows than others".data
      else
        .ok ((List.range ((metrics.headD ([], [])).2.length)).map
          (fun i => metrics.map (fun p => (p.1, p.2.getD i []))))

/-!
### Repeaters (C4, C5)

Translated from `src/launcher/repeater.py`.  Metric values are exact
rationals.  External statistical routines are explicit function arguments:
`sq` stands for the square root (`math.sqrt`, and the square root inside
`scipy.stats.tstd`, which is the sample standard deviation
`sqrt(sample variance)` with `ddof = 1`), `tppf` for `scipy.stats.t.ppf`,
`hdi` for `arviz.hdi`, and `ks` for `scipy.stats.ks_2samp`'s statistic.

Each `__call__` returns `Option Bool`: `some b` for a normal boolean
return, `none` when the Python code would raise `UnboundLocalError`
(`rel_se`/`rel_ci`/`rel_hdi` is only assigned inside the `count > 1` block,
but the final `return count <= min or rel > thresh` still reads it when the
first disjunct is false).  State is updated in either case, as the Python
mutations precede the raise.
-/

/-- Mutable state shared by the repeater family: repetition count and the
    accumulated sample (`self._count`, `self._runtimes`). -/
structure RState where
  count : ℕ
  runtimes : List ℚ
deriving DecidableEq

/-- Fresh repeater state. -/
def initR : RState := ⟨0, []⟩

/-- Configuration shared by the SE/HDI/KS stopping rules: `error_threshold`
    (or KS `threshold`), `min`, `max`. -/
structure RepConfig where
  thresh : ℚ
  min_repeats : ℕ
  max_repeats : ℕ

/-- CI additionally carries `ci_limit`. -/
structure CIConfig where
  ci_limit : ℚ
  thresh : ℚ
  min_repeats : ℕ
  max_repeats : ℕ

/-- `scipy.mean`. -/
def mean (l : List ℚ) : ℚ := l.sum / l.length

/-- The sample variance with `ddof = 1`; `scipy.stats.tstd l = sq (sampleVar l)`. -/
def sampleVar (l : List ℚ) : ℚ :=
  (l.map (fun x => (x - mean l) ^ 2)).sum / ((l.length : ℚ) - 1)

/-- `CountRepeater.__call__`: count, append the metric values once, continue
    while below the limit. -/
def count_call (limit : ℕ) (st : RState) (vals : List ℚ) : Bool × RState :=
  let st1 : RState := ⟨st.count + 1, st.runtimes ++ vals⟩
  (decide (st1.count < limit), st1)

/-- `SERepeater.__call__`. -/
def se_call (sq : ℚ → ℚ) (cfg : RepConfig) (st : RState) (vals : List ℚ) :
    Option Bool × RState :=
  let st1 : RState := ⟨st.count + 1, st.runtimes ++ vals⟩
  if st1.count ≥ cfg.max_repeats then (some false, st1)
  else if st1.count > 1 then
    let se := sq (sampleVar st1.runtimes) / sq (st1.runtimes.length : ℚ)
    let m := mean st1.runtimes
    let rel := if m = 0 then se else se / m
    (some (decide (st1.count ≤ cfg.min_repeats) || decide (rel > cfg.thresh)), st1)
  else if st1.count ≤ cfg.min_repeats then (some true, st1)
  else (none, st1)

/-- `CIRepeater.__call__`. -/
def ci_call (sq : ℚ → ℚ) (tppf : ℚ → ℕ → ℚ) (cfg : CIConfig) (st : RState)
    (vals : List ℚ) : Option Bool × RState :=
  let st1 : RState := ⟨st.count + 1, st.runtimes ++ vals⟩
  if st1.count ≥ cfg.max_repeats then (some false, st1)
  else if st1.count > 1 then
    let t := tppf cfg.ci_limit (st1.runtimes.length - 1)
    let ci := t * sq (sampleVar st1.runtimes) / sq (st1.runtimes.length : ℚ)
    let rel := ci / mean st1.runtimes
    (some (decide (st1.count < cfg.min_repeats) || decide (rel > cfg.thresh)), st1)
  else if st1.count < cfg.min_repeats then (some true, st1)
  else (none, st1)

/-- `HDIRepeater.__call__` (`hdi l` returns the interval endpoints). -/
def hdi_call (hdi : List ℚ → ℚ × ℚ) (cfg : RepConfig) (st : RState)
    (vals : List ℚ) : Option Bool × RState :=
  let st1 : RState := ⟨st.count + 1, st.runtimes ++ vals⟩
  if st1.count ≥ cfg.max_repeats then (some false, st1)
  else if st1.count > 1 then
    let h := hdi st1.runtimes
    let m := mean st1.runtimes
    let rel := if m = 0 then 0 else (h.2 - h.1) / m
    (some (decide (st1.count ≤ cfg.min_repeats) || decide (rel > cfg.thresh)), st1)
  else if st1.count ≤ cfg.min_repeats then (some true, st1)
  else (none, st1)

/-- `KSRepeater.__call__`: the `super().__call__` (CountRepeater) already
    appends the metric values once; line 521 of `repeater.py` appends them a
    second time before running the KS test. -/
def ks_call (ks : List ℚ → List ℚ → ℚ) (cfg : RepConfig) (st : RState)
    (vals : List ℚ) : Bool × RState :=
  let st1 : RState := ⟨st.count + 1, st.runtimes ++ vals⟩
  if st1.count < cfg.min_repeats then (true, st1)
  else if st1.count ≥ cfg.max_repeats then (false, st1)
  else
    let st2 : RState := ⟨st1.count, st1.runtimes ++ vals⟩
    let stat := ks (st2.runtimes.take (st2.count / 2)) (st2.runtimes.drop (st2.count / 2))
    (decide (stat > cfg.thresh), st2)

/-- The state after `k` repeater invocations, feeding invocation `i` the
    metric values `data i` (what the orchestrator's loop does). -/
def repTrace {σ : Type} (step : σ → List ℚ → Option Bool × σ) (s0 : σ)
    (data : ℕ → List ℚ) : ℕ → σ
  | 0 => s0
  | k+1 => (step (repTrace step s0 data k) (data (k+1))).2

/-- The boolean returned by the `j`-th invocation (1-indexed). -/
def callResult {σ : Type} (step : σ → List ℚ → Option Bool × σ) (s0 : σ)
    (data : ℕ → List ℚ) (j : ℕ) : Option Bool :=
  (step (repTrace step s0 data (j - 1)) (data j)).1

/-!
### Options pipeline (C6)

Translated from `merge` and `process_cmdline_options` in
`src/launcher/options.py`.  Option values are modelled by the inductive
`Val` (JSON/YAML scalars, lists and dictionaries); dictionaries are
insertion-ordered association lists.  `process_cmdline_options` is factored
into named stages, one per block of the Python function, applied in source
order.
-/

/-- A configuration value: string, integer, boolean, `None`, list, or
    nested dictionary. -/
inductive Val where
  | vstr (s : Str)
  | vnum (n : ℤ)
  | vbool (b : Bool)
  | vnull
  | vlist (l : List Val)
  | vdict (d : List (Str × Val))

mutual

/-- `options.merge`: for each key of `b` in order, recursively merge when
    both sides hold dictionaries, otherwise overwrite `a`'s entry. -/
def merge : List (Str × Val) → List (Str × Val) → List (Str × Val)
  | a, [] => a
  | a, (k, bv) :: rest => merge (dictSet a k (mergeVal (dictLookup a k) bv)) rest

/-- The value stored for one key during `merge`. -/
def mergeVal : Option Val → Val → Val
  | some (.vdict ad), .vdict bd => .vdict (merge ad bd)
  | _, bv => bv

end

/-- The `argparse` namespace: `None` (or `[]`/`False`) marks an absent flag;
    `backend` and `func` arrive already flattened. -/
structure Args where
  func : List Str
  backend : List Str
  mpl : Option ℤ
  repeats : Option Str
  experiment : Option Str
  description : Option Str
  task : Option Str
  directory : Option Str
  input : Option Str
  timeout : Option ℤ
  append : Bool
  verbose : Bool
  cold : Bool
  warm : Bool

/-- The module-level default log directory (an absolute path computed from
    `__file__`; its exact value is irrelevant here). -/
def logdir : Str := "runlogs".data

/-- Truthiness of an optional string argument, as a `Val` when truthy. -/
def truthyStr : Option Str → Option Val
  | some s => if s ≠ [] then some (.vstr s) else none
  | none => none

/-- Truthiness of an optional integer argument, as a `Val` when truthy
    (`0` is falsy in Python). -/
def truthyInt : Option ℤ → Option Val
  | some n => if n ≠ 0 then some (.vnum n) else none
  | none => none

/-- One iteration of the `for k in opt_defaults` loop: a truthy argument
    overwrites; otherwise the key receives its default only if absent. -/
def applyOptDefault (cfg : List (Str × Val)) (k : Str) (argVal : Option Val)
    (dflt : Val) : List (Str × Val) :=
  match argVal with
  | some v => dictSet cfg k v
  | none => if (dictLookup cfg k).isSome then cfg else dictSet cfg k dflt

/-- `cfg["function"] = args.func[0]; cfg["arguments"] = " ".join(args.func[1:])`. -/
def stage_func (a : Args) (cfg : List (Str × Val)) : List (Str × Val) :=
  match a.func with
  | [] => cfg
  | f :: rest =>
    dictSet (dictSet cfg "function".data (.vstr f)) "arguments".data
      (.vstr (List.intercalate " ".data rest))

/-- The `opt_defaults` loop, in dictionary order (`repeats`, `experiment`,
    `directory`, `timeout`, `copies`); `copies` is not an argparse
    attribute, so its argument value is always absent. -/
def stage_defaults (a : Args) (cfg : List (Str × Val)) : List (Str × Val) :=
  let cfg := applyOptDefault cfg "repeats".data (truthyStr a.repeats) (.vstr "1".data)
  let cfg := applyOptDefault cfg "experiment".data (truthyStr a.experiment)
    (.vstr "misc".data)
  let cfg := applyOptDefault cfg "directory".data (truthyStr a.directory) (.vstr logdir)
  let cfg := applyOptDefault cfg "timeout".data (truthyInt a.timeout) (.vnum 3600)
  applyOptDefault cfg "copies".data none (.vnum 1)

/-- `if args.mpl: cfg["copies"] = args.mpl`. -/
def stage_mpl (a : Args) (cfg : List (Str × Val)) : List (Str × Val) :=
  match a.mpl with
  | some n => if n ≠ 0 then dictSet cfg "copies".data (.vnum n) else cfg
  | none => cfg

/-- The `mode` block. -/
def stage_mode (a : Args) (cfg : List (Str × Val)) : List (Str × Val) :=
  if a.append then dictSet cfg "mode".data (.vstr "a".data)
  else dictSet cfg "mode".data
    (match dictLookup cfg "mode".data with
     | some v => v
     | none => .vstr "w".data)

/-- The `task` block (`cfg.get("task", cfg.get("function", None))`). -/
def stage_task (a : Args) (cfg : List (Str × Val)) : List (Str × Val) :=
  match truthyStr a.task with
  | some v => dictSet cfg "task".data v
  | none =>
    dictSet cfg "task".data
      (match dictLookup cfg "task".data with
       | some v => v
       | none =>
         match dictLookup cfg "function".data with
         | some v => v
         | none => .vnull)

/-- The `start` block. -/
def stage_start (a : Args) (cfg : List (Str × Val)) : List (Str × Val) :=
  if a.cold then dictSet cfg "start".data (.vstr "cold".data)
  else if a.warm then dictSet cfg "start".data (.vstr "warm".data)
  else dictSet cfg "start".data
    (match dictLookup cfg "start".data with
     | some v => v
     | none => .vstr "normal".data)

/-- The `backends` block: command-line `-b` values are appended to the
    previously configured backends, never replacing them; an empty result
    falls back to `["local"]`.  (A non-list value under `backends` would
    raise `TypeError` in Python; it is read as `[]` here and excluded by
    the theorems' hypotheses.) -/
def stage_backends (a : Args) (cfg : List (Str × Val)) : List (Str × Val) :=
  let bl := (match dictLookup cfg "backends".data with
    | some (.vlist l) => l
    | _ => []) ++ a.backend.map Val.vstr
  dictSet cfg "backends".data
    (.vlist (match bl with | [] => [.vstr "local".data] | _ => bl))

/-- The trailing `verbose`/`description`/`datafile` assignments. -/
def stage_misc (a : Args) (cfg : List (Str × Val)) : List (Str × Val) :=
  let cfg := dictSet cfg "verbose".data (.vbool a.verbose)
  let cfg := match truthyStr a.description with
    | some v => dictSet cfg "description".data v
    | none => cfg
  match truthyStr a.input with
  | some v => dictSet cfg "datafile".data v
  | none => cfg

/-- `options.process_cmdline_options`. -/
def process_cmdline_options (cfg : List (Str × Val)) (a : Args) : List (Str × Val) :=
  stage_misc a (stage_backends a (stage_start a (stage_task a
    (stage_mode a (stage_mpl a (stage_defaults a (stage_func a cfg)))))))

/-!
### Logger row data (C10)

Translated from `Logger.add_row_data` and `Logger.save_csv`
(`src/launcher/logger.py`).  Only each row's key set matters for the
rectangularity property, so a row is modelled by its ordered list of
fields; the failing `assert` is modelled by returning `none`.
-/

/-- `self.__rows[-1][field] = value`: add `field` to the last row's keys if
    absent (dictionary assignment). -/
def setLastField : List (List Str) → Str → List (List Str)
  | [], _ => []
  | [r], f => [if f ∈ r then r else r ++ [f]]
  | r :: rs, f => r :: setLastField rs f

/-- `Logger.add_row_data`: assert the field exists in the second-to-last
    row (when there are at least two rows), open a new row when the field
    already exists in the last row (or there is none), then store the field
    in the last row. -/
def add_row_data (rows : List (List Str)) (field : Str) : Option (List (List Str)) :=
  if rows.length ≤ 1 ∨ field ∈ rows.getD (rows.length - 2) [] then
    let rows2 := if rows.length = 0 ∨ field ∈ rows.getLastD [] then rows ++ [[]] else rows
    some (setLastField rows2 field)
  else none

/-- A sequence of `add_row_data` calls, stopping at the first failed
    assertion. -/
def add_rows (rows : List (List Str)) : List Str → Option (List (List Str))
  | [] => some rows
  | f :: fs =>
    match add_row_data rows f with
    | none => none
    | some rows2 => add_rows rows2 fs

/-- The CSV header computed by `Logger.save_csv`:
    `list(self.__columns.keys()) + list(self.__rows[0].keys())`. -/
def save_csv_header (columns : List Str) (rows : List (List Str)) : List Str :=
  columns ++ rows.headD []

/-!
### Markdown report and JSON round-trip (C9)

Translated from `Logger.__init__`/`Logger.save_md` (`src/launcher/logger.py`)
and `options.process_previous_options` (`src/launcher/options.py`).  The
`json` standard-library calls are modelled concretely on the subset of JSON
the launcher writes: `dumpsV` reproduces `json.dumps(v, indent=2)` for
values built from ints, bools, `None`, plain printable-ASCII strings, lists
and dicts (`jsonPlainCh` delimits the characters `json.dumps` emits
verbatim, without escapes), and `parseStep`/`jloads` implement the
recursive-descent reading discipline of `json.loads` on that subset.
-/

/-- Characters `json.dumps` emits verbatim inside a string literal:
    printable ASCII other than the double quote and the backslash. -/
def jsonPlainCh (c : Char) : Bool :=
  (' ' ≤ c && c.toNat < 127) && !(c = '"') && !(c = '\\')

def jsonPlainStr (s : Str) : Bool := s.all jsonPlainCh

/-- Values in the escape-free domain of the `json.dumps` model: every
    string (and every dictionary key) consists of plain characters. -/
inductive SafeVal : Val → Prop where
  | vstr : ∀ s, jsonPlainStr s = true → SafeVal (Val.vstr s)
  | vnum : ∀ n, SafeVal (Val.vnum n)
  | vbool : ∀ b, SafeVal (Val.vbool b)
  | vnull : SafeVal Val.vnull
  | vlist : ∀ l, (∀ v ∈ l, SafeVal v) → SafeVal (Val.vlist l)
  | vdict : ∀ d, (∀ m ∈ d, jsonPlainStr m.1 = true) → (∀ m ∈ d, SafeVal m.2) →
      SafeVal (Val.vdict d)

def spaces (n : ℕ) : Str := List.replicate n ' '

/-- `json.dumps(v, indent=2)` at nesting level `lvl`.  `fuel` bounds the
    nesting depth; any `fuel ≥ sizeOf v` yields the complete output. -/
def dumpsV : ℕ → ℕ → Val → Str
  | 0, _, _ => []
  | _+1, _, Val.vstr s => '"' :: (s ++ ['"'])
  | _+1, _, Val.vnum n => printInt n
  | _+1, _, Val.vbool b => if b then "true".data else "false".data
  | _+1, _, Val.vnull => "null".data
  | _+1, _, Val.vlist [] => "[]".data
  | fuel+1, lvl, Val.vlist (v :: vs) =>
    '[' :: '\n' ::
      (List.intercalate (',' :: ['\n'])
          ((v :: vs).map fun w => spaces (2 * (lvl + 1)) ++ dumpsV fuel (lvl + 1) w) ++
        '\n' :: (spaces (2 * lvl) ++ [']']))
  | _+1, _, Val.vdict [] => ['\x7b', '\x7d']
  | fuel+1, lvl, Val.vdict (kv :: kvs) =>
    '\x7b' :: '\n' ::
      (List.intercalate (',' :: ['\n'])
          ((kv :: kvs).map fun m =>
            spaces (2 * (lvl + 1)) ++ '"' :: (m.1 ++ '"' :: ':' :: ' ' :: dumpsV fuel (lvl + 1) m.2)) ++
        '\n' :: (spaces (2 * lvl) ++ ['\x7d']))

mutual

/-- Number of value nodes of a `Val`: an executable bound on the printer
    fuel (any `fuel ≥ vfuel v` yields the complete output). -/
def vfuel : Val → ℕ
  | Val.vstr _ => 1
  | Val.vnum _ => 1
  | Val.vbool _ => 1
  | Val.vnull => 1
  | Val.vlist l => 1 + vfuelList l
  | Val.vdict d => 1 + vfuelMembers d

def vfuelList : List Val → ℕ
  | [] => 0
  | v :: vs => vfuel v + vfuelList vs

def vfuelMembers : List (Str × Val) → ℕ
  | [] => 0
  | m :: ms => vfuel m.2 + vfuelMembers ms

end

def dumps (v : Val) : Str := dumpsV (vfuel v) 0 v

/-- The element block of a non-empty list: one indented element per line,
    separated by a comma and a newline. -/
def elemsText (pf el : ℕ) (l : List Val) : Str :=
  List.intercalate (',' :: ['\n']) (l.map fun w => spaces (2 * el) ++ dumpsV pf el w)

/-- The member block of a non-empty object: one indented `"key": value`
    per line, separated by a comma and a newline. -/
def membersText (pf el : ℕ) (d : List (Str × Val)) : Str :=
  List.intercalate (',' :: ['\n'])
    (d.map fun m => spaces (2 * el) ++ '"' :: (m.1 ++ '"' :: ':' :: ' ' :: dumpsV pf el m.2))

def skipWs (s : Str) : Str := s.dropWhile wsChar

/-- Read a JSON string body up to the closing quote. -/
def readStr : Str → Option (Str × Str)
  | [] => none
  | c :: cs =>
    if c = '"' then some ([], cs)
    else
      match readStr cs with
      | some (w, rest) => some (c :: w, rest)
      | none => none

/-- Read a maximal run of decimal digits. -/
def readDigits : Str → (Str × Str)
  | [] => ([], [])
  | c :: cs =>
    if isDigitCh c then ((c :: (readDigits cs).1), (readDigits cs).2)
    else ([], c :: cs)

def headNotDigit : Str → Bool
  | [] => true
  | c :: _ => !isDigitCh c

/-- Continuation state of the JSON reader: a value, the remaining elements
    of an array, or the remaining members of an object. -/
inductive PJob where
  | pval : PJob
  | pelems : List Val → PJob
  | pmembers : List (Str × Val) → PJob

/-- One step of the recursive-descent JSON reader modelling `json.loads` on
    the subset the launcher writes.  `fuel` bounds the number of recursive
    steps; `3 * length + 3` steps always suffice (each pair of steps
    consumes at least one character). -/
def parseStep : ℕ → PJob → Str → Option (Val × Str)
  | 0, _, _ => none
  | fuel+1, PJob.pval, s =>
    match skipWs s with
    | [] => none
    | c :: cs =>
      if c = '"' then
        match readStr cs with
        | some (w, rest) => some (Val.vstr w, rest)
        | none => none
      else if c = 'n' then (stripPfx "ull".data cs).map fun rest => (Val.vnull, rest)
      else if c = 't' then (stripPfx "rue".data cs).map fun rest => (Val.vbool true, rest)
      else if c = 'f' then (stripPfx "alse".data cs).map fun rest => (Val.vbool false, rest)
      else if c = '[' then
        if (skipWs cs).headD 'z' = ']' then some (Val.vlist [], (skipWs cs).tail)
        else parseStep fuel (PJob.pelems []) cs
      else if c = '\x7b' then
        if (skipWs cs).headD 'z' = '\x7d' then some (Val.vdict [], (skipWs cs).tail)
        else parseStep fuel (PJob.pmembers []) cs
      else if c = '-' then
        if (readDigits cs).1 = [] then none
        else some (Val.vnum (-(digitsToNat (readDigits cs).1 : ℤ)), (readDigits cs).2)
      else if isDigitCh c then
        some (Val.vnum (digitsToNat (readDigits (c :: cs)).1), (readDigits (c :: cs)).2)
      else none
  | fuel+1, PJob.pelems acc, s =>
    match skipWs s with
    | [] => none
    | c :: cs =>
      if c = ']' then some (Val.vlist acc.reverse, cs)
      else
        match parseStep fuel PJob.pval s with
        | none => none
        | some (v, rest) =>
          match skipWs rest with
          | [] => none
          | c2 :: cs2 =>
            if c2 = ',' then parseStep fuel (PJob.pelems (v :: acc)) cs2
            else if c2 = ']' then some (Val.vlist (v :: acc).reverse, cs2)
            else none
  | fuel+1, PJob.pmembers acc, s =>
    match skipWs s with
    | [] => none
    | c :: cs =>
      if c = '\x7d' then some (Val.vdict acc.reverse, cs)
      else if c = '"' then
        match readStr cs with
        | none => none
        | some (k, rest1) =>
          match skipWs rest1 with
          | [] => none
          | c2 :: cs2 =>
            if c2 = ':' then
              match parseStep fuel PJob.pval cs2 with
              | none => none
              | some (v, rest3) =>
                match skipWs rest3 with
                | [] => none
                | c3 :: cs3 =>
                  if c3 = ',' then parseStep fuel (PJob.pmembers ((k, v) :: acc)) cs3
                  else if c3 = '\x7d' then some (Val.vdict ((k, v) :: acc).reverse, cs3)
                  else none
            else none
      else none

/-- `json.loads`: read one document, allowing trailing whitespace only. -/
def jloads (s : Str) : Option Val :=
  match parseStep (3 * s.length + 3) PJob.pval s with
  | some (v, rest) => if skipWs rest = [] then some v else none
  | none => none

/-- Append a newline to every line and concatenate (the inverse of
    splitting a newline-terminated text into lines). -/
def joinNl (ls : List Str) : Str := (ls.map fun l => l ++ ['\n']).flatten

/-- The line loop of `process_previous_options`: start copying after a
    `## Runtime options` line, stop at `## Field description`, and skip the
    code-fence lines while copying. -/
def ppoLoop : Bool → List Str → Str
  | _, [] => []
  | copy, l :: rest =>
    if stripStr l = "## Runtime options".data then ppoLoop true rest
    else if stripStr l = "## Field description".data then []
    else if copy then
      if stripStr l = "```json".data ∨ stripStr l = "```".data then ppoLoop copy rest
      else (l ++ ['\n']) ++ ppoLoop copy rest
    else ppoLoop copy rest

/-- `options.process_previous_options`: reassemble the JSON block of a
    previously written `.md` file and parse it. -/
def process_previous_options (md : Str) : Option Val :=
  jloads (ppoLoop false (splitNl md))

/-- The runtime-options filter of `Logger.__init__`:
    `{k: v for k, v in options.items() if k != "sys_spec_commands"}`. -/
def options_filtered (opts : List (Str × Val)) : List (Str × Val) :=
  opts.filter fun kv => kv.1 ≠ "sys_spec_commands".data

/-- The markdown text produced by `Logger.save_md` in write mode: free
    header text `pre` (the completion line, the description line and the
    optional git line), the `## Runtime options` JSON block prepared by
    `Logger.__init__` (with `sys_spec_commands` filtered out), then the
    field-description header and the remaining free text `post` (the field
    bullets and the optional system-configuration section). -/
def save_md_text (pre : Str) (opts : List (Str × Val)) (post : Str) : Str :=
  pre ++ "\n## Runtime options\n\n```json\n".data ++
    dumps (Val.vdict (options_filtered opts)) ++ "\n```".data ++
    "\n\n## Field description\n\n".data ++ post

/-- Characters that can start a JSON value in the `dumpsV` output. -/
def jheadCh (c : Char) : Bool :=
  c = '"' || c = '-' || isDigitCh c || c = 't' || c = 'f' || c = 'n' ||
    c = '[' || c = '\x7b'

/-- Characters that can start a (whitespace-stripped) line of `dumpsV`
    output: a value head or a closing bracket. -/
def okCh (c : Char) : Bool := jheadCh c || c = ']' || c = '\x7d'

/-!
## Theorems

General helper lemmas first, then one theorem (with witness or
counterexample) per claim.
-/

theorem getLastD_irrel {α : Type} (m : List α) (x y : α) (h : m ≠ []) :
    m.getLastD x = m.getLastD y := by
  cases m with
  | nil => exact absurd rfl h
  | cons c cs => rw [List.getLastD_cons, List.getLastD_cons]

theorem getLastD_mem {α : Type} (l : List α) (d : α) (h : l ≠ []) :
    l.getLastD d ∈ l := by
  induction l generalizing d with
  | nil => exact absurd rfl h
  | cons a t ih =>
    rw [List.getLastD_cons]
    cases t with
    | nil => simp
    | cons b t2 => exact List.mem_cons_of_mem _ (ih a (by simp))

theorem getLastD_append {α : Type} (l m : List α) (d : α) (h : m ≠ []) :
    (l ++ m).getLastD d = m.getLastD d := by
  induction l generalizing d with
  | nil => rfl
  | cons a t ih =>
    rw [List.cons_append, List.getLastD_cons, ih a, getLastD_irrel m a d h]

theorem dropLast_append_ne_nil {α : Type} (l m : List α) (h : m ≠ []) :
    (l ++ m).dropLast = l ++ m.dropLast := by
  induction l with
  | nil => rfl
  | cons a t ih =>
    cases hm : t ++ m with
    | nil =>
      rcases List.append_eq_nil.mp hm with ⟨_, h2⟩
      exact absurd h2 h
    | cons b u =>
      simp only [List.cons_append, hm, List.dropLast]
      rw [← hm, ih]

/-- On a list of non-mpi backends the chain's fold step is `compose1`. -/
theorem foldr_step_eq_compose1 (l : List Launcher) (c : Str) (copies : ℕ)
    (h : ∀ x ∈ l, is_mpi_backend x = false) :
    l.foldr (fun x c =>
        (run_commands x (if handles_concurrency_internally x then copies else 1) c).headD [])
      c = l.foldr compose1 c := by
  induction l with
  | nil => rfl
  | cons a t ih =>
    have ha := h a (List.mem_cons_self a t)
    have ht := fun x hx => h x (List.mem_cons_of_mem a hx)
    rw [List.foldr_cons, List.foldr_cons, ih ht]
    simp [compose1, handles_concurrency_internally, ha]

theorem run_commands_mpi (L : Launcher) (n : ℕ) (c : Str)
    (h : is_mpi_backend L = true) :
    run_commands L n c = [build_mpi_command L n c] := by
  simp [run_commands, h]

theorem run_commands_nonmpi (L : Launcher) (n : ℕ) (c : Str)
    (h : is_mpi_backend L = false) :
    run_commands L n c =
      (List.range n).map (fun i => expand_macros L (build_base_command L n c) i) := by
  simp [run_commands, h, build_parallel_commands]

/-- Unfolding of `chain_of_commands` on a chain of length at least two. -/
theorem chain_cons₂ (L0 L1 : Launcher) (rest : List Launcher) (copies : ℕ) (override : Str) :
    chain_of_commands (L0 :: L1 :: rest) copies override =
      run_commands L0
        (if handles_concurrency_internally L0 then copies
         else if (L0 :: L1 :: rest).any handles_concurrency_internally then 1 else copies)
        ((L1 :: rest).dropLast.foldr
          (fun l c =>
            (run_commands l (if handles_concurrency_internally l then copies else 1) c).headD [])
          (if override ≠ [] then override
           else (run_commands ((L1 :: rest).getLastD noLauncher)
              (if handles_concurrency_internally ((L1 :: rest).getLastD noLauncher) then copies
               else 1) []).headD [])) := rfl

/--
Composition shape of a chain containing exactly one mpi-style backend: the
result is the mpi backend's command, built with the full `copies` count
around the inner chain, wrapped by every outer backend run for one copy.
-/
theorem chain_single_mpi (pre post : List Launcher) (Bm : Launcher) (copies : ℕ)
    (hpre : ∀ l ∈ pre, is_mpi_backend l = false)
    (hpost : ∀ l ∈ post, is_mpi_backend l = false)
    (hm : is_mpi_backend Bm = true) :
    chain_of_commands (pre ++ Bm :: post) copies [] =
      wrapPre pre ((run_commands Bm copies (innerChain post)).headD []) := by
  have hmh : handles_concurrency_internally Bm = true := hm
  cases pre with
  | nil =>
    cases post with
    | nil =>
      simp only [List.nil_append, chain_of_commands, wrapPre, innerChain]
      rw [run_commands_mpi Bm copies [] hm]
      simp
    | cons p ps =>
      rw [List.nil_append, chain_cons₂]
      have hlmem : (p :: ps).getLastD noLauncher ∈ p :: ps := getLastD_mem _ _ (by simp)
      have hlast : handles_concurrency_internally ((p :: ps).getLastD noLauncher) = false :=
        hpost _ hlmem
      rw [foldr_step_eq_compose1 _ _ copies
        (fun x hx => hpost x (List.dropLast_subset _ hx))]
      simp only [hmh, if_true, hlast, if_false, ne_eq, not_true_eq_false, if_neg,
        Bool.false_eq_true]
      simp only [wrapPre, innerChain]
      rw [run_commands_mpi Bm copies _ hm]
      rfl
  | cons q qs =>
    obtain ⟨L1, rest, hlr⟩ := List.exists_cons_of_ne_nil
      (show qs ++ Bm :: post ≠ [] by simp)
    rw [List.cons_append, hlr, chain_cons₂, ← hlr]
    have houter : handles_concurrency_internally q = false := hpre q (by simp)
    have hany : (q :: (qs ++ Bm :: post)).any handles_concurrency_internally = true := by
      simp only [List.any_cons, List.any_append, List.any_cons, handles_concurrency_internally,
        hm, Bool.true_or, Bool.or_true]
    have hqs : ∀ x ∈ qs, is_mpi_backend x = false :=
      fun x hx => hpre x (List.mem_cons_of_mem q hx)
    cases post with
    | nil =>
      have hlastD : (qs ++ Bm :: ([] : List Launcher)).getLastD noLauncher = Bm := by
        rw [getLastD_append qs _ _ (by simp)]
        simp
      have hdrop : (qs ++ Bm :: ([] : List Launcher)).dropLast = qs := by
        rw [dropLast_append_ne_nil qs _ (by simp)]
        simp
      rw [hlastD, hdrop, foldr_step_eq_compose1 _ _ copies hqs]
      simp only [houter, hany, hmh, if_true, if_false, ne_eq, not_true_eq_false, if_neg,
        Bool.false_eq_true]
      simp [wrapPre, innerChain]
    | cons p ps =>
      have hlastD : (qs ++ Bm :: p :: ps).getLastD noLauncher = (p :: ps).getLastD Bm := by
        rw [getLastD_append qs _ _ (by simp), List.getLastD_cons]
      have hlast : handles_concurrency_internally ((p :: ps).getLastD Bm) = false :=
        hpost _ (getLastD_mem _ _ (by simp))
      have hdrop : (qs ++ Bm :: p :: ps).dropLast = qs ++ Bm :: (p :: ps).dropLast := by
        rw [dropLast_append_ne_nil qs _ (by simp)]
        rfl
      rw [hlastD, hdrop, List.foldr_append, List.foldr_cons]
      rw [foldr_step_eq_compose1 ((p :: ps).dropLast) _ copies
        (fun x hx => hpost x (List.dropLast_subset _ hx))]
      rw [foldr_step_eq_compose1 qs _ copies hqs]
      simp only [houter, hany, hmh, hlast, if_true, if_false, ne_eq, not_true_eq_false, if_neg,
        Bool.false_eq_true]
      simp only [wrapPre, innerChain]
      rw [getLastD_irrel (p :: ps) noLauncher Bm (by simp)]

/--
Claim C1, counterexample.  The claim asserts that a chain whose unique
mpi-style backend sits at position `m > 1` emits exactly `copies` outermost
commands.  For the chain `[ssh, mpi]` (mpi at position 2) and `copies = 2`
the code emits exactly one outermost command, not two: the non-mpi outer
backend is invoked with `outer_copies = 1` because an inner backend handles
concurrency internally.
-/
theorem c1_counterexample :
    is_mpi_backend sshLauncher = false ∧ is_mpi_backend mpiLauncher = true ∧
    (chain_of_commands [sshLauncher, mpiLauncher] 2 []).length = 1 := by
  decide

/--
Claim C1 (amended).  For every backend chain containing exactly one
mpi-style backend `Bm` and every `copies ≥ 1`, the chain's outermost command
list has exactly one command — both when `Bm` is first and when it is not —
and the composed command is the unique mpi-style backend's command built
with copy count `copies` (so its `$MPL` macro is expanded there, once, with
the value `copies`: `copies` enters the composition only through
`run_commands Bm copies`), wrapped by every enclosing backend run for a
single copy.
-/
theorem c1_single_mpi_one_command (pre post : List Launcher) (Bm : Launcher)
    (copies : ℕ) (hc : 1 ≤ copies)
    (hpre : ∀ l ∈ pre, is_mpi_backend l = false)
    (hpost : ∀ l ∈ post, is_mpi_backend l = false)
    (hm : is_mpi_backend Bm = true) :
    (chain_of_commands (pre ++ Bm :: post) copies []).length = 1 ∧
    chain_of_commands (pre ++ Bm :: post) copies [] =
      wrapPre pre ((run_commands Bm copies (innerChain post)).headD []) := by
  have heq := chain_single_mpi pre post Bm copies hpre hpost hm
  refine ⟨?_, heq⟩
  rw [heq]
  cases pre with
  | nil => rfl
  | cons q qs =>
    have hq : is_mpi_backend q = false := hpre q (by simp)
    simp [wrapPre, run_commands_nonmpi q 1 _ hq]

/-- Witness for C1's amended theorem at the concrete chain `[ssh, mpi]`
    with two copies. -/
theorem c1_witness :
    (chain_of_commands ([sshLauncher] ++ mpiLauncher :: []) 2 []).length = 1 ∧
    chain_of_commands ([sshLauncher] ++ mpiLauncher :: []) 2 [] =
      wrapPre [sshLauncher] ((run_commands mpiLauncher 2 (innerChain [])).headD []) :=
  c1_single_mpi_one_command [sshLauncher] [] mpiLauncher 2 (by decide)
    (by decide) (by decide) (by decide)

/--
Claim C2.  For every backend chain in which no backend is mpi-style and
every `copies ≥ 1`, `chain_of_commands` returns exactly `copies` outermost
commands, one per copy index (the outer backend's command expanded at copy
indices `0, …, copies - 1`).
-/
theorem c2_no_mpi_copies_commands (L0 : Launcher) (ls : List Launcher) (copies : ℕ)
    (hc : 1 ≤ copies) (hall : ∀ l ∈ L0 :: ls, is_mpi_backend l = false) :
    (chain_of_commands (L0 :: ls) copies []).length = copies ∧
    ∃ nested, chain_of_commands (L0 :: ls) copies [] =
      (List.range copies).map
        (fun i => expand_macros L0 (build_base_command L0 copies nested) i) := by
  have h0 : is_mpi_backend L0 = false := hall L0 (by simp)
  cases ls with
  | nil =>
    rw [show chain_of_commands [L0] copies [] = run_commands L0 copies [] from rfl]
    rw [run_commands_nonmpi L0 copies [] h0]
    exact ⟨by simp, [], rfl⟩
  | cons L1 rest =>
    have hany : (L0 :: L1 :: rest).any handles_concurrency_internally = false := by
      rw [List.any_eq_false]
      intro x hx
      simp [handles_concurrency_internally, hall x hx]
    rw [chain_cons₂]
    have hred : (if handles_concurrency_internally L0 then copies
        else if (L0 :: L1 :: rest).any handles_concurrency_internally then 1 else copies)
        = copies := by
      simp [handles_concurrency_internally, h0, hany]
    rw [hred, run_commands_nonmpi L0 copies _ h0]
    exact ⟨by simp, _, rfl⟩

/-- Witness for C2 at the concrete chain `[ssh, local]` with two copies. -/
theorem c2_witness :
    (chain_of_commands [sshLauncher, localLauncher] 2 []).length = 2 ∧
    ∃ nested, chain_of_commands [sshLauncher, localLauncher] 2 [] =
      (List.range 2).map
        (fun i => expand_macros sshLauncher (build_base_command sshLauncher 2 nested) i) :=
  c2_no_mpi_copies_commands sshLauncher [localLauncher] 2 (by decide) (by decide)

/--
Claim C3 (code bug): the claim (and the spec) say a child exiting with a
non-zero status other than 127 has its metrics discarded — no row from that
copy is appended.  In the source, `Launcher.run` ignores `_wait_for_run`'s
`None` signal and unconditionally extracts metrics and appends the rows, so
a copy exiting with status 1 still contributes its rows; status 127 raises
and status 0 appends, as claimed.  This theorem evaluates the model at the
failing input (status 1).
-/
theorem c3_failed_copy_rows_appended :
    wait_for_run (.exited 1) = .ok none ∧
    runChildren [(.exited 1, [[("m".data, "NA".data)]])] =
      .ok [[("m".data, "NA".data)]] ∧
    runChildren [(.exited 127, [[("m".data, "NA".data)]])] =
      .error "Failed to execute: no such file or directory".data ∧
    runChildren [(.exited 0, [[("m".data, "7.25".data)]])] =
      .ok [[("m".data, "7.25".data)]] := by
  refine ⟨rfl, rfl, rfl, rfl⟩

/--
Claim C7, counterexample.  The string `"1.5\n"` does not fully match the
regex `-?\d+\.\d+` (it has a trailing newline), yet `RunData.add_run` stores
it as the floating-point number 1.5: Python's `re.match` lets `$` match just
before a trailing newline.  This refutes the claimed "stored as float iff
fully matches" equivalence.
-/
theorem c7_counterexample :
    coerceValue "1.5\n".data = MVal.num (parseFloat "1.5\n".data) ∧
    decMatch "1.5\n".data = false :=
  ⟨rfl, by decide⟩

/--
Claim C7 (amended).  A metric value string ingested by `RunData.add_run` is
stored as a floating-point number if and only if it matches
`^-?\d+(?:\.\d+)$` under Python `re.match` semantics — that is, it fully
matches `-?\d+\.\d+` optionally followed by one trailing newline; every
other string (including integer literals like "42" and "NA") is stored
unchanged as a string.
-/
theorem c7_coercion_iff (v : Str) :
    ((∃ q, coerceValue v = MVal.num q) ↔ pyReMatch v = true) ∧
    (pyReMatch v = false → coerceValue v = MVal.str v) := by
  by_cases hm : pyReMatch v = true
  · refine ⟨⟨fun _ => hm, fun _ => ⟨parseFloat v, by simp [coerceValue, hm]⟩⟩,
      fun hf => ?_⟩
    rw [hf] at hm
    cases hm
  · have hm' : pyReMatch v = false := by
      revert hm
      cases pyReMatch v <;> simp
    refine ⟨⟨fun hq => ?_, fun h => absurd h hm⟩, fun _ => by simp [coerceValue, hm']⟩
    obtain ⟨q, hq⟩ := hq
    rw [show coerceValue v = MVal.str v from by simp [coerceValue, hm']] at hq
    cases hq

/-- Witness for C7's amended theorem: "42" is not converted and is stored
    unchanged. -/
theorem c7_witness : coerceValue "42".data = MVal.str "42".data :=
  (c7_coercion_iff "42".data).2 (by decide)

theorem dictSet_ne_nil {α : Type} (d : List (Str × α)) (k : Str) (v : α) :
    dictSet d k v ≠ [] := by
  cases d with
  | nil => simp [dictSet]
  | cons p rest =>
    obtain ⟨k1, v1⟩ := p
    simp only [dictSet]
    split <;> simp

theorem dictUpdate_ne_nil {α : Type} (d e : List (Str × α))
    (h : d ≠ [] ∨ e ≠ []) : dictUpdate d e ≠ [] := by
  induction e generalizing d with
  | nil =>
    rcases h with h | h
    · exact h
    · exact absurd rfl h
  | cons p rest ih =>
    exact ih (dictSet d p.1 p.2) (Or.inl (dictSet_ne_nil d p.1 p.2))

theorem splitNl_ne_nil (s : Str) : splitNl s ≠ [] := by
  cases s with
  | nil => simp [splitNl]
  | cons c cs =>
    simp only [splitNl]
    split
    · simp
    · cases h : splitNl cs <;> simp

theorem splitNl_singleton (s : Str) (x : Str) (hs : s ≠ []) (h : splitNl s = [x]) :
    x ≠ [] := by
  cases s with
  | nil => exact absurd rfl hs
  | cons c cs =>
    simp only [splitNl] at h
    by_cases hc : c = '\n'
    · rw [if_pos hc] at h
      have := splitNl_ne_nil cs
      cases hnl : splitNl cs with
      | nil => exact absurd hnl this
      | cons w ws =>
        rw [hnl] at h
        cases h
    · rw [if_neg hc] at h
      cases hnl : splitNl cs with
      | nil => exact absurd hnl (splitNl_ne_nil cs)
      | cons w ws =>
        rw [hnl] at h
        cases h
        simp

theorem splitLines_ne_nil (s : Str) (hs : s ≠ []) : splitLines s ≠ [] := by
  cases s with
  | nil => exact absurd rfl hs
  | cons c cs =>
    simp only [splitLines]
    split
    · rename_i hlast
      cases hnl : splitNl (c :: cs) with
      | nil => exact absurd hnl (splitNl_ne_nil _)
      | cons w ws =>
        cases ws with
        | nil =>
          exfalso
          rw [hnl] at hlast
          simp only [List.getLastD] at hlast
          exact splitNl_singleton (c :: cs) w (by simp) hnl (by simpa using hlast)
        | cons w2 ws2 => simp
    · exact splitNl_ne_nil _

theorem parseAutoLines_ne_nil (ls : List Str) (acc m : List (Str × List Str))
    (h : parseAutoLines ls acc = .ok m) (hacc : acc ≠ []) : m ≠ [] := by
  induction ls generalizing acc with
  | nil =>
    simp only [parseAutoLines] at h
    cases h
    exact hacc
  | cons line rest ih =>
    simp only [parseAutoLines] at h
    split at h
    · split at h
      · exact ih _ h (dictSet_ne_nil _ _ _)
      · exact ih _ h (dictSet_ne_nil _ _ _)
    · cases h

theorem parse_auto_metrics_ne_nil (output : Str) (m : List (Str × List Str))
    (h : parse_auto_metrics output = .ok m) (ho : output ≠ []) : m ≠ [] := by
  unfold parse_auto_metrics at h
  cases hls : splitLines output with
  | nil => exact absurd hls (splitLines_ne_nil output ho)
  | cons l rest =>
    rw [hls] at h
    simp only [parseAutoLines] at h
    split at h
    · split at h
      · exact parseAutoLines_ne_nil _ _ _ h (dictSet_ne_nil _ _ _)
      · exact parseAutoLines_ne_nil _ _ _ h (dictSet_ne_nil _ _ _)
    · cases h

theorem collectMetrics_ne_nil (items : List (Str × ExtractResult))
    (acc m : List (Str × List Str)) (h : collectMetrics items acc = .ok m)
    (hor : items ≠ [] ∨ acc ≠ []) : m ≠ [] := by
  induction items generalizing acc with
  | nil =>
    simp only [collectMetrics] at h
    cases h
    rcases hor with h1 | h1
    · exact absurd rfl h1
    · exact h1
  | cons it rest ih =>
    obtain ⟨name, res⟩ := it
    simp only [collectMetrics] at h
    split at h
    · exact ih _ h (Or.inr (dictSet_ne_nil _ _ _))
    · split at h
      · exact ih _ h (Or.inr (dictSet_ne_nil _ _ _))
      · rename_i hcond _
        cases hpm : parse_auto_metrics res.stdout with
        | error e =>
          rw [hpm] at h
          cases h
        | ok mets =>
          rw [hpm] at h
          push_neg at hcond
          have hmets : mets ≠ [] :=
            parse_auto_metrics_ne_nil res.stdout mets hpm hcond.2.2
          exact ih _ h (Or.inr (dictUpdate_ne_nil _ _ (Or.inr hmets)))

theorem dedup_length_one {α : Type} [DecidableEq α] (l : List α) (hne : l ≠ []) :
    l.dedup.length = 1 ↔ ∀ a ∈ l, ∀ b ∈ l, a = b := by
  constructor
  · intro h
    obtain ⟨a, ha⟩ := List.length_eq_one.mp h
    intro x hx y hy
    have hxa : x = a := by
      have := List.mem_dedup.mpr hx
      rw [ha] at this
      simpa using this
    have hya : y = a := by
      have := List.mem_dedup.mpr hy
      rw [ha] at this
      simpa using this
    rw [hxa, hya]
  · intro hall
    cases l with
    | nil => exact absurd rfl hne
    | cons h t =>
      have hmem : h ∈ (h :: t).dedup := List.mem_dedup.mpr (by simp)
      have hsub : ∀ x ∈ (h :: t).dedup, x = h := by
        intro x hx
        exact hall x (List.mem_dedup.mp hx) h (by simp)
      have hnd : (h :: t).dedup.Nodup := List.nodup_dedup _
      cases hd : (h :: t).dedup with
      | nil =>
        rw [hd] at hmem
        cases hmem
      | cons a rest =>
        cases rest with
        | nil => rfl
        | cons b rest2 =>
          exfalso
          rw [hd] at hsub hnd
          have hab : a = b := by
            rw [hsub a (by simp), hsub b (by simp)]
          simp only [List.nodup_cons, List.mem_cons] at hnd
          exact hnd.1 (Or.inl hab)

theorem headD_mem {α : Type} (l : List α) (d : α) (h : l ≠ []) : l.headD d ∈ l := by
  cases l with
  | nil => exact absurd rfl h
  | cons a t => simp [List.headD]

/--
Claim C8.  For every non-empty set of metric descriptors whose collection
succeeds, `_get_metrics` raises a fatal exception if and only if the
collected per-metric value lists have differing lengths; when all lengths
are equal it returns one row map per row index, each containing a value for
every collected metric.
-/
theorem c8_row_count_check (items : List (Str × ExtractResult))
    (metrics : List (Str × List Str)) (hne : items ≠ [])
    (hcol : collectMetrics items [] = .ok metrics) :
    ((∃ e, get_metrics items = .error e) ↔
      ∃ p ∈ metrics, ∃ q ∈ metrics, p.2.length ≠ q.2.length) ∧
    ((∀ p ∈ metrics, ∀ q ∈ metrics, p.2.length = q.2.length) →
      ∃ rows, get_metrics items = .ok rows ∧
        (∀ p ∈ metrics, rows.length = p.2.length) ∧
        ∀ row ∈ rows, row.map Prod.fst = metrics.map Prod.fst) := by
  have hmne : metrics ≠ [] := collectMetrics_ne_nil _ _ _ hcol (Or.inl hne)
  have hmapne : metrics.map (fun p => p.2.length) ≠ [] := by simp [hmne]
  have hiff := dedup_length_one (metrics.map (fun p => p.2.length)) hmapne
  have htrans :
      (∀ a ∈ metrics.map (fun p => p.2.length), ∀ b ∈ metrics.map (fun p => p.2.length),
        a = b) ↔ (∀ p ∈ metrics, ∀ q ∈ metrics, p.2.length = q.2.length) := by
    constructor
    · intro hall p hp q hq
      exact hall _ (List.mem_map_of_mem _ hp) _ (List.mem_map_of_mem _ hq)
    · intro hall a ha b hb
      obtain ⟨p, hp, rfl⟩ := List.mem_map.mp ha
      obtain ⟨q, hq, rfl⟩ := List.mem_map.mp hb
      exact hall p hp q hq
  have hget : get_metrics items =
      if (metrics.map (fun p => p.2.length)).dedup.length ≠ 1 then
        .error "Some metrics have fewer rows than others".data
      else
        .ok ((List.range ((metrics.headD ([], [])).2.length)).map
          (fun i => metrics.map (fun p => (p.1, p.2.getD i [])))) := by
    unfold get_metrics
    rw [if_neg hne, hcol]
  by_cases hall : ∀ p ∈ metrics, ∀ q ∈ metrics, p.2.length = q.2.length
  · have hded : (metrics.map (fun p => p.2.length)).dedup.length = 1 :=
      hiff.mpr (htrans.mpr hall)
    rw [hget, if_neg (by simp [hded])]
    constructor
    · constructor
      · rintro ⟨e, he⟩
        cases he
      · rintro ⟨p, hp, q, hq, hneq⟩
        exact absurd (hall p hp q hq) hneq
    · intro _
      refine ⟨_, rfl, ?_, ?_⟩
      · intro p hp
        simp only [List.length_map, List.length_range]
        exact hall (metrics.headD ([], [])) (headD_mem _ _ hmne) p hp
      · intro row hrow
        obtain ⟨i, _, rfl⟩ := List.mem_map.mp hrow
        simp [List.map_map]
  · have hded : ¬(metrics.map (fun p => p.2.length)).dedup.length = 1 :=
      fun h => hall (htrans.mp (hiff.mp h))
    rw [hget, if_pos hded]
    push_neg at hall
    obtain ⟨p, hp, q, hq, hne2⟩ := hall
    constructor
    · exact ⟨fun _ => ⟨p, hp, q, hq, hne2⟩, fun _ => ⟨_, rfl⟩⟩
    · intro h
      exact absurd (h p hp q hq) hne2

/-- Witness for C8 at two metrics with two rows each: the check passes and
    two complete rows are returned. -/
theorem c8_witness :
    (∃ e, get_metrics
        [("m1".data, ⟨0, [], "1.0 2.0".data⟩), ("m2".data, ⟨0, [], "3.0 4.0".data⟩)] =
      .error e) ↔
      (∃ p ∈ [("m1".data, ["1.0".data, "2.0".data]), ("m2".data, ["3.0".data, "4.0".data])],
       ∃ q ∈ [("m1".data, ["1.0".data, "2.0".data]), ("m2".data, ["3.0".data, "4.0".data])],
        p.2.length ≠ q.2.length) :=
  (c8_row_count_check
    [("m1".data, ⟨0, [], "1.0 2.0".data⟩), ("m2".data, ⟨0, [], "3.0 4.0".data⟩)]
    [("m1".data, ["1.0".data, "2.0".data]), ("m2".data, ["3.0".data, "4.0".data])]
    (by decide) rfl).1

theorem sum_const (l : List ℚ) (c : ℚ) (h : ∀ x ∈ l, x = c) :
    l.sum = l.length * c := by
  induction l with
  | nil => simp
  | cons a t ih =>
    rw [List.sum_cons, ih (fun x hx => h x (List.mem_cons_of_mem a hx)), h a (by simp),
      List.length_cons]
    push_cast
    ring

theorem mean_const (l : List ℚ) (c : ℚ) (hne : l ≠ []) (h : ∀ x ∈ l, x = c) :
    mean l = c := by
  unfold mean
  rw [sum_const l c h]
  have hlen : (l.length : ℚ) ≠ 0 := by
    have := List.length_pos.mpr hne
    exact_mod_cast Nat.pos_iff_ne_zero.mp this
  field_simp

theorem sampleVar_const (l : List ℚ) (c : ℚ) (h : ∀ x ∈ l, x = c) :
    sampleVar l = 0 := by
  cases l with
  | nil => simp [sampleVar]
  | cons a t =>
    unfold sampleVar
    have hm : mean (a :: t) = c := mean_const _ c (by simp) h
    have hz : ∀ y ∈ (a :: t).map (fun x => (x - mean (a :: t)) ^ 2), y = 0 := by
      intro y hy
      obtain ⟨x, hx, rfl⟩ := List.mem_map.mp hy
      rw [hm, h x hx]
      ring
    rw [List.sum_eq_zero hz, zero_div]

theorem se_call_state (sq : ℚ → ℚ) (cfg : RepConfig) (st : RState) (vals : List ℚ) :
    (se_call sq cfg st vals).2 = ⟨st.count + 1, st.runtimes ++ vals⟩ := by
  simp only [se_call]
  split
  · rfl
  · split
    · rfl
    · split
      · rfl
      · rfl

theorem ci_call_state (sq : ℚ → ℚ) (tppf : ℚ → ℕ → ℚ) (cfg : CIConfig) (st : RState)
    (vals : List ℚ) :
    (ci_call sq tppf cfg st vals).2 = ⟨st.count + 1, st.runtimes ++ vals⟩ := by
  simp only [ci_call]
  split
  · rfl
  · split
    · rfl
    · split
      · rfl
      · rfl

theorem hdi_call_state (hdi : List ℚ → ℚ × ℚ) (cfg : RepConfig) (st : RState)
    (vals : List ℚ) :
    (hdi_call hdi cfg st vals).2 = ⟨st.count + 1, st.runtimes ++ vals⟩ := by
  simp only [hdi_call]
  split
  · rfl
  · split
    · rfl
    · split
      · rfl
      · rfl

theorem repTrace_const (step : RState → List ℚ → Option Bool × RState)
    (hstep : ∀ st vals, (step st vals).2 = ⟨st.count + 1, st.runtimes ++ vals⟩)
    (data : ℕ → List ℚ) (c : ℚ) (hdata : ∀ i, ∀ x ∈ data i, x = c) (k : ℕ) :
    (repTrace step initR data k).count = k ∧
    ∀ x ∈ (repTrace step initR data k).runtimes, x = c := by
  induction k with
  | zero =>
    refine ⟨rfl, ?_⟩
    intro x hx
    simp [repTrace, initR] at hx
  | succ k ih =>
    simp only [repTrace, hstep]
    refine ⟨by simp [ih.1], ?_⟩
    intro x hx
    rcases List.mem_append.mp hx with h1 | h1
    · exact ih.2 x h1
    · exact hdata (k + 1) x h1

theorem se_call_const (sq : ℚ → ℚ) (cfg : RepConfig) (st : RState) (vals : List ℚ)
    (c : ℚ) (hsq : sq 0 = 0) (hth : 0 ≤ cfg.thresh)
    (hconst : ∀ x ∈ st.runtimes ++ vals, x = c) :
    (se_call sq cfg st vals).1 =
      if st.count + 1 ≥ cfg.max_repeats then some false
      else if st.count + 1 > 1 then some (decide (st.count + 1 ≤ cfg.min_repeats))
      else if st.count + 1 ≤ cfg.min_repeats then some true
      else none := by
  simp only [se_call, sampleVar_const _ c hconst, hsq, zero_div, ite_self]
  rw [show decide ((0 : ℚ) > cfg.thresh) = false from decide_eq_false (not_lt.mpr hth)]
  simp only [Bool.or_false]
  split
  · rfl
  · split
    · rfl
    · split
      · rfl
      · rfl

theorem ci_call_const (sq : ℚ → ℚ) (tppf : ℚ → ℕ → ℚ) (cfg : CIConfig) (st : RState)
    (vals : List ℚ) (c : ℚ) (hsq : sq 0 = 0) (hth : 0 ≤ cfg.thresh)
    (hconst : ∀ x ∈ st.runtimes ++ vals, x = c) :
    (ci_call sq tppf cfg st vals).1 =
      if st.count + 1 ≥ cfg.max_repeats then some false
      else if st.count + 1 > 1 then some (decide (st.count + 1 < cfg.min_repeats))
      else if st.count + 1 < cfg.min_repeats then some true
      else none := by
  simp only [ci_call, sampleVar_const _ c hconst, hsq, mul_zero, zero_div]
  rw [show decide ((0 : ℚ) > cfg.thresh) = false from decide_eq_false (not_lt.mpr hth)]
  simp only [Bool.or_false]
  split
  · rfl
  · split
    · rfl
    · split
      · rfl
      · rfl

theorem hdi_call_const (hdi : List ℚ → ℚ × ℚ) (cfg : RepConfig) (st : RState)
    (vals : List ℚ) (c : ℚ) (hth : 0 ≤ cfg.thresh)
    (hhdi : ∀ l : List ℚ, (∀ x ∈ l, x = c) → (hdi l).1 = (hdi l).2)
    (hconst : ∀ x ∈ st.runtimes ++ vals, x = c) :
    (hdi_call hdi cfg st vals).1 =
      if st.count + 1 ≥ cfg.max_repeats then some false
      else if st.count + 1 > 1 then some (decide (st.count + 1 ≤ cfg.min_repeats))
      else if st.count + 1 ≤ cfg.min_repeats then some true
      else none := by
  simp only [hdi_call, hhdi _ hconst, sub_self, zero_div, ite_self]
  rw [show decide ((0 : ℚ) > cfg.thresh) = false from decide_eq_false (not_lt.mpr hth)]
  simp only [Bool.or_false]
  split
  · rfl
  · split
    · rfl
    · split
      · rfl
      · rfl

/-- Closed form of the `j`-th SE invocation on constant data. -/
theorem se_res (sq : ℚ → ℚ) (cfg : RepConfig) (data : ℕ → List ℚ) (c : ℚ)
    (hsq : sq 0 = 0) (hth : 0 ≤ cfg.thresh)
    (hdata : ∀ i, ∀ x ∈ data i, x = c) (i : ℕ) (hi : 1 ≤ i) :
    callResult (se_call sq cfg) initR data i =
      if i ≥ cfg.max_repeats then some false
      else if i > 1 then some (decide (i ≤ cfg.min_repeats))
      else if i ≤ cfg.min_repeats then some true
      else none := by
  have htr := repTrace_const (se_call sq cfg) (se_call_state sq cfg) data c hdata (i - 1)
  unfold callResult
  rw [se_call_const sq cfg _ _ c hsq hth (by
    intro x hx
    rcases List.mem_append.mp hx with h1 | h1
    · exact htr.2 x h1
    · exact hdata i x h1)]
  rw [htr.1, Nat.sub_add_cancel hi]

/-- Closed form of the `j`-th CI invocation on constant data. -/
theorem ci_res (sq : ℚ → ℚ) (tppf : ℚ → ℕ → ℚ) (cfg : CIConfig) (data : ℕ → List ℚ)
    (c : ℚ) (hsq : sq 0 = 0) (hth : 0 ≤ cfg.thresh)
    (hdata : ∀ i, ∀ x ∈ data i, x = c) (i : ℕ) (hi : 1 ≤ i) :
    callResult (ci_call sq tppf cfg) initR data i =
      if i ≥ cfg.max_repeats then some false
      else if i > 1 then some (decide (i < cfg.min_repeats))
      else if i < cfg.min_repeats then some true
      else none := by
  have htr := repTrace_const (ci_call sq tppf cfg) (ci_call_state sq tppf cfg) data c hdata (i - 1)
  unfold callResult
  rw [ci_call_const sq tppf cfg _ _ c hsq hth (by
    intro x hx
    rcases List.mem_append.mp hx with h1 | h1
    · exact htr.2 x h1
    · exact hdata i x h1)]
  rw [htr.1, Nat.sub_add_cancel hi]

/-- Closed form of the `j`-th HDI invocation on constant data. -/
theorem hdi_res (hdi : List ℚ → ℚ × ℚ) (cfg : RepConfig) (data : ℕ → List ℚ)
    (c : ℚ) (hth : 0 ≤ cfg.thresh)
    (hhdi : ∀ l : List ℚ, (∀ x ∈ l, x = c) → (hdi l).1 = (hdi l).2)
    (hdata : ∀ i, ∀ x ∈ data i, x = c) (i : ℕ) (hi : 1 ≤ i) :
    callResult (hdi_call hdi cfg) initR data i =
      if i ≥ cfg.max_repeats then some false
      else if i > 1 then some (decide (i ≤ cfg.min_repeats))
      else if i ≤ cfg.min_repeats then some true
      else none := by
  have htr := repTrace_const (hdi_call hdi cfg) (hdi_call_state hdi cfg) data c hdata (i - 1)
  unfold callResult
  rw [hdi_call_const hdi cfg _ _ c hth hhdi (by
    intro x hx
    rcases List.mem_append.mp hx with h1 | h1
    · exact htr.2 x h1
    · exact hdata i x h1)]
  rw [htr.1, Nat.sub_add_cancel hi]

theorem se_stop (sq : ℚ → ℚ) (cfg : RepConfig) (data : ℕ → List ℚ) (c : ℚ)
    (hsq : sq 0 = 0) (hth : 0 ≤ cfg.thresh)
    (hmm : cfg.min_repeats ≤ cfg.max_repeats) (hmin : 1 ≤ cfg.min_repeats)
    (hdata : ∀ i, ∀ x ∈ data i, x = c) :
    ∃ j, 1 ≤ j ∧ j ≤ cfg.min_repeats + 1 ∧
      callResult (se_call sq cfg) initR data j = some false ∧
      ∀ i, 1 ≤ i → i < j → callResult (se_call sq cfg) initR data i = some true := by
  have hres := se_res sq cfg data c hsq hth hdata
  by_cases hcase : cfg.max_repeats ≤ cfg.min_repeats + 1
  · refine ⟨cfg.max_repeats, by omega, by omega, ?_, ?_⟩
    · rw [hres _ (by omega), if_pos (by omega)]
    · intro i h1 hlt
      rw [hres i h1, if_neg (by omega)]
      by_cases h2 : 1 < i
      · rw [if_pos h2]
        simp only [Option.some.injEq, decide_eq_true_eq]
        omega
      · rw [if_neg h2, if_pos (by omega)]
  · refine ⟨cfg.min_repeats + 1, by omega, le_refl _, ?_, ?_⟩
    · rw [hres _ (by omega), if_neg (by omega), if_pos (by omega)]
      simp only [Option.some.injEq, decide_eq_false_iff_not]
      omega
    · intro i h1 hlt
      rw [hres i h1, if_neg (by omega)]
      by_cases h2 : 1 < i
      · rw [if_pos h2]
        simp only [Option.some.injEq, decide_eq_true_eq]
        omega
      · rw [if_neg h2, if_pos (by omega)]

theorem ci_stop (sq : ℚ → ℚ) (tppf : ℚ → ℕ → ℚ) (cfg : CIConfig) (data : ℕ → List ℚ)
    (c : ℚ) (hsq : sq 0 = 0) (hth : 0 ≤ cfg.thresh)
    (hmm : cfg.min_repeats ≤ cfg.max_repeats) (hmin : 2 ≤ cfg.min_repeats)
    (hdata : ∀ i, ∀ x ∈ data i, x = c) :
    ∃ j, 1 ≤ j ∧ j ≤ cfg.min_repeats + 1 ∧
      callResult (ci_call sq tppf cfg) initR data j = some false ∧
      ∀ i, 1 ≤ i → i < j → callResult (ci_call sq tppf cfg) initR data i = some true := by
  have hres := ci_res sq tppf cfg data c hsq hth hdata
  refine ⟨cfg.min_repeats, by omega, by omega, ?_, ?_⟩
  · rw [hres _ (by omega)]
    by_cases hcase : cfg.min_repeats ≥ cfg.max_repeats
    · rw [if_pos hcase]
    · rw [if_neg hcase, if_pos (by omega)]
      simp only [Option.some.injEq, decide_eq_false_iff_not]
      omega
  · intro i h1 hlt
    rw [hres i h1, if_neg (by omega)]
    by_cases h2 : 1 < i
    · rw [if_pos h2]
      simp only [Option.some.injEq, decide_eq_true_eq]
      omega
    · rw [if_neg h2, if_pos (by omega)]

theorem hdi_stop (hdi : List ℚ → ℚ × ℚ) (cfg : RepConfig) (data : ℕ → List ℚ)
    (c : ℚ) (hth : 0 ≤ cfg.thresh)
    (hhdi : ∀ l : List ℚ, (∀ x ∈ l, x = c) → (hdi l).1 = (hdi l).2)
    (hmm : cfg.min_repeats ≤ cfg.max_repeats) (hmin : 1 ≤ cfg.min_repeats)
    (hdata : ∀ i, ∀ x ∈ data i, x = c) :
    ∃ j, 1 ≤ j ∧ j ≤ cfg.min_repeats + 1 ∧
      callResult (hdi_call hdi cfg) initR data j = some false ∧
      ∀ i, 1 ≤ i → i < j → callResult (hdi_call hdi cfg) initR data i = some true := by
  have hres := hdi_res hdi cfg data c hth hhdi hdata
  by_cases hcase : cfg.max_repeats ≤ cfg.min_repeats + 1
  · refine ⟨cfg.max_repeats, by omega, by omega, ?_, ?_⟩
    · rw [hres _ (by omega), if_pos (by omega)]
    · intro i h1 hlt
      rw [hres i h1, if_neg (by omega)]
      by_cases h2 : 1 < i
      · rw [if_pos h2]
        simp only [Option.some.injEq, decide_eq_true_eq]
        omega
      · rw [if_neg h2, if_pos (by omega)]
  · refine ⟨cfg.min_repeats + 1, by omega, le_refl _, ?_, ?_⟩
    · rw [hres _ (by omega), if_neg (by omega), if_pos (by omega)]
      simp only [Option.some.injEq, decide_eq_false_iff_not]
      omega
    · intro i h1 hlt
      rw [hres i h1, if_neg (by omega)]
      by_cases h2 : 1 < i
      · rw [if_pos h2]
        simp only [Option.some.injEq, decide_eq_true_eq]
        omega
      · rw [if_neg h2, if_pos (by omega)]

/--
Claim C4, counterexample.  An SE repeater configured with `min = 0`,
`max = 2` (so `min ≤ max`) and the default threshold, fed a constant metric,
does not return False on its first (= `min + 1`-th) invocation: the Python
code raises `UnboundLocalError` instead, because `rel_se` is only assigned
when `count > 1` yet the return expression reads it (`1 <= 0` being false).
The model returns `none` (the raise), not `some false`.
-/
theorem c4_counterexample :
    callResult (se_call (fun _ => 0) ⟨1 / 20, 0, 2⟩) initR (fun _ => [1]) 1 = none := by
  rfl

/--
Claim C4 (amended).  For SE, CI and HDI repeaters configured with
`min ≤ max`, a nonnegative error threshold (as in the defaults), and
`min ≥ 1` for SE and HDI and `min ≥ 2` for CI (configurations outside these
bounds raise `UnboundLocalError` instead of returning), if every repetition
delivers metric values all equal to the same constant `c` (its mean, with
`c` arbitrary — even the nonzero-mean assumption is not needed, since the
sample standard deviation of a constant sample is exactly zero), then the
repeater returns False (stop) at or before invocation `min + 1`, every
earlier invocation returning True.  `sq`, `tppf` and `hdi` are the external
square root, Student-t quantile, and highest-density-interval routines;
`sq 0 = 0` and that `hdi` returns a width-zero interval on a constant
sample are the only facts used about them.
-/
theorem c4_stop_by_min_succ (sq : ℚ → ℚ) (tppf : ℚ → ℕ → ℚ) (hdi : List ℚ → ℚ × ℚ)
    (cfgS cfgH : RepConfig) (cfgC : CIConfig) (data : ℕ → List ℚ) (c : ℚ)
    (hsq : sq 0 = 0)
    (hhdi : ∀ l : List ℚ, (∀ x ∈ l, x = c) → (hdi l).1 = (hdi l).2)
    (hthS : 0 ≤ cfgS.thresh) (hthC : 0 ≤ cfgC.thresh) (hthH : 0 ≤ cfgH.thresh)
    (hmmS : cfgS.min_repeats ≤ cfgS.max_repeats)
    (hmmC : cfgC.min_repeats ≤ cfgC.max_repeats)
    (hmmH : cfgH.min_repeats ≤ cfgH.max_repeats)
    (hminS : 1 ≤ cfgS.min_repeats) (hminC : 2 ≤ cfgC.min_repeats)
    (hminH : 1 ≤ cfgH.min_repeats)
    (hdata : ∀ i, data i ≠ [] ∧ ∀ x ∈ data i, x = c) :
    (∃ j, 1 ≤ j ∧ j ≤ cfgS.min_repeats + 1 ∧
      callResult (se_call sq cfgS) initR data j = some false ∧
      ∀ i, 1 ≤ i → i < j → callResult (se_call sq cfgS) initR data i = some true) ∧
    (∃ j, 1 ≤ j ∧ j ≤ cfgC.min_repeats + 1 ∧
      callResult (ci_call sq tppf cfgC) initR data j = some false ∧
      ∀ i, 1 ≤ i → i < j → callResult (ci_call sq tppf cfgC) initR data i = some true) ∧
    (∃ j, 1 ≤ j ∧ j ≤ cfgH.min_repeats + 1 ∧
      callResult (hdi_call hdi cfgH) initR data j = some false ∧
      ∀ i, 1 ≤ i → i < j → callResult (hdi_call hdi cfgH) initR data i = some true) := by
  have hd : ∀ i, ∀ x ∈ data i, x = c := fun i => (hdata i).2
  exact ⟨se_stop sq cfgS data c hsq hthS hmmS hminS hd,
    ci_stop sq tppf cfgC data c hsq hthC hmmC hminC hd,
    hdi_stop hdi cfgH data c hthH hhdi hmmH hminH hd⟩

/-- Witness for C4's amended theorem at concrete configurations
    (SE/HDI with min 1, CI with min 2, max 100, default-like thresholds,
    constant metric value 1). -/
theorem c4_witness :
    (∃ j, 1 ≤ j ∧ j ≤ 1 + 1 ∧
      callResult (se_call (fun _ => 0) ⟨1 / 20, 1, 100⟩) initR (fun _ => [1]) j
        = some false ∧
      ∀ i, 1 ≤ i → i < j →
        callResult (se_call (fun _ => 0) ⟨1 / 20, 1, 100⟩) initR (fun _ => [1]) i
          = some true) ∧
    (∃ j, 1 ≤ j ∧ j ≤ 2 + 1 ∧
      callResult (ci_call (fun _ => 0) (fun _ _ => 0) ⟨19 / 20, 1 / 20, 2, 100⟩)
        initR (fun _ => [1]) j = some false ∧
      ∀ i, 1 ≤ i → i < j →
        callResult (ci_call (fun _ => 0) (fun _ _ => 0) ⟨19 / 20, 1 / 20, 2, 100⟩)
          initR (fun _ => [1]) i = some true) ∧
    (∃ j, 1 ≤ j ∧ j ≤ 1 + 1 ∧
      callResult (hdi_call (fun _ => (0, 0)) ⟨1 / 10, 1, 200⟩) initR (fun _ => [1]) j
        = some false ∧
      ∀ i, 1 ≤ i → i < j →
        callResult (hdi_call (fun _ => (0, 0)) ⟨1 / 10, 1, 200⟩) initR (fun _ => [1]) i
          = some true) :=
  c4_stop_by_min_succ (fun _ => 0) (fun _ _ => 0) (fun _ => (0, 0))
    ⟨1 / 20, 1, 100⟩ ⟨1 / 10, 1, 200⟩ ⟨19 / 20, 1 / 20, 2, 100⟩ (fun _ => [1]) 1
    rfl (fun _ _ => rfl) (by norm_num) (by norm_num) (by norm_num)
    (by norm_num) (by norm_num) (by norm_num) (by norm_num) (by norm_num) (by norm_num)
    (fun i => ⟨by simp, by intro x hx; simpa using hx⟩)

/--
Claim C5 (code bug): the claim says every repeater invocation appends the
chosen metric's values to the internal sample exactly once and increments
the count by one.  `CountRepeater` (and the statistical repeaters that
reach it through `super().__call__`) do exactly that, and `KSRepeater`
does increment by exactly one — but `KSRepeater.__call__` appends the
values a second time (repeater.py line 521) whenever `min ≤ count < max`,
because `super().__call__` has already appended them; the sample then grows
by twice the RunData's value count, and the `count/2` midpoint split the
class documents ("compare first half of the data to the second half") no
longer lands at the middle.  Evaluated here at the failing input: a KS
repeater with `min = 1`, `max = 1000` receiving one value.
-/
theorem c5_ks_appends_twice :
    (∀ (lim : ℕ) (st : RState) (vals : List ℚ),
      (count_call lim st vals).2 = ⟨st.count + 1, st.runtimes ++ vals⟩) ∧
    (∀ (ks : List ℚ → List ℚ → ℚ) (cfg : RepConfig) (st : RState) (vals : List ℚ),
      ((ks_call ks cfg st vals).2).count = st.count + 1) ∧
    (ks_call (fun _ _ => 0) ⟨1 / 10, 1, 1000⟩ initR [(5 : ℚ)]).2.runtimes = [5, 5] ∧
    (ks_call (fun _ _ => 0) ⟨1 / 10, 1, 1000⟩ initR [(5 : ℚ)]).2.count = 1 := by
  refine ⟨fun lim st vals => rfl, fun ks cfg st vals => ?_, rfl, rfl⟩
  simp only [ks_call]
  split
  · rfl
  · split
    · rfl
    · rfl

theorem dictLookup_dictSet_self {α : Type} (d : List (Str × α)) (k : Str) (v : α) :
    dictLookup (dictSet d k v) k = some v := by
  induction d with
  | nil => simp [dictSet, dictLookup]
  | cons p rest ih =>
    obtain ⟨k1, v1⟩ := p
    simp only [dictSet]
    by_cases h : k1 = k
    · rw [if_pos h]
      simp [dictLookup, h]
    · rw [if_neg h]
      simp [dictLookup, h, ih]

theorem dictLookup_dictSet_ne {α : Type} (d : List (Str × α)) (k k2 : Str) (v : α)
    (h : k2 ≠ k) : dictLookup (dictSet d k v) k2 = dictLookup d k2 := by
  induction d with
  | nil =>
    simp only [dictSet, dictLookup]
    rw [if_neg (fun he => h he.symm)]
  | cons p rest ih =>
    obtain ⟨k1, v1⟩ := p
    simp only [dictSet]
    by_cases h1 : k1 = k
    · rw [if_pos h1]
      simp only [dictLookup]
      rw [if_neg (by rw [h1]; exact fun he => h he.symm), if_neg (by rw [h1]; exact fun he => h he.symm)]
    · rw [if_neg h1]
      simp only [dictLookup]
      by_cases h2 : k1 = k2
      · rw [if_pos h2, if_pos h2]
      · rw [if_neg h2, if_neg h2, ih]

theorem dictLookup_not_mem {α : Type} (d : List (Str × α)) (k : Str)
    (h : k ∉ d.map Prod.fst) : dictLookup d k = none := by
  induction d with
  | nil => rfl
  | cons p rest ih =>
    obtain ⟨k1, v1⟩ := p
    simp only [List.map_cons, List.mem_cons] at h
    push_neg at h
    simp only [dictLookup]
    rw [if_neg (fun he => h.1 he.symm)]
    exact ih h.2

theorem merge_nil (a : List (Str × Val)) : merge a [] = a := by
  simp [merge]

theorem merge_cons (a : List (Str × Val)) (k0 : Str) (bv0 : Val)
    (rest : List (Str × Val)) :
    merge a ((k0, bv0) :: rest) =
      merge (dictSet a k0 (mergeVal (dictLookup a k0) bv0)) rest := by
  simp [merge]

theorem mergeVal_dict (ad bd : List (Str × Val)) :
    mergeVal (some (Val.vdict ad)) (Val.vdict bd) = Val.vdict (merge ad bd) := by
  simp [mergeVal]

theorem mergeVal_not_dict (av : Option Val) (bv : Val)
    (h : ∀ ad bd, ¬(av = some (Val.vdict ad) ∧ bv = Val.vdict bd)) :
    mergeVal av bv = bv := by
  unfold mergeVal
  split
  · rename_i ad bd
    exact ((h ad bd) ⟨rfl, rfl⟩).elim
  · rfl

theorem merge_lookup_none (a b : List (Str × Val)) (k : Str)
    (h : dictLookup b k = none) :
    dictLookup (merge a b) k = dictLookup a k := by
  induction b generalizing a with
  | nil => rw [merge_nil]
  | cons p rest ih =>
    obtain ⟨k0, bv0⟩ := p
    rw [merge_cons]
    have hk : ¬(k0 = k) := by
      intro he
      simp [dictLookup, he] at h
    simp only [dictLookup, if_neg hk] at h
    rw [ih _ h, dictLookup_dictSet_ne _ _ _ _ (fun he => hk he.symm)]

theorem merge_lookup_deep (a b : List (Str × Val)) (k : Str)
    (ad bd : List (Str × Val)) (hnd : (b.map Prod.fst).Nodup)
    (ha : dictLookup a k = some (Val.vdict ad))
    (hb : dictLookup b k = some (Val.vdict bd)) :
    dictLookup (merge a b) k = some (Val.vdict (merge ad bd)) := by
  induction b generalizing a with
  | nil => cases hb
  | cons p rest ih =>
    obtain ⟨k0, bv0⟩ := p
    rw [merge_cons]
    simp only [List.map_cons, List.nodup_cons] at hnd
    by_cases hk : k0 = k
    · subst hk
      have hb0 : bv0 = Val.vdict bd := by
        simpa [dictLookup] using hb
      subst hb0
      have hnone : dictLookup rest k0 = none := dictLookup_not_mem rest k0 hnd.1
      rw [merge_lookup_none _ _ _ hnone, dictLookup_dictSet_self, ha, mergeVal_dict]
    · have hb2 : dictLookup rest k = some (Val.vdict bd) := by
        simpa [dictLookup, hk] using hb
      refine ih _ hnd.2 ?_ hb2
      rw [dictLookup_dictSet_ne _ _ _ _ (fun he => hk he.symm), ha]

theorem merge_lookup_last (a b : List (Str × Val)) (k : Str) (v : Val)
    (hnd : (b.map Prod.fst).Nodup) (hb : dictLookup b k = some v)
    (hno : ∀ ad bd, ¬(dictLookup a k = some (Val.vdict ad) ∧ v = Val.vdict bd)) :
    dictLookup (merge a b) k = some v := by
  induction b generalizing a with
  | nil => cases hb
  | cons p rest ih =>
    obtain ⟨k0, bv0⟩ := p
    rw [merge_cons]
    simp only [List.map_cons, List.nodup_cons] at hnd
    by_cases hk : k0 = k
    · subst hk
      have hb0 : bv0 = v := by
        simpa [dictLookup] using hb
      subst hb0
      have hnone : dictLookup rest k0 = none := dictLookup_not_mem rest k0 hnd.1
      rw [merge_lookup_none _ _ _ hnone, dictLookup_dictSet_self,
        mergeVal_not_dict _ _ hno]
    · have hb2 : dictLookup rest k = some v := by
        simpa [dictLookup, hk] using hb
      refine ih _ hnd.2 hb2 ?_
      intro ad bd hand
      rw [dictLookup_dictSet_ne _ _ _ _ (fun he => hk he.symm)] at hand
      exact hno ad bd hand

theorem lookup_applyOptDefault_ne (cfg : List (Str × Val)) (k2 : Str)
    (av : Option Val) (d : Val) (k : Str) (h : k ≠ k2) :
    dictLookup (applyOptDefault cfg k2 av d) k = dictLookup cfg k := by
  unfold applyOptDefault
  split
  · exact dictLookup_dictSet_ne _ _ _ _ h
  · split
    · rfl
    · exact dictLookup_dictSet_ne _ _ _ _ h

theorem lookup_stage_func (a : Args) (cfg : List (Str × Val)) :
    dictLookup (stage_func a cfg) "backends".data = dictLookup cfg "backends".data := by
  unfold stage_func
  cases a.func with
  | nil => rfl
  | cons f rest =>
    rw [dictLookup_dictSet_ne _ _ _ _ (by decide), dictLookup_dictSet_ne _ _ _ _ (by decide)]

theorem lookup_stage_defaults (a : Args) (cfg : List (Str × Val)) :
    dictLookup (stage_defaults a cfg) "backends".data
      = dictLookup cfg "backends".data := by
  unfold stage_defaults
  rw [lookup_applyOptDefault_ne _ _ _ _ _ (by decide),
    lookup_applyOptDefault_ne _ _ _ _ _ (by decide),
    lookup_applyOptDefault_ne _ _ _ _ _ (by decide),
    lookup_applyOptDefault_ne _ _ _ _ _ (by decide),
    lookup_applyOptDefault_ne _ _ _ _ _ (by decide)]

theorem lookup_stage_mpl (a : Args) (cfg : List (Str × Val)) :
    dictLookup (stage_mpl a cfg) "backends".data = dictLookup cfg "backends".data := by
  unfold stage_mpl
  cases a.mpl with
  | none => rfl
  | some n =>
    show dictLookup (if n ≠ 0 then dictSet cfg "copies".data (Val.vnum n) else cfg)
      "backends".data = dictLookup cfg "backends".data
    by_cases hn : n ≠ 0
    · rw [if_pos hn]
      exact dictLookup_dictSet_ne cfg "copies".data "backends".data (Val.vnum n) (by decide)
    · rw [if_neg hn]

theorem lookup_stage_mode (a : Args) (cfg : List (Str × Val)) :
    dictLookup (stage_mode a cfg) "backends".data = dictLookup cfg "backends".data := by
  unfold stage_mode
  split
  · exact dictLookup_dictSet_ne _ _ _ _ (by decide)
  · exact dictLookup_dictSet_ne _ _ _ _ (by decide)

theorem lookup_stage_task (a : Args) (cfg : List (Str × Val)) :
    dictLookup (stage_task a cfg) "backends".data = dictLookup cfg "backends".data := by
  unfold stage_task
  cases truthyStr a.task with
  | some v => exact dictLookup_dictSet_ne _ _ _ _ (by decide)
  | none => exact dictLookup_dictSet_ne _ _ _ _ (by decide)

theorem lookup_stage_start (a : Args) (cfg : List (Str × Val)) :
    dictLookup (stage_start a cfg) "backends".data = dictLookup cfg "backends".data := by
  unfold stage_start
  split
  · exact dictLookup_dictSet_ne _ _ _ _ (by decide)
  · split
    · exact dictLookup_dictSet_ne _ _ _ _ (by decide)
    · exact dictLookup_dictSet_ne _ _ _ _ (by decide)

theorem lookup_stage_misc (a : Args) (cfg : List (Str × Val)) :
    dictLookup (stage_misc a cfg) "backends".data = dictLookup cfg "backends".data := by
  unfold stage_misc
  cases truthyStr a.input with
  | some v =>
    rw [dictLookup_dictSet_ne _ _ _ _ (by decide)]
    cases truthyStr a.description with
    | some w =>
      rw [dictLookup_dictSet_ne _ _ _ _ (by decide),
        dictLookup_dictSet_ne _ _ _ _ (by decide)]
    | none => rw [dictLookup_dictSet_ne _ _ _ _ (by decide)]
  | none =>
    cases truthyStr a.description with
    | some w =>
      rw [dictLookup_dictSet_ne _ _ _ _ (by decide),
        dictLookup_dictSet_ne _ _ _ _ (by decide)]
    | none => rw [dictLookup_dictSet_ne _ _ _ _ (by decide)]

theorem lookup_stage_backends (a : Args) (cfg : List (Str × Val)) (l : List Val)
    (hb : dictLookup cfg "backends".data = some (Val.vlist l))
    (hne : l ++ a.backend.map Val.vstr ≠ []) :
    dictLookup (stage_backends a cfg) "backends".data =
      some (Val.vlist (l ++ a.backend.map Val.vstr)) := by
  unfold stage_backends
  rw [hb]
  cases hbl : l ++ a.backend.map Val.vstr with
  | nil => exact absurd hbl hne
  | cons x xs =>
    exact dictLookup_dictSet_self cfg "backends".data (Val.vlist (x :: xs))

/--
Claim C6.  In the options pipeline, for every key set by more than one
source the value from the last-applied source wins, with dict-valued
entries deep-merged recursively and scalar or list values replaced
wholesale (first three conjuncts, characterising `merge`, which is how
every pair of adjacent sources is combined); except the `backends` list,
where command-line `-b` flags are concatenated in order onto the backends
provided by files/JSON rather than replacing them (fourth conjunct, on
`process_cmdline_options`, the last-applied stage).
-/
theorem c6_merge_semantics :
    (∀ (a b : List (Str × Val)) (k : Str) (v : Val), (b.map Prod.fst).Nodup →
      dictLookup b k = some v →
      (∀ ad bd, ¬(dictLookup a k = some (Val.vdict ad) ∧ v = Val.vdict bd)) →
      dictLookup (merge a b) k = some v) ∧
    (∀ (a b : List (Str × Val)) (k : Str) (ad bd : List (Str × Val)),
      (b.map Prod.fst).Nodup →
      dictLookup a k = some (Val.vdict ad) → dictLookup b k = some (Val.vdict bd) →
      dictLookup (merge a b) k = some (Val.vdict (merge ad bd))) ∧
    (∀ (a b : List (Str × Val)) (k : Str), dictLookup b k = none →
      dictLookup (merge a b) k = dictLookup a k) ∧
    (∀ (cfg : List (Str × Val)) (a : Args) (l : List Val),
      dictLookup cfg "backends".data = some (Val.vlist l) →
      l ++ a.backend.map Val.vstr ≠ [] →
      dictLookup (process_cmdline_options cfg a) "backends".data =
        some (Val.vlist (l ++ a.backend.map Val.vstr))) := by
  refine ⟨fun a b k v hnd hb hno => merge_lookup_last a b k v hnd hb hno,
    fun a b k ad bd hnd ha hb => merge_lookup_deep a b k ad bd hnd ha hb,
    fun a b k h => merge_lookup_none a b k h,
    fun cfg a l hb hne => ?_⟩
  unfold process_cmdline_options
  rw [lookup_stage_misc]
  refine lookup_stage_backends a _ l ?_ hne
  rw [lookup_stage_start, lookup_stage_task, lookup_stage_mode, lookup_stage_mpl,
    lookup_stage_defaults, lookup_stage_func]
  exact hb

/-- Witness for C6 at concrete dictionaries and a concrete command line
    (`-b ssh` on top of a file-provided `backends: [local]`). -/
theorem c6_witness :
    dictLookup (merge [("x".data, Val.vnum 1)] [("x".data, Val.vnum 2)]) "x".data
      = some (Val.vnum 2) ∧
    dictLookup (merge [("x".data, Val.vdict [("y".data, Val.vnum 1)])]
        [("x".data, Val.vdict [("z".data, Val.vnum 2)])]) "x".data
      = some (Val.vdict (merge [("y".data, Val.vnum 1)] [("z".data, Val.vnum 2)])) ∧
    dictLookup (merge [("x".data, Val.vnum 1)] []) "x".data = some (Val.vnum 1) ∧
    dictLookup
      (process_cmdline_options [("backends".data, Val.vlist [Val.vstr "local".data])]
        ⟨[], ["ssh".data], none, none, none, none, none, none, none, none,
          false, false, false, false⟩)
      "backends".data
      = some (Val.vlist ([Val.vstr "local".data] ++
          (["ssh".data] : List Str).map Val.vstr)) :=
  ⟨c6_merge_semantics.1 _ _ _ _ (by simp) rfl
      (fun ad bd h => Val.noConfusion (Option.some.inj h.1)),
   c6_merge_semantics.2.1 _ _ _ _ _ (by simp) rfl rfl,
   c6_merge_semantics.2.2.1 _ _ _ rfl,
   c6_merge_semantics.2.2.2 _ _ _ rfl (by simp)⟩

/-! ### C10: Logger row rectangularity -/

theorem listGetD_mem {α : Type} : ∀ (l : List α) (i : ℕ) (d : α), i < l.length → l.getD i d ∈ l
  | a :: _, 0, _, _ => by simp
  | a :: t, i + 1, d, h =>
    List.mem_cons_of_mem a (listGetD_mem t i d (Nat.lt_of_succ_lt_succ h))

theorem setLastField_append_last (l : List (List Str)) (x : List Str) (f : Str) :
    setLastField (l ++ [x]) f = l ++ [if f ∈ x then x else x ++ [f]] := by
  induction l with
  | nil => rfl
  | cons a t ih =>
    cases t with
    | nil => rfl
    | cons b u =>
      show a :: setLastField ((b :: u) ++ [x]) f
          = a :: ((b :: u) ++ [if f ∈ x then x else x ++ [f]])
      rw [ih]

theorem add_row_data_inv (rows : List (List Str)) (f : Str) (rows2 : List (List Str))
    (h : add_row_data rows f = some rows2)
    (hinv : ∀ r ∈ rows, ∀ y ∈ r, y ∈ rows.headD []) :
    ∀ r ∈ rows2, ∀ y ∈ r, y ∈ rows2.headD [] := by
  rcases List.eq_nil_or_concat rows with rfl | ⟨l, x, hrows⟩
  · have hval : add_row_data [] f = some [[f]] := by
      simp [add_row_data, setLastField]
    rw [hval] at h
    have h2 := Option.some.inj h
    subst h2
    intro r hr y hy
    rcases List.mem_singleton.1 hr with rfl
    simpa using hy
  · rw [List.concat_eq_append] at hrows
    subst hrows
    have hlast : (l ++ [x]).getLastD ([] : List Str) = x := by
      rw [getLastD_append l [x] [] (by simp)]
      simp
    have hlen : (l ++ [x]).length = l.length + 1 := by simp
    simp only [add_row_data] at h
    split at h
    case isFalse => exact Option.noConfusion h
    case isTrue hC =>
    have h2 := Option.some.inj h
    have hf_head : l ≠ [] → f ∈ (l ++ [x]).headD [] := by
      intro hl
      rcases hC with hC | hC
      · exfalso
        have hlp : 0 < l.length := List.length_pos.2 hl
        omega
      · have hlt : (l ++ [x]).length - 2 < (l ++ [x]).length := by omega
        exact hinv _ (listGetD_mem _ _ _ hlt) f hC
    by_cases hfx : f ∈ x
    · rw [if_pos (Or.inr (by rw [hlast]; exact hfx))] at h2
      rw [setLastField_append_last (l ++ [x]) [] f] at h2
      have hif : (if f ∈ ([] : List Str) then ([] : List Str) else [] ++ [f]) = [f] := by
        simp
      rw [hif] at h2
      subst h2
      cases l with
      | nil =>
        simp only [List.nil_append]
        intro r hr y hy
        rcases List.mem_append.1 hr with hr | hr
        · rcases List.mem_singleton.1 hr with rfl
          exact hy
        · rcases List.mem_singleton.1 hr with rfl
          rcases List.mem_singleton.1 hy with rfl
          exact hfx
      | cons c0 l' =>
        intro r hr y hy
        rcases List.mem_append.1 hr with hr | hr
        · exact hinv r hr y hy
        · rcases List.mem_singleton.1 hr with rfl
          rcases List.mem_singleton.1 hy with rfl
          exact hf_head (by simp)
    · have hneg : ¬((l ++ [x]).length = 0 ∨ f ∈ (l ++ [x]).getLastD []) := by
        rintro (hc | hc)
        · omega
        · rw [hlast] at hc
          exact hfx hc
      rw [if_neg hneg] at h2
      rw [setLastField_append_last l x f, if_neg hfx] at h2
      subst h2
      cases l with
      | nil =>
        simp only [List.nil_append]
        intro r hr y hy
        rcases List.mem_singleton.1 hr with rfl
        exact hy
      | cons c0 l' =>
        intro r hr y hy
        rcases List.mem_append.1 hr with hr | hr
        · exact hinv r (List.mem_append_left [x] hr) y hy
        · rcases List.mem_singleton.1 hr with rfl
          rcases List.mem_append.1 hy with hy | hy
          · exact hinv x (by simp) y hy
          · rcases List.mem_singleton.1 hy with rfl
            exact hf_head (by simp)

theorem add_rows_inv (fs : List Str) (rows0 rows : List (List Str))
    (h : add_rows rows0 fs = some rows)
    (hinv : ∀ r ∈ rows0, ∀ y ∈ r, y ∈ rows0.headD []) :
    ∀ r ∈ rows, ∀ y ∈ r, y ∈ rows.headD [] := by
  induction fs generalizing rows0 with
  | nil =>
    simp only [add_rows] at h
    have h2 := Option.some.inj h
    subst h2
    exact hinv
  | cons f fs ih =>
    simp only [add_rows] at h
    cases hstep : add_row_data rows0 f with
    | none =>
      rw [hstep] at h
      exact Option.noConfusion h
    | some rows1 =>
      rw [hstep] at h
      exact ih rows1 h (add_row_data_inv rows0 f rows1 hstep hinv)

/-- C10: Logger row rectangularity. First, `add_row_data` fails its
    assertion whenever the new field is absent from the second-to-last row
    (once at least two rows exist). Consequently, for any row set reachable
    from an empty Logger by a sequence of successful `add_row_data` calls,
    every row's field set is contained in the first row's field set, and so
    every CSV record's fields (shared columns plus the row's own fields) fit
    the `save_csv` header derived from the columns and the first row. -/
theorem c10_rows_rectangular :
    (∀ (rows : List (List Str)) (f : Str), 2 ≤ rows.length →
      f ∉ rows.getD (rows.length - 2) [] → add_row_data rows f = none) ∧
    (∀ (fs : List Str) (rows : List (List Str)), add_rows [] fs = some rows →
      ∀ r ∈ rows, ∀ y ∈ r, y ∈ rows.headD []) ∧
    (∀ (columns : List Str) (fs : List Str) (rows : List (List Str)),
      add_rows [] fs = some rows →
      ∀ r ∈ rows, ∀ y ∈ columns ++ r, y ∈ save_csv_header columns rows) := by
  refine ⟨?_, ?_, ?_⟩
  · intro rows f hlen hf
    have hneg : ¬(rows.length ≤ 1 ∨ f ∈ rows.getD (rows.length - 2) []) := by
      rintro (h1 | h2)
      · omega
      · exact hf h2
    simp only [add_row_data]
    rw [if_neg hneg]
  · intro fs rows h
    exact add_rows_inv fs [] rows h (by intro r hr; simp at hr)
  · intro columns fs rows h r hr y hy
    have hinv := add_rows_inv fs [] rows h (by intro r hr; simp at hr)
    simp only [save_csv_header]
    rcases List.mem_append.1 hy with hy | hy
    · exact List.mem_append_left _ hy
    · exact List.mem_append_right _ (hinv r hr y hy)

/-- C10 witness: a concrete failing `add_row_data` call and a concrete
    four-call sequence whose accumulated rows satisfy the containment. -/
theorem c10_witness :
    add_row_data [["a".data], []] "b".data = none ∧
    "b".data ∈ ([["a".data, "b".data], ["a".data, "b".data]] : List (List Str)).headD [] :=
  ⟨c10_rows_rectangular.1 [["a".data], []] "b".data (by decide) (by decide),
   c10_rows_rectangular.2.1 ["a".data, "b".data, "a".data, "b".data]
     [["a".data, "b".data], ["a".data, "b".data]] (by decide)
     ["a".data, "b".data] (by decide) "b".data (by decide)⟩

theorem wsChar_cases (c : Char) (h : wsChar c = true) :
    c = ' ' ∨ c = '\t' ∨ c = '\n' ∨ c = '\r' := by
  simpa [wsChar, or_assoc] using h

theorem ws_not_digit (c : Char) (h : wsChar c = true) : isDigitCh c = false := by
  rcases wsChar_cases c h with rfl | rfl | rfl | rfl <;> decide

theorem jsonPlain_props (c : Char) (h : jsonPlainCh c = true) :
    c ≠ '\n' ∧ c ≠ '"' := by
  constructor <;> intro h2 <;> subst h2 <;> exact absurd h (by decide)

theorem spaces_ws (n : ℕ) : ∀ c ∈ spaces n, wsChar c = true := by
  intro c hc
  have := List.eq_of_mem_replicate hc
  subst this
  decide

theorem skipWs_append_ws (w s : Str) (hw : ∀ c ∈ w, wsChar c = true) :
    skipWs (w ++ s) = skipWs s := by
  induction w with
  | nil => rfl
  | cons c t ih =>
    have hc : wsChar c = true := hw c (by simp)
    show skipWs (c :: (t ++ s)) = skipWs s
    simp only [skipWs]
    rw [List.dropWhile_cons, if_pos hc]
    exact ih fun x hx => hw x (by simp [hx])

theorem skipWs_cons_neg (c : Char) (s : Str) (hc : wsChar c = false) :
    skipWs (c :: s) = c :: s := by
  simp only [skipWs]
  rw [List.dropWhile_cons, if_neg (by simp [hc])]

theorem stripPfx_append (p s : Str) : stripPfx p (p ++ s) = some s := by
  induction p with
  | nil => rfl
  | cons c t ih => simp [stripPfx, ih]

theorem readStr_round (w rest : Str) (hw : ∀ c ∈ w, c ≠ '"') :
    readStr (w ++ '"' :: rest) = some (w, rest) := by
  induction w with
  | nil => simp [readStr]
  | cons c t ih =>
    have hc : c ≠ '"' := hw c (by simp)
    show readStr (c :: (t ++ '"' :: rest)) = some (c :: t, rest)
    simp only [readStr]
    rw [if_neg hc, ih fun x hx => hw x (by simp [hx])]

theorem readDigits_round (d rest : Str) (hd : ∀ c ∈ d, isDigitCh c = true)
    (hrest : headNotDigit rest = true) :
    readDigits (d ++ rest) = (d, rest) := by
  induction d with
  | nil =>
    cases rest with
    | nil => rfl
    | cons c cs =>
      have hc : isDigitCh c = false := by simpa [headNotDigit] using hrest
      simp [readDigits, hc]
  | cons c t ih =>
    have hc : isDigitCh c = true := hd c (by simp)
    simp [readDigits, hc, ih fun x hx => hd x (by simp [hx])]

theorem digitCh_facts : ∀ d : ℕ, d < 10 →
    (digitCh d).toNat - '0'.toNat = d ∧ isDigitCh (digitCh d) = true := by decide

theorem digitsToNat_concat (s : Str) (c : Char) :
    digitsToNat (s ++ [c]) = digitsToNat s * 10 + (c.toNat - '0'.toNat) := by
  simp [digitsToNat, List.foldl_append]

theorem printNatFuel_spec : ∀ fuel n : ℕ, 1 ≤ fuel → n < 10 ^ fuel →
    digitsToNat (printNatFuel fuel n) = n ∧
    (∀ c ∈ printNatFuel fuel n, isDigitCh c = true) ∧ printNatFuel fuel n ≠ [] := by
  intro fuel
  induction fuel with
  | zero => intro n h; omega
  | succ f ih =>
    intro n _ hn
    by_cases h10 : n < 10
    · simp only [printNatFuel]
      rw [if_pos h10]
      refine ⟨?_, ?_, by simp⟩
      · simpa [digitsToNat] using (digitCh_facts n h10).1
      · intro c hc
        simp at hc
        subst hc
        exact (digitCh_facts n h10).2
    · simp only [printNatFuel]
      rw [if_neg h10]
      have hf : 1 ≤ f := by
        rcases Nat.eq_zero_or_pos f with rfl | h
        · have h1 : (10:ℕ) ^ (0+1) = 10 := by norm_num
          omega
        · omega
      have hdiv : n / 10 < 10 ^ f := by
        rw [Nat.div_lt_iff_lt_mul (by norm_num)]
        calc n < 10 ^ (f + 1) := hn
        _ = 10 ^ f * 10 := by ring
      obtain ⟨h1, h2, h3⟩ := ih (n / 10) hf hdiv
      refine ⟨?_, ?_, by simp⟩
      · rw [digitsToNat_concat, h1]
        have := (digitCh_facts (n % 10) (by omega)).1
        omega
      · intro c hc
        rcases List.mem_append.1 hc with hc | hc
        · exact h2 c hc
        · simp at hc
          subst hc
          exact (digitCh_facts (n % 10) (by omega)).2

theorem printNat_spec (n : ℕ) :
    digitsToNat (printNat n) = n ∧ (∀ c ∈ printNat n, isDigitCh c = true) ∧
      printNat n ≠ [] := by
  have h : n < 10 ^ (n + 1) := by
    calc n < 10 ^ n := Nat.lt_pow_self (by norm_num) n
    _ ≤ 10 ^ (n + 1) := Nat.pow_le_pow_right (by norm_num) (by omega)
  exact printNatFuel_spec (n + 1) n (by omega) h

theorem digit_not_special (c : Char) (h : isDigitCh c = true) :
    wsChar c = false ∧ c ≠ '"' ∧ c ≠ 'n' ∧ c ≠ 't' ∧ c ≠ 'f' ∧ c ≠ '[' ∧
      c ≠ '\x7b' ∧ c ≠ '-' ∧ c ≠ ']' ∧ c ≠ '\x7d' ∧ c ≠ ',' := by
  refine ⟨?_, ?_, ?_, ?_, ?_, ?_, ?_, ?_, ?_, ?_, ?_⟩
  · cases hws : wsChar c with
    | false => rfl
    | true =>
      rcases wsChar_cases c hws with rfl | rfl | rfl | rfl <;> exact absurd h (by decide)
  all_goals intro h2; subst h2; exact absurd h (by decide)

theorem jhead_props (c : Char) (h : jheadCh c = true) :
    wsChar c = false ∧ c ≠ ']' ∧ c ≠ '\x7d' ∧ c ≠ ',' ∧ okCh c = true := by
  simp only [jheadCh, Bool.or_eq_true, decide_eq_true_eq, or_assoc] at h
  rcases h with rfl | rfl | hdig | rfl | rfl | rfl | rfl | rfl
  · decide
  · decide
  · obtain ⟨hw, _, _, _, _, _, _, _, h9, h10, h11⟩ := digit_not_special c hdig
    exact ⟨hw, h9, h10, h11, by simp [okCh, jheadCh, hdig]⟩
  all_goals decide

theorem vfuel_pos (v : Val) : 1 ≤ vfuel v := by
  cases v <;> simp [vfuel]

theorem vfuelList_mem (l : List Val) (v : Val) (h : v ∈ l) : vfuel v ≤ vfuelList l := by
  induction l with
  | nil => cases h
  | cons a t ih =>
    rcases List.mem_cons.1 h with rfl | h
    · simp [vfuelList]
    · have := ih h
      simp only [vfuelList]
      omega

theorem vfuelMembers_mem (d : List (Str × Val)) (m : Str × Val) (h : m ∈ d) :
    vfuel m.2 ≤ vfuelMembers d := by
  induction d with
  | nil => cases h
  | cons a t ih =>
    rcases List.mem_cons.1 h with rfl | h
    · simp [vfuelMembers]
    · have := ih h
      simp only [vfuelMembers]
      omega

theorem dumpsV_head (pf lvl : ℕ) (v : Val) (hpf : 1 ≤ pf) :
    ∃ c t, dumpsV pf lvl v = c :: t ∧ jheadCh c = true := by
  cases pf with
  | zero => omega
  | succ pf =>
    cases v with
    | vstr s => exact ⟨'"', _, rfl, by decide⟩
    | vnum n =>
      by_cases hn : n < 0
      · refine ⟨'-', printNat n.natAbs, ?_, by decide⟩
        simp [dumpsV, printInt, hn]
      · obtain ⟨_, hdig, hne⟩ := printNat_spec n.natAbs
        obtain ⟨c, t, hct⟩ := List.exists_cons_of_ne_nil hne
        refine ⟨c, t, ?_, ?_⟩
        · simp [dumpsV, printInt, hn, hct]
        · have hd : isDigitCh c = true := hdig c (by rw [hct]; simp)
          simp [jheadCh, hd]
    | vbool b =>
      cases b with
      | false => exact ⟨'f', _, rfl, by decide⟩
      | true => exact ⟨'t', _, rfl, by decide⟩
    | vnull => exact ⟨'n', _, rfl, by decide⟩
    | vlist l =>
      cases l with
      | nil => exact ⟨'[', _, rfl, by decide⟩
      | cons v vs => exact ⟨'[', _, rfl, by decide⟩
    | vdict d =>
      cases d with
      | nil => exact ⟨'\x7b', _, rfl, by decide⟩
      | cons kv kvs => exact ⟨'\x7b', _, rfl, by decide⟩

theorem splitNl_cons (c : Char) (s : Str) :
    splitNl (c :: s) =
      if c = '\n' then [] :: splitNl s
      else
        match splitNl s with
        | [] => [[c]]
        | w :: ws => (c :: w) :: ws := rfl

theorem dropLast_cons_of_ne_nil {α : Type} (a : α) (l : List α) (h : l ≠ []) :
    (a :: l).dropLast = a :: l.dropLast := by
  cases l with
  | nil => exact absurd rfl h
  | cons b t => rfl

theorem splitNl_append_nl (a b : Str) : splitNl (a ++ '\n' :: b) = splitNl a ++ splitNl b := by
  induction a with
  | nil => simp [splitNl_cons, splitNl]
  | cons c t ih =>
    obtain ⟨w, ws, hw⟩ := List.exists_cons_of_ne_nil (splitNl_ne_nil t)
    by_cases hc : c = '\n'
    · subst hc
      rw [List.cons_append, splitNl_cons, if_pos rfl, splitNl_cons, if_pos rfl, ih,
        List.cons_append]
    · rw [List.cons_append, splitNl_cons, if_neg hc, splitNl_cons, if_neg hc, ih, hw]
      rfl

theorem splitNl_no_nl (a : Str) (h : '\n' ∉ a) : splitNl a = [a] := by
  induction a with
  | nil => rfl
  | cons c t ih =>
    have hc : c ≠ '\n' := by
      intro heq
      exact h (by rw [heq]; exact List.mem_cons_self _ _)
    rw [splitNl_cons, if_neg hc, ih fun hx => h (List.mem_cons_of_mem _ hx)]

theorem splitNl_prepend (a s : Str) (h : '\n' ∉ a) :
    ∃ w ws, splitNl s = w :: ws ∧ splitNl (a ++ s) = (a ++ w) :: ws := by
  induction a with
  | nil =>
    obtain ⟨w, ws, hw⟩ := List.exists_cons_of_ne_nil (splitNl_ne_nil s)
    exact ⟨w, ws, hw, by simpa using hw⟩
  | cons c t ih =>
    have hc : c ≠ '\n' := by
      intro heq
      exact h (by rw [heq]; exact List.mem_cons_self _ _)
    obtain ⟨w, ws, hw, hws⟩ := ih fun hx => h (List.mem_cons_of_mem _ hx)
    refine ⟨w, ws, hw, ?_⟩
    rw [List.cons_append, splitNl_cons, if_neg hc, hws]
    rfl

theorem splitNl_concat (s : Str) (x : Char) (hx : x ≠ '\n') :
    splitNl (s ++ [x]) = (splitNl s).dropLast ++ [(splitNl s).getLastD [] ++ [x]] := by
  induction s with
  | nil =>
    rw [List.nil_append, splitNl_cons, if_neg hx]
    rfl
  | cons c t ih =>
    obtain ⟨w, ws, hw⟩ := List.exists_cons_of_ne_nil (splitNl_ne_nil t)
    by_cases hc : c = '\n'
    · subst hc
      rw [List.cons_append, splitNl_cons, if_pos rfl, splitNl_cons, if_pos rfl, ih, hw]
      rw [dropLast_cons_of_ne_nil ([] : Str) (w :: ws) (by simp)]
      rfl
    · rw [List.cons_append, splitNl_cons, if_neg hc, splitNl_cons, if_neg hc, ih, hw]
      cases ws with
      | nil => rfl
      | cons w2 ws' => rfl

theorem joinNl_cons (l : Str) (ls : List Str) : joinNl (l :: ls) = l ++ '\n' :: joinNl ls := by
  simp [joinNl]

theorem joinNl_splitNl (s : Str) : joinNl (splitNl s) = s ++ ['\n'] := by
  induction s with
  | nil => rfl
  | cons c t ih =>
    by_cases hc : c = '\n'
    · subst hc
      rw [splitNl_cons, if_pos rfl, joinNl_cons, ih]
      rfl
    · obtain ⟨w, ws, hw⟩ := List.exists_cons_of_ne_nil (splitNl_ne_nil t)
      rw [splitNl_cons, if_neg hc, hw]
      rw [show (match w :: ws with | [] => [[c]] | y :: ys => (c :: y) :: ys) = (c :: w) :: ws
        from rfl]
      rw [joinNl_cons]
      rw [hw] at ih
      rw [joinNl_cons] at ih
      simp only [List.cons_append]
      rw [ih]

theorem skipWs_eq_cons_append (l u : Str) (c : Char) (t : Str) (h : skipWs l = c :: t) :
    skipWs (l ++ u) = c :: (t ++ u) := by
  induction l with
  | nil => exact absurd h (by simp [skipWs])
  | cons a l' ih =>
    by_cases ha : wsChar a = true
    · simp only [skipWs] at h ⊢
      rw [List.dropWhile_cons, if_pos ha] at h
      rw [List.cons_append, List.dropWhile_cons, if_pos ha]
      exact ih h
    · simp only [skipWs] at h
      rw [List.dropWhile_cons, if_neg ha] at h
      injection h with h1 h2
      subst h1
      subst h2
      exact skipWs_cons_neg _ _ (by simpa using ha)

theorem lineOk_append (l u : Str) (h : ∃ c t, skipWs l = c :: t ∧ okCh c = true) :
    ∃ c t, skipWs (l ++ u) = c :: t ∧ okCh c = true := by
  obtain ⟨c, t, hct, hok⟩ := h
  exact ⟨c, t ++ u, skipWs_eq_cons_append l u c t hct, hok⟩

theorem stripStr_prefix (l : Str) : stripStr l <+: skipWs l := by
  have h1 : (skipWs l).reverse.dropWhile wsChar <:+ (skipWs l).reverse :=
    List.dropWhile_suffix _
  have h2 := List.reverse_prefix.2 h1
  simpa [stripStr, skipWs] using h2

theorem lineOk_strip_ne (l : Str) (hok : ∃ c t, skipWs l = c :: t ∧ okCh c = true)
    (c2 : Char) (t2 : Str) (hc2 : okCh c2 = false) : stripStr l ≠ c2 :: t2 := by
  intro heq
  obtain ⟨c, t, hct, hokc⟩ := hok
  have hp := stripStr_prefix l
  rw [heq, hct] at hp
  obtain ⟨u, hu⟩ := hp
  simp only [List.cons_append] at hu
  injection hu with h1 h2
  rw [← h1] at hokc
  rw [hokc] at hc2
  cases hc2

theorem mem_splitNl_concat (s : Str) (x : Char) (hx : x ≠ '\n') (l : Str)
    (hl : l ∈ splitNl (s ++ [x])) :
    l ∈ splitNl s ∨ l = (splitNl s).getLastD [] ++ [x] := by
  rw [splitNl_concat s x hx] at hl
  rcases List.mem_append.1 hl with hl | hl
  · exact Or.inl ((List.dropLast_prefix _).subset hl)
  · exact Or.inr (List.mem_singleton.1 hl)

theorem safeVal_vstr (s : Str) (h : SafeVal (Val.vstr s)) : jsonPlainStr s = true := by
  cases h
  assumption

theorem safeVal_vlist (l : List Val) (h : SafeVal (Val.vlist l)) : ∀ v ∈ l, SafeVal v := by
  cases h
  assumption

theorem safeVal_vdict_keys (d : List (Str × Val)) (h : SafeVal (Val.vdict d)) :
    ∀ m ∈ d, jsonPlainStr m.1 = true := by
  cases h
  assumption

theorem safeVal_vdict_vals (d : List (Str × Val)) (h : SafeVal (Val.vdict d)) :
    ∀ m ∈ d, SafeVal m.2 := by
  cases h
  assumption

theorem jsonPlainStr_no_nl (s : Str) (h : jsonPlainStr s = true) : '\n' ∉ s := by
  intro hm
  have h2 := List.all_eq_true.1 h _ hm
  exact absurd h2 (by decide)

theorem jsonPlainStr_no_quote (s : Str) (h : jsonPlainStr s = true) : ∀ c ∈ s, c ≠ '"' := by
  intro c hc
  exact (jsonPlain_props c (List.all_eq_true.1 h _ hc)).2

theorem intercalate_single (sep x : Str) : List.intercalate sep [x] = x := by
  simp [List.intercalate]

theorem intercalate_cons₂ (sep x y : Str) (l : List Str) :
    List.intercalate sep (x :: y :: l) = x ++ (sep ++ List.intercalate sep (y :: l)) := rfl

theorem elemsText_single (pf el : ℕ) (v : Val) :
    elemsText pf el [v] = spaces (2 * el) ++ dumpsV pf el v := by
  simp only [elemsText, List.map_cons, List.map_nil]
  exact intercalate_single _ _

theorem elemsText_cons₂ (pf el : ℕ) (v v2 : Val) (vs : List Val) :
    elemsText pf el (v :: v2 :: vs) =
      (spaces (2 * el) ++ dumpsV pf el v) ++ (',' :: '\n' :: elemsText pf el (v2 :: vs)) := by
  simp only [elemsText, List.map_cons]
  exact intercalate_cons₂ _ _ _ _

theorem membersText_single (pf el : ℕ) (m : Str × Val) :
    membersText pf el [m] =
      spaces (2 * el) ++ '"' :: (m.1 ++ '"' :: ':' :: ' ' :: dumpsV pf el m.2) := by
  simp only [membersText, List.map_cons, List.map_nil]
  exact intercalate_single _ _

theorem membersText_cons₂ (pf el : ℕ) (m m2 : Str × Val) (ms : List (Str × Val)) :
    membersText pf el (m :: m2 :: ms) =
      (spaces (2 * el) ++ '"' :: (m.1 ++ '"' :: ':' :: ' ' :: dumpsV pf el m.2)) ++
        (',' :: '\n' :: membersText pf el (m2 :: ms)) := by
  simp only [membersText, List.map_cons]
  exact intercalate_cons₂ _ _ _ _

theorem dumpsV_vlist_cons (pf lvl : ℕ) (v : Val) (vs : List Val) :
    dumpsV (pf + 1) lvl (Val.vlist (v :: vs)) =
      '[' :: '\n' :: (elemsText pf (lvl + 1) (v :: vs) ++ '\n' :: (spaces (2 * lvl) ++ [']'])) :=
  rfl

theorem dumpsV_vdict_cons (pf lvl : ℕ) (m : Str × Val) (ms : List (Str × Val)) :
    dumpsV (pf + 1) lvl (Val.vdict (m :: ms)) =
      '\x7b' :: '\n' ::
        (membersText pf (lvl + 1) (m :: ms) ++ '\n' :: (spaces (2 * lvl) ++ ['\x7d'])) :=
  rfl

theorem dumps_lines : ∀ b : ℕ,
    (∀ v pf lvl, vfuel v ≤ b → vfuel v ≤ pf → SafeVal v →
      ∀ l ∈ splitNl (dumpsV pf lvl v), ∃ c t, skipWs l = c :: t ∧ okCh c = true) ∧
    (∀ (vl : List Val) pf el, vfuelList vl ≤ b → (∀ v ∈ vl, vfuel v ≤ pf) →
      (∀ v ∈ vl, SafeVal v) → vl ≠ [] →
      ∀ l ∈ splitNl (elemsText pf el vl), ∃ c t, skipWs l = c :: t ∧ okCh c = true) ∧
    (∀ (d : List (Str × Val)) pf el, vfuelMembers d ≤ b → (∀ m ∈ d, vfuel m.2 ≤ pf) →
      (∀ m ∈ d, jsonPlainStr m.1 = true) → (∀ m ∈ d, SafeVal m.2) → d ≠ [] →
      ∀ l ∈ splitNl (membersText pf el d), ∃ c t, skipWs l = c :: t ∧ okCh c = true) := by
  intro b
  induction b using Nat.strong_induction_on with
  | h b IH =>
  have Hval : ∀ v pf lvl, vfuel v ≤ b → vfuel v ≤ pf → SafeVal v →
      ∀ l ∈ splitNl (dumpsV pf lvl v), ∃ c t, skipWs l = c :: t ∧ okCh c = true := by
    intro v pf lvl hb hpf hsafe l hl
    have hv1 : 1 ≤ vfuel v := vfuel_pos v
    cases pf with
    | zero => omega
    | succ pf =>
    cases v with
    | vstr s =>
      have hs := safeVal_vstr s hsafe
      have hnl : '\n' ∉ dumpsV (pf + 1) lvl (Val.vstr s) := by
        show '\n' ∉ '"' :: (s ++ ['"'])
        intro hm
        rcases List.mem_cons.1 hm with h | hm
        · exact absurd h (by decide)
        rcases List.mem_append.1 hm with hm | hm
        · exact (jsonPlainStr_no_nl s hs) hm
        · exact absurd (List.mem_singleton.1 hm) (by decide)
      rw [splitNl_no_nl _ hnl] at hl
      rcases List.mem_singleton.1 hl with rfl
      exact ⟨'"', s ++ ['"'], skipWs_cons_neg _ _ (by decide), by decide⟩
    | vnum n =>
      have hnl : '\n' ∉ dumpsV (pf + 1) lvl (Val.vnum n) := by
        show '\n' ∉ printInt n
        intro hm
        by_cases hn : n < 0
        · simp only [printInt] at hm
          rw [if_pos hn] at hm
          rcases List.mem_cons.1 hm with h | hm
          · exact absurd h (by decide)
          · exact absurd ((printNat_spec n.natAbs).2.1 _ hm) (by decide)
        · simp only [printInt] at hm
          rw [if_neg hn] at hm
          exact absurd ((printNat_spec n.natAbs).2.1 _ hm) (by decide)
      rw [splitNl_no_nl _ hnl] at hl
      rcases List.mem_singleton.1 hl with rfl
      obtain ⟨c, t, hct, hhead⟩ := dumpsV_head (pf + 1) lvl (Val.vnum n) (by omega)
      obtain ⟨hws, _, _, _, hok⟩ := jhead_props c hhead
      rw [hct]
      exact ⟨c, t, skipWs_cons_neg _ _ hws, hok⟩
    | vbool b2 =>
      cases b2 with
      | true =>
        have hnl : '\n' ∉ dumpsV (pf + 1) lvl (Val.vbool true) := by
          show '\n' ∉ "true".data
          decide
        rw [splitNl_no_nl _ hnl] at hl
        rcases List.mem_singleton.1 hl with rfl
        exact ⟨'t', "rue".data, skipWs_cons_neg _ _ (by decide), by decide⟩
      | false =>
        have hnl : '\n' ∉ dumpsV (pf + 1) lvl (Val.vbool false) := by
          show '\n' ∉ "false".data
          decide
        rw [splitNl_no_nl _ hnl] at hl
        rcases List.mem_singleton.1 hl with rfl
        exact ⟨'f', "alse".data, skipWs_cons_neg _ _ (by decide), by decide⟩
    | vnull =>
      have hnl : '\n' ∉ dumpsV (pf + 1) lvl Val.vnull := by
        show '\n' ∉ "null".data
        decide
      rw [splitNl_no_nl _ hnl] at hl
      rcases List.mem_singleton.1 hl with rfl
      exact ⟨'n', "ull".data, skipWs_cons_neg _ _ (by decide), by decide⟩
    | vlist l2 =>
      cases l2 with
      | nil =>
        have hnl : '\n' ∉ dumpsV (pf + 1) lvl (Val.vlist []) := by
          show '\n' ∉ "[]".data
          decide
        rw [splitNl_no_nl _ hnl] at hl
        rcases List.mem_singleton.1 hl with rfl
        exact ⟨'[', [']'], skipWs_cons_neg _ _ (by decide), by decide⟩
      | cons v vs =>
        rw [dumpsV_vlist_cons] at hl
        rw [show ('[' :: '\n' ::
              (elemsText pf (lvl + 1) (v :: vs) ++ '\n' :: (spaces (2 * lvl) ++ [']'])))
            = ['['] ++ '\n' ::
              (elemsText pf (lvl + 1) (v :: vs) ++ '\n' :: (spaces (2 * lvl) ++ [']']))
          from rfl, splitNl_append_nl, splitNl_append_nl] at hl
        have h2 : splitNl (spaces (2 * lvl) ++ [']']) = [spaces (2 * lvl) ++ [']']] := by
          refine splitNl_no_nl _ ?_
          intro hm
          rcases List.mem_append.1 hm with hm | hm
          · exact absurd (List.eq_of_mem_replicate hm) (by decide)
          · exact absurd (List.mem_singleton.1 hm) (by decide)
        rw [h2] at hl
        have hfl : vfuel (Val.vlist (v :: vs)) = 1 + vfuelList (v :: vs) := by simp [vfuel]
        rcases List.mem_append.1 hl with hl | hl
        · rw [show splitNl ['['] = [['[']] from by decide] at hl
          rcases List.mem_singleton.1 hl with rfl
          exact ⟨'[', [], skipWs_cons_neg _ _ (by decide), by decide⟩
        rcases List.mem_append.1 hl with hl | hl
        · have hb2 : vfuelList (v :: vs) < b := by omega
          have hpf2 : vfuelList (v :: vs) ≤ pf := by omega
          exact (IH _ hb2).2.1 (v :: vs) pf (lvl + 1) le_rfl
            (fun x hx => le_trans (vfuelList_mem _ _ hx) hpf2)
            (safeVal_vlist _ hsafe) (by simp) l hl
        · rcases List.mem_singleton.1 hl with rfl
          refine ⟨']', [], ?_, by decide⟩
          rw [skipWs_append_ws _ _ (spaces_ws _)]
          exact skipWs_cons_neg _ _ (by decide)
    | vdict d =>
      cases d with
      | nil =>
        have hnl : '\n' ∉ dumpsV (pf + 1) lvl (Val.vdict []) := by
          show '\n' ∉ ['\x7b', '\x7d']
          decide
        rw [splitNl_no_nl _ hnl] at hl
        rcases List.mem_singleton.1 hl with rfl
        exact ⟨'\x7b', ['\x7d'], skipWs_cons_neg _ _ (by decide), by decide⟩
      | cons m ms =>
        rw [dumpsV_vdict_cons] at hl
        rw [show ('\x7b' :: '\n' ::
              (membersText pf (lvl + 1) (m :: ms) ++ '\n' :: (spaces (2 * lvl) ++ ['\x7d'])))
            = ['\x7b'] ++ '\n' ::
              (membersText pf (lvl + 1) (m :: ms) ++ '\n' :: (spaces (2 * lvl) ++ ['\x7d']))
          from rfl, splitNl_append_nl, splitNl_append_nl] at hl
        have h2 : splitNl (spaces (2 * lvl) ++ ['\x7d']) = [spaces (2 * lvl) ++ ['\x7d']] := by
          refine splitNl_no_nl _ ?_
          intro hm
          rcases List.mem_append.1 hm with hm | hm
          · exact absurd (List.eq_of_mem_replicate hm) (by decide)
          · exact absurd (List.mem_singleton.1 hm) (by decide)
        rw [h2] at hl
        have hfl : vfuel (Val.vdict (m :: ms)) = 1 + vfuelMembers (m :: ms) := by simp [vfuel]
        rcases List.mem_append.1 hl with hl | hl
        · rw [show splitNl ['\x7b'] = [['\x7b']] from by decide] at hl
          rcases List.mem_singleton.1 hl with rfl
          exact ⟨'\x7b', [], skipWs_cons_neg _ _ (by decide), by decide⟩
        rcases List.mem_append.1 hl with hl | hl
        · have hb2 : vfuelMembers (m :: ms) < b := by omega
          have hpf2 : vfuelMembers (m :: ms) ≤ pf := by omega
          exact (IH _ hb2).2.2 (m :: ms) pf (lvl + 1) le_rfl
            (fun x hx => le_trans (vfuelMembers_mem _ _ hx) hpf2)
            (safeVal_vdict_keys _ hsafe) (safeVal_vdict_vals _ hsafe) (by simp) l hl
        · rcases List.mem_singleton.1 hl with rfl
          refine ⟨'\x7d', [], ?_, by decide⟩
          rw [skipWs_append_ws _ _ (spaces_ws _)]
          exact skipWs_cons_neg _ _ (by decide)
  have Helems : ∀ (vl : List Val) pf el, vfuelList vl ≤ b → (∀ v ∈ vl, vfuel v ≤ pf) →
      (∀ v ∈ vl, SafeVal v) → vl ≠ [] →
      ∀ l ∈ splitNl (elemsText pf el vl), ∃ c t, skipWs l = c :: t ∧ okCh c = true := by
    intro vl
    induction vl with
    | nil => intro pf el _ _ _ hne; exact absurd rfl hne
    | cons v vs ihl =>
      intro pf el hbl hpfl hsl _ l hl
      have hvb : vfuel v ≤ b := le_trans (vfuelList_mem _ _ (by simp)) hbl
      have hlines := Hval v pf el hvb (hpfl v (by simp)) (hsl v (by simp))
      obtain ⟨w, ws, hw, hws⟩ := splitNl_prepend (spaces (2 * el)) (dumpsV pf el v)
        (fun hm => absurd (List.eq_of_mem_replicate hm) (by decide))
      have hchunk : ∀ l2 ∈ splitNl (spaces (2 * el) ++ dumpsV pf el v),
          ∃ c t, skipWs l2 = c :: t ∧ okCh c = true := by
        intro l2 hl2
        rw [hws] at hl2
        rcases List.mem_cons.1 hl2 with rfl | hl2
        · obtain ⟨c, t, hct, hok⟩ := hlines w (by rw [hw]; simp)
          exact ⟨c, t, by rw [skipWs_append_ws _ _ (spaces_ws _)]; exact hct, hok⟩
        · exact hlines l2 (by rw [hw]; exact List.mem_cons_of_mem _ hl2)
      cases vs with
      | nil =>
        rw [elemsText_single] at hl
        exact hchunk l hl
      | cons v2 vs' =>
        rw [elemsText_cons₂] at hl
        rw [show (spaces (2 * el) ++ dumpsV pf el v) ++
              (',' :: '\n' :: elemsText pf el (v2 :: vs'))
            = ((spaces (2 * el) ++ dumpsV pf el v) ++ [',']) ++
              ('\n' :: elemsText pf el (v2 :: vs')) from by simp] at hl
        rw [splitNl_append_nl] at hl
        rcases List.mem_append.1 hl with hl | hl
        · rcases mem_splitNl_concat _ ',' (by decide) l hl with hl | hl
          · exact hchunk l hl
          · subst hl
            exact lineOk_append _ _ (hchunk _ (getLastD_mem _ _ (splitNl_ne_nil _)))
        · refine ihl pf el ?_ (fun x hx => hpfl x (List.mem_cons_of_mem _ hx))
            (fun x hx => hsl x (List.mem_cons_of_mem _ hx)) (by simp) l hl
          have h5 := vfuel_pos v
          simp only [vfuelList] at hbl ⊢
          omega
  have Hmembers : ∀ (d : List (Str × Val)) pf el, vfuelMembers d ≤ b →
      (∀ m ∈ d, vfuel m.2 ≤ pf) → (∀ m ∈ d, jsonPlainStr m.1 = true) →
      (∀ m ∈ d, SafeVal m.2) → d ≠ [] →
      ∀ l ∈ splitNl (membersText pf el d), ∃ c t, skipWs l = c :: t ∧ okCh c = true := by
    intro d
    induction d with
    | nil => intro pf el _ _ _ _ hne; exact absurd rfl hne
    | cons m ms ihd =>
      intro pf el hbl hpfl hkl hsl _ l hl
      have hvb : vfuel m.2 ≤ b := le_trans (vfuelMembers_mem _ _ (by simp)) hbl
      have hlines := Hval m.2 pf el hvb (hpfl m (by simp)) (hsl m (by simp))
      have hknl : '\n' ∉ spaces (2 * el) ++ '"' :: (m.1 ++ ['"', ':', ' ']) := by
        intro hm
        rcases List.mem_append.1 hm with hm | hm
        · exact absurd (List.eq_of_mem_replicate hm) (by decide)
        rcases List.mem_cons.1 hm with h | hm
        · exact absurd h (by decide)
        rcases List.mem_append.1 hm with hm | hm
        · exact (jsonPlainStr_no_nl m.1 (hkl m (by simp))) hm
        · exact absurd hm (by decide)
      obtain ⟨w, ws, hw, hws⟩ := splitNl_prepend
        (spaces (2 * el) ++ '"' :: (m.1 ++ ['"', ':', ' '])) (dumpsV pf el m.2) hknl
      have hassoc : spaces (2 * el) ++ '"' :: (m.1 ++ '"' :: ':' :: ' ' :: dumpsV pf el m.2)
          = (spaces (2 * el) ++ '"' :: (m.1 ++ ['"', ':', ' '])) ++ dumpsV pf el m.2 := by
        simp
      have hchunk : ∀ l2 ∈ splitNl
          (spaces (2 * el) ++ '"' :: (m.1 ++ '"' :: ':' :: ' ' :: dumpsV pf el m.2)),
          ∃ c t, skipWs l2 = c :: t ∧ okCh c = true := by
        intro l2 hl2
        rw [hassoc, hws] at hl2
        rcases List.mem_cons.1 hl2 with rfl | hl2
        · refine ⟨'"', (m.1 ++ ['"', ':', ' ']) ++ w, ?_, by decide⟩
          rw [show (spaces (2 * el) ++ '"' :: (m.1 ++ ['"', ':', ' '])) ++ w
              = spaces (2 * el) ++ '"' :: ((m.1 ++ ['"', ':', ' ']) ++ w) from by simp,
            skipWs_append_ws _ _ (spaces_ws _)]
          exact skipWs_cons_neg _ _ (by decide)
        · exact hlines l2 (by rw [hw]; exact List.mem_cons_of_mem _ hl2)
      cases ms with
      | nil =>
        rw [membersText_single] at hl
        exact hchunk l hl
      | cons m2 ms' =>
        rw [membersText_cons₂] at hl
        rw [show (spaces (2 * el) ++ '"' :: (m.1 ++ '"' :: ':' :: ' ' :: dumpsV pf el m.2)) ++
              (',' :: '\n' :: membersText pf el (m2 :: ms'))
            = ((spaces (2 * el) ++ '"' :: (m.1 ++ '"' :: ':' :: ' ' :: dumpsV pf el m.2)) ++
                [',']) ++ ('\n' :: membersText pf el (m2 :: ms')) from by simp] at hl
        rw [splitNl_append_nl] at hl
        rcases List.mem_append.1 hl with hl | hl
        · rcases mem_splitNl_concat _ ',' (by decide) l hl with hl | hl
          · exact hchunk l hl
          · subst hl
            exact lineOk_append _ _ (hchunk _ (getLastD_mem _ _ (splitNl_ne_nil _)))
        · refine ihd pf el ?_ (fun x hx => hpfl x (List.mem_cons_of_mem _ hx))
            (fun x hx => hkl x (List.mem_cons_of_mem _ hx))
            (fun x hx => hsl x (List.mem_cons_of_mem _ hx)) (by simp) l hl
          have h5 := vfuel_pos m.2
          simp only [vfuelMembers] at hbl ⊢
          omega
  exact ⟨Hval, Helems, Hmembers⟩

theorem parseStep_pval_cons (fuel : ℕ) (s : Str) (c : Char) (cs : Str)
    (h : skipWs s = c :: cs) :
    parseStep (fuel + 1) PJob.pval s =
      (if c = '"' then
        match readStr cs with
        | some (w, rest) => some (Val.vstr w, rest)
        | none => none
      else if c = 'n' then (stripPfx "ull".data cs).map fun rest => (Val.vnull, rest)
      else if c = 't' then (stripPfx "rue".data cs).map fun rest => (Val.vbool true, rest)
      else if c = 'f' then (stripPfx "alse".data cs).map fun rest => (Val.vbool false, rest)
      else if c = '[' then
        if (skipWs cs).headD 'z' = ']' then some (Val.vlist [], (skipWs cs).tail)
        else parseStep fuel (PJob.pelems []) cs
      else if c = '\x7b' then
        if (skipWs cs).headD 'z' = '\x7d' then some (Val.vdict [], (skipWs cs).tail)
        else parseStep fuel (PJob.pmembers []) cs
      else if c = '-' then
        if (readDigits cs).1 = [] then none
        else some (Val.vnum (-(digitsToNat (readDigits cs).1 : ℤ)), (readDigits cs).2)
      else if isDigitCh c then
        some (Val.vnum (digitsToNat (readDigits (c :: cs)).1), (readDigits (c :: cs)).2)
      else none) := by
  simp only [parseStep]
  rw [h]

theorem parseStep_pelems_cons (fuel : ℕ) (acc : List Val) (s : Str) (c : Char) (cs : Str)
    (h : skipWs s = c :: cs) :
    parseStep (fuel + 1) (PJob.pelems acc) s =
      (if c = ']' then some (Val.vlist acc.reverse, cs)
      else
        match parseStep fuel PJob.pval s with
        | none => none
        | some (v, rest) =>
          match skipWs rest with
          | [] => none
          | c2 :: cs2 =>
            if c2 = ',' then parseStep fuel (PJob.pelems (v :: acc)) cs2
            else if c2 = ']' then some (Val.vlist (v :: acc).reverse, cs2)
            else none) := by
  simp only [parseStep]
  rw [h]

theorem parseStep_pmembers_cons (fuel : ℕ) (acc : List (Str × Val)) (s : Str) (c : Char)
    (cs : Str) (h : skipWs s = c :: cs) :
    parseStep (fuel + 1) (PJob.pmembers acc) s =
      (if c = '\x7d' then some (Val.vdict acc.reverse, cs)
      else if c = '"' then
        match readStr cs with
        | none => none
        | some (k, rest1) =>
          match skipWs rest1 with
          | [] => none
          | c2 :: cs2 =>
            if c2 = ':' then
              match parseStep fuel PJob.pval cs2 with
              | none => none
              | some (v, rest3) =>
                match skipWs rest3 with
                | [] => none
                | c3 :: cs3 =>
                  if c3 = ',' then parseStep fuel (PJob.pmembers ((k, v) :: acc)) cs3
                  else if c3 = '\x7d' then some (Val.vdict ((k, v) :: acc).reverse, cs3)
                  else none
            else none
      else none) := by
  simp only [parseStep]
  rw [h]

theorem ws_append (w1 w2 : Str) (h1 : ∀ c ∈ w1, wsChar c = true)
    (h2 : ∀ c ∈ w2, wsChar c = true) : ∀ c ∈ w1 ++ w2, wsChar c = true := by
  intro c hc
  rcases List.mem_append.1 hc with h | h
  · exact h1 c h
  · exact h2 c h

theorem ws_nl_spaces (n : ℕ) : ∀ c ∈ '\n' :: spaces n, wsChar c = true := by
  intro c hc
  rcases List.mem_cons.1 hc with rfl | hc
  · decide
  · exact spaces_ws n c hc

theorem skipWs_elems (pf el : ℕ) (v : Val) (vs : List Val) (X : Str) (hpf : 1 ≤ pf) :
    ∃ c t, skipWs (elemsText pf el (v :: vs) ++ X) = c :: t ∧ jheadCh c = true := by
  obtain ⟨c, t, hD, hhead⟩ := dumpsV_head pf el v hpf
  have hws := (jhead_props c hhead).1
  cases vs with
  | nil =>
    rw [elemsText_single]
    refine ⟨c, t ++ X, ?_, hhead⟩
    rw [show (spaces (2 * el) ++ dumpsV pf el v) ++ X
        = spaces (2 * el) ++ (dumpsV pf el v ++ X) from by simp,
      skipWs_append_ws _ _ (spaces_ws _), hD, List.cons_append]
    exact skipWs_cons_neg _ _ hws
  | cons v2 vs' =>
    rw [elemsText_cons₂]
    refine ⟨c, t ++ ((',' :: '\n' :: elemsText pf el (v2 :: vs')) ++ X), ?_, hhead⟩
    rw [show ((spaces (2 * el) ++ dumpsV pf el v) ++
          (',' :: '\n' :: elemsText pf el (v2 :: vs'))) ++ X
        = spaces (2 * el) ++
          (dumpsV pf el v ++ ((',' :: '\n' :: elemsText pf el (v2 :: vs')) ++ X)) from by simp,
      skipWs_append_ws _ _ (spaces_ws _), hD, List.cons_append]
    exact skipWs_cons_neg _ _ hws

theorem skipWs_members_head (pf el : ℕ) (m : Str × Val) (ms : List (Str × Val)) (X : Str) :
    ∃ t, skipWs (membersText pf el (m :: ms) ++ X) = '"' :: t := by
  cases ms with
  | nil =>
    rw [membersText_single]
    refine ⟨(m.1 ++ '"' :: ':' :: ' ' :: dumpsV pf el m.2) ++ X, ?_⟩
    rw [show (spaces (2 * el) ++ '"' :: (m.1 ++ '"' :: ':' :: ' ' :: dumpsV pf el m.2)) ++ X
        = spaces (2 * el) ++ ('"' :: ((m.1 ++ '"' :: ':' :: ' ' :: dumpsV pf el m.2) ++ X))
      from by simp, skipWs_append_ws _ _ (spaces_ws _)]
    exact skipWs_cons_neg _ _ (by decide)
  | cons m2 ms' =>
    rw [membersText_cons₂]
    refine ⟨(m.1 ++ '"' :: ':' :: ' ' :: dumpsV pf el m.2) ++
      ((',' :: '\n' :: membersText pf el (m2 :: ms')) ++ X), ?_⟩
    rw [show ((spaces (2 * el) ++ '"' :: (m.1 ++ '"' :: ':' :: ' ' :: dumpsV pf el m.2)) ++
          (',' :: '\n' :: membersText pf el (m2 :: ms'))) ++ X
        = spaces (2 * el) ++ ('"' :: ((m.1 ++ '"' :: ':' :: ' ' :: dumpsV pf el m.2) ++
          ((',' :: '\n' :: membersText pf el (m2 :: ms')) ++ X))) from by simp,
      skipWs_append_ws _ _ (spaces_ws _)]
    exact skipWs_cons_neg _ _ (by decide)

theorem parseStep_pelems_close (fuel : ℕ) (acc : List Val) (s : Str) (c : Char) (cs : Str)
    (h : skipWs s = c :: cs) (hc : ¬(c = ']')) (v : Val) (rest1 rest : Str)
    (hv : parseStep fuel PJob.pval s = some (v, rest1))
    (h2 : skipWs rest1 = ']' :: rest) :
    parseStep (fuel + 1) (PJob.pelems acc) s = some (Val.vlist (v :: acc).reverse, rest) := by
  rw [parseStep_pelems_cons fuel acc s c cs h, if_neg hc, hv]
  show (match skipWs rest1 with
    | [] => none
    | c2 :: cs2 =>
      if c2 = ',' then parseStep fuel (PJob.pelems (v :: acc)) cs2
      else if c2 = ']' then some (Val.vlist (v :: acc).reverse, cs2)
      else none) = some (Val.vlist (v :: acc).reverse, rest)
  rw [h2]
  rfl

theorem parseStep_pelems_comma (fuel : ℕ) (acc : List Val) (s : Str) (c : Char) (cs : Str)
    (h : skipWs s = c :: cs) (hc : ¬(c = ']')) (v : Val) (rest1 rest2 : Str)
    (hv : parseStep fuel PJob.pval s = some (v, rest1))
    (h2 : skipWs rest1 = ',' :: rest2) :
    parseStep (fuel + 1) (PJob.pelems acc) s = parseStep fuel (PJob.pelems (v :: acc)) rest2 := by
  rw [parseStep_pelems_cons fuel acc s c cs h, if_neg hc, hv]
  show (match skipWs rest1 with
    | [] => none
    | c2 :: cs2 =>
      if c2 = ',' then parseStep fuel (PJob.pelems (v :: acc)) cs2
      else if c2 = ']' then some (Val.vlist (v :: acc).reverse, cs2)
      else none) = parseStep fuel (PJob.pelems (v :: acc)) rest2
  rw [h2]
  rfl

theorem parseStep_pmembers_close (fuel : ℕ) (acc : List (Str × Val)) (s cs : Str)
    (h : skipWs s = '"' :: cs) (k rest1 : Str) (hk : readStr cs = some (k, rest1))
    (cs2 : Str) (h2 : skipWs rest1 = ':' :: cs2) (v : Val) (rest3 rest : Str)
    (hv : parseStep fuel PJob.pval cs2 = some (v, rest3))
    (h3 : skipWs rest3 = '\x7d' :: rest) :
    parseStep (fuel + 1) (PJob.pmembers acc) s
      = some (Val.vdict ((k, v) :: acc).reverse, rest) := by
  rw [parseStep_pmembers_cons fuel acc s '"' cs h, if_neg (by decide), if_pos rfl, hk]
  show (match skipWs rest1 with
    | [] => none
    | c2 :: zs2 =>
      if c2 = ':' then
        match parseStep fuel PJob.pval zs2 with
        | none => none
        | some (v2, r3) =>
          match skipWs r3 with
          | [] => none
          | c3 :: zs3 =>
            if c3 = ',' then parseStep fuel (PJob.pmembers ((k, v2) :: acc)) zs3
            else if c3 = '\x7d' then some (Val.vdict ((k, v2) :: acc).reverse, zs3)
            else none
      else none) = some (Val.vdict ((k, v) :: acc).reverse, rest)
  rw [h2]
  show (match parseStep fuel PJob.pval cs2 with
    | none => none
    | some (v2, r3) =>
      match skipWs r3 with
      | [] => none
      | c3 :: zs3 =>
        if c3 = ',' then parseStep fuel (PJob.pmembers ((k, v2) :: acc)) zs3
        else if c3 = '\x7d' then some (Val.vdict ((k, v2) :: acc).reverse, zs3)
        else none) = some (Val.vdict ((k, v) :: acc).reverse, rest)
  rw [hv]
  show (match skipWs rest3 with
    | [] => none
    | c3 :: zs3 =>
      if c3 = ',' then parseStep fuel (PJob.pmembers ((k, v) :: acc)) zs3
      else if c3 = '\x7d' then some (Val.vdict ((k, v) :: acc).reverse, zs3)
      else none) = some (Val.vdict ((k, v) :: acc).reverse, rest)
  rw [h3]
  rfl

theorem parseStep_pmembers_comma (fuel : ℕ) (acc : List (Str × Val)) (s cs : Str)
    (h : skipWs s = '"' :: cs) (k rest1 : Str) (hk : readStr cs = some (k, rest1))
    (cs2 : Str) (h2 : skipWs rest1 = ':' :: cs2) (v : Val) (rest3 rest4 : Str)
    (hv : parseStep fuel PJob.pval cs2 = some (v, rest3))
    (h3 : skipWs rest3 = ',' :: rest4) :
    parseStep (fuel + 1) (PJob.pmembers acc) s
      = parseStep fuel (PJob.pmembers ((k, v) :: acc)) rest4 := by
  rw [parseStep_pmembers_cons fuel acc s '"' cs h, if_neg (by decide), if_pos rfl, hk]
  show (match skipWs rest1 with
    | [] => none
    | c2 :: zs2 =>
      if c2 = ':' then
        match parseStep fuel PJob.pval zs2 with
        | none => none
        | some (v2, r3) =>
          match skipWs r3 with
          | [] => none
          | c3 :: zs3 =>
            if c3 = ',' then parseStep fuel (PJob.pmembers ((k, v2) :: acc)) zs3
            else if c3 = '\x7d' then some (Val.vdict ((k, v2) :: acc).reverse, zs3)
            else none
      else none) = parseStep fuel (PJob.pmembers ((k, v) :: acc)) rest4
  rw [h2]
  show (match parseStep fuel PJob.pval cs2 with
    | none => none
    | some (v2, r3) =>
      match skipWs r3 with
      | [] => none
      | c3 :: zs3 =>
        if c3 = ',' then parseStep fuel (PJob.pmembers ((k, v2) :: acc)) zs3
        else if c3 = '\x7d' then some (Val.vdict ((k, v2) :: acc).reverse, zs3)
        else none) = parseStep fuel (PJob.pmembers ((k, v) :: acc)) rest4
  rw [hv]
  show (match skipWs rest3 with
    | [] => none
    | c3 :: zs3 =>
      if c3 = ',' then parseStep fuel (PJob.pmembers ((k, v) :: acc)) zs3
      else if c3 = '\x7d' then some (Val.vdict ((k, v) :: acc).reverse, zs3)
      else none) = parseStep fuel (PJob.pmembers ((k, v) :: acc)) rest4
  rw [h3]
  rfl

theorem parse_dumps : ∀ b : ℕ,
    (∀ v : Val, vfuel v ≤ b → SafeVal v →
      ∀ pf lvl fuel (w rest : Str), vfuel v ≤ pf → (∀ c ∈ w, wsChar c = true) →
        headNotDigit rest = true →
        3 * (w ++ (dumpsV pf lvl v ++ rest)).length + 2 ≤ fuel →
        parseStep fuel PJob.pval (w ++ (dumpsV pf lvl v ++ rest)) = some (v, rest)) ∧
    (∀ vl : List Val, vfuelList vl ≤ b → (∀ v ∈ vl, SafeVal v) → vl ≠ [] →
      ∀ pf el fuel (acc : List Val) (w w2 rest : Str),
        (∀ v ∈ vl, vfuel v ≤ pf) → (∀ c ∈ w, wsChar c = true) → (∀ c ∈ w2, wsChar c = true) →
        headNotDigit rest = true →
        3 * (w ++ (elemsText pf el vl ++ (w2 ++ ']' :: rest))).length + 3 ≤ fuel →
        parseStep fuel (PJob.pelems acc) (w ++ (elemsText pf el vl ++ (w2 ++ ']' :: rest)))
          = some (Val.vlist (acc.reverse ++ vl), rest)) ∧
    (∀ d : List (Str × Val), vfuelMembers d ≤ b → (∀ m ∈ d, jsonPlainStr m.1 = true) →
      (∀ m ∈ d, SafeVal m.2) → d ≠ [] →
      ∀ pf el fuel (acc : List (Str × Val)) (w w2 rest : Str),
        (∀ m ∈ d, vfuel m.2 ≤ pf) → (∀ c ∈ w, wsChar c = true) → (∀ c ∈ w2, wsChar c = true) →
        headNotDigit rest = true →
        3 * (w ++ (membersText pf el d ++ (w2 ++ '\x7d' :: rest))).length + 3 ≤ fuel →
        parseStep fuel (PJob.pmembers acc) (w ++ (membersText pf el d ++ (w2 ++ '\x7d' :: rest)))
          = some (Val.vdict (acc.reverse ++ d), rest)) := by
  intro b
  induction b using Nat.strong_induction_on with
  | h b IH =>
  have Hval : ∀ v : Val, vfuel v ≤ b → SafeVal v →
      ∀ pf lvl fuel (w rest : Str), vfuel v ≤ pf → (∀ c ∈ w, wsChar c = true) →
        headNotDigit rest = true →
        3 * (w ++ (dumpsV pf lvl v ++ rest)).length + 2 ≤ fuel →
        parseStep fuel PJob.pval (w ++ (dumpsV pf lvl v ++ rest)) = some (v, rest) := by
    intro v hb hsafe pf lvl fuel w rest hpf hw hrest hfuel
    have hv1 : 1 ≤ vfuel v := vfuel_pos v
    cases fuel with
    | zero => omega
    | succ fl =>
    cases pf with
    | zero => omega
    | succ pf =>
    cases v with
    | vstr s =>
      have hs := safeVal_vstr s hsafe
      have hskip : skipWs (w ++ (dumpsV (pf + 1) lvl (Val.vstr s) ++ rest))
          = '"' :: ((s ++ ['"']) ++ rest) := by
        rw [skipWs_append_ws _ _ hw,
          show dumpsV (pf + 1) lvl (Val.vstr s) = '"' :: (s ++ ['"']) from rfl,
          List.cons_append]
        exact skipWs_cons_neg _ _ (by decide)
      rw [parseStep_pval_cons fl _ _ _ hskip, if_pos rfl,
        show (s ++ ['"']) ++ rest = s ++ ('"' :: rest) from by simp,
        readStr_round s rest (jsonPlainStr_no_quote s hs)]
    | vnum n =>
      by_cases hn : n < 0
      · have hD : dumpsV (pf + 1) lvl (Val.vnum n) = '-' :: printNat n.natAbs := by
          show printInt n = _
          simp only [printInt]
          rw [if_pos hn]
        have hskip : skipWs (w ++ (dumpsV (pf + 1) lvl (Val.vnum n) ++ rest))
            = '-' :: (printNat n.natAbs ++ rest) := by
          rw [skipWs_append_ws _ _ hw, hD, List.cons_append]
          exact skipWs_cons_neg _ _ (by decide)
        rw [parseStep_pval_cons fl _ _ _ hskip, if_neg (by decide), if_neg (by decide),
          if_neg (by decide), if_neg (by decide), if_neg (by decide), if_neg (by decide),
          if_pos rfl, readDigits_round _ _ (printNat_spec n.natAbs).2.1 hrest,
          if_neg (printNat_spec n.natAbs).2.2, (printNat_spec n.natAbs).1]
        have hnn : -((n.natAbs : ℤ)) = n := by omega
        rw [hnn]
      · obtain ⟨h1, h2, h3⟩ := printNat_spec n.natAbs
        obtain ⟨c, t, hct⟩ := List.exists_cons_of_ne_nil h3
        have hcd : isDigitCh c = true := h2 c (by rw [hct]; simp)
        obtain ⟨hwsc, hne1, hne2, hne3, hne4, hne5, hne6, hne7, _, _, _⟩ :=
          digit_not_special c hcd
        have hD : dumpsV (pf + 1) lvl (Val.vnum n) = printNat n.natAbs := by
          show printInt n = _
          simp only [printInt]
          rw [if_neg hn]
        have hskip : skipWs (w ++ (dumpsV (pf + 1) lvl (Val.vnum n) ++ rest))
            = c :: (t ++ rest) := by
          rw [skipWs_append_ws _ _ hw, hD, hct, List.cons_append]
          exact skipWs_cons_neg _ _ hwsc
        rw [parseStep_pval_cons fl _ _ _ hskip, if_neg hne1, if_neg hne2, if_neg hne3,
          if_neg hne4, if_neg hne5, if_neg hne6, if_neg hne7, if_pos hcd,
          show c :: (t ++ rest) = printNat n.natAbs ++ rest from by rw [hct, List.cons_append],
          readDigits_round _ _ h2 hrest, h1]
        have hnn : ((n.natAbs : ℤ)) = n := by omega
        rw [hnn]
    | vbool b2 =>
      cases b2 with
      | true =>
        have hskip : skipWs (w ++ (dumpsV (pf + 1) lvl (Val.vbool true) ++ rest))
            = 't' :: ("rue".data ++ rest) := by
          rw [skipWs_append_ws _ _ hw,
            show dumpsV (pf + 1) lvl (Val.vbool true) = 't' :: "rue".data from rfl,
            List.cons_append]
          exact skipWs_cons_neg _ _ (by decide)
        rw [parseStep_pval_cons fl _ _ _ hskip, if_neg (by decide), if_neg (by decide),
          if_pos rfl, stripPfx_append]
        rfl
      | false =>
        have hskip : skipWs (w ++ (dumpsV (pf + 1) lvl (Val.vbool false) ++ rest))
            = 'f' :: ("alse".data ++ rest) := by
          rw [skipWs_append_ws _ _ hw,
            show dumpsV (pf + 1) lvl (Val.vbool false) = 'f' :: "alse".data from rfl,
            List.cons_append]
          exact skipWs_cons_neg _ _ (by decide)
        rw [parseStep_pval_cons fl _ _ _ hskip, if_neg (by decide), if_neg (by decide),
          if_neg (by decide), if_pos rfl, stripPfx_append]
        rfl
    | vnull =>
      have hskip : skipWs (w ++ (dumpsV (pf + 1) lvl Val.vnull ++ rest))
          = 'n' :: ("ull".data ++ rest) := by
        rw [skipWs_append_ws _ _ hw,
          show dumpsV (pf + 1) lvl Val.vnull = 'n' :: "ull".data from rfl,
          List.cons_append]
        exact skipWs_cons_neg _ _ (by decide)
      rw [parseStep_pval_cons fl _ _ _ hskip, if_neg (by decide), if_pos rfl, stripPfx_append]
      rfl
    | vlist l2 =>
      cases l2 with
      | nil =>
        have hskip : skipWs (w ++ (dumpsV (pf + 1) lvl (Val.vlist []) ++ rest))
            = '[' :: (']' :: rest) := by
          rw [skipWs_append_ws _ _ hw,
            show dumpsV (pf + 1) lvl (Val.vlist []) ++ rest = '[' :: (']' :: rest) from by
              show ('[' :: [']']) ++ rest = _
              simp]
          exact skipWs_cons_neg _ _ (by decide)
        rw [parseStep_pval_cons fl _ _ _ hskip, if_neg (by decide), if_neg (by decide),
          if_neg (by decide), if_neg (by decide), if_pos rfl,
          skipWs_cons_neg _ _ (by decide),
          if_pos (show ((']' :: rest).headD 'z' = ']') from rfl)]
        rfl
      | cons v vs =>
        have hfl : vfuel (Val.vlist (v :: vs)) = 1 + vfuelList (v :: vs) := by simp [vfuel]
        have hvin : vfuel v ≤ vfuelList (v :: vs) := vfuelList_mem _ _ (by simp)
        have hv2 := vfuel_pos v
        have hpf1 : 1 ≤ pf := by omega
        have hD := dumpsV_vlist_cons pf lvl v vs
        have hskip : skipWs (w ++ (dumpsV (pf + 1) lvl (Val.vlist (v :: vs)) ++ rest))
            = '[' :: (('\n' ::
              (elemsText pf (lvl + 1) (v :: vs) ++ '\n' :: (spaces (2 * lvl) ++ [']']))) ++
                rest) := by
          rw [skipWs_append_ws _ _ hw, hD, List.cons_append]
          exact skipWs_cons_neg _ _ (by decide)
        rw [parseStep_pval_cons fl _ _ _ hskip, if_neg (by decide), if_neg (by decide),
          if_neg (by decide), if_neg (by decide), if_pos rfl]
        have hcs : ('\n' ::
              (elemsText pf (lvl + 1) (v :: vs) ++ '\n' :: (spaces (2 * lvl) ++ [']']))) ++ rest
            = ['\n'] ++ (elemsText pf (lvl + 1) (v :: vs) ++
                (('\n' :: spaces (2 * lvl)) ++ (']' :: rest))) := by
          simp
        obtain ⟨ch, th, hsk2, hhd⟩ := skipWs_elems pf (lvl + 1) v vs
          (('\n' :: spaces (2 * lvl)) ++ (']' :: rest)) hpf1
        have hsk3 : skipWs (('\n' ::
              (elemsText pf (lvl + 1) (v :: vs) ++ '\n' :: (spaces (2 * lvl) ++ [']']))) ++
                rest) = ch :: th := by
          rw [hcs, skipWs_append_ws _ _ (by decide : ∀ c ∈ ['\n'], wsChar c = true)]
          exact hsk2
        rw [hsk3, if_neg (show ¬((ch :: th).headD 'z' = ']') from by
          simp only [List.headD_cons]
          exact (jhead_props ch hhd).2.1)]
        rw [hcs]
        have hb2 : vfuelList (v :: vs) < b := by omega
        have happ := (IH _ hb2).2.1 (v :: vs) le_rfl (safeVal_vlist _ hsafe) (by simp)
          pf (lvl + 1) fl [] ['\n'] ('\n' :: spaces (2 * lvl)) rest
          (fun x hx => by have := vfuelList_mem _ _ hx; omega)
          (by decide) (ws_nl_spaces _) hrest
          (by
            have e1 : (w ++ (dumpsV (pf + 1) lvl (Val.vlist (v :: vs)) ++ rest)).length
                = w.length + ((dumpsV (pf + 1) lvl (Val.vlist (v :: vs))).length +
                  rest.length) := by
              simp only [List.length_append]
            have e2 : (dumpsV (pf + 1) lvl (Val.vlist (v :: vs))).length
                = (elemsText pf (lvl + 1) (v :: vs)).length + 2 * lvl + 4 := by
              rw [hD]
              simp only [List.length_cons, List.length_append, List.length_nil, spaces,
                List.length_replicate]
              omega
            have e3 : (['\n'] ++ (elemsText pf (lvl + 1) (v :: vs) ++
                  (('\n' :: spaces (2 * lvl)) ++ (']' :: rest)))).length
                = (elemsText pf (lvl + 1) (v :: vs)).length + 2 * lvl + 3 + rest.length := by
              simp only [List.length_cons, List.length_append, spaces, List.length_replicate,
                List.length_nil]
              omega
            omega)
        rw [happ]
        simp
    | vdict d =>
      cases d with
      | nil =>
        have hskip : skipWs (w ++ (dumpsV (pf + 1) lvl (Val.vdict []) ++ rest))
            = '\x7b' :: ('\x7d' :: rest) := by
          rw [skipWs_append_ws _ _ hw,
            show dumpsV (pf + 1) lvl (Val.vdict []) ++ rest = '\x7b' :: ('\x7d' :: rest) from by
              show ('\x7b' :: ['\x7d']) ++ rest = _
              simp]
          exact skipWs_cons_neg _ _ (by decide)
        rw [parseStep_pval_cons fl _ _ _ hskip, if_neg (by decide), if_neg (by decide),
          if_neg (by decide), if_neg (by decide), if_neg (by decide), if_pos rfl,
          skipWs_cons_neg _ _ (by decide),
          if_pos (show (('\x7d' :: rest).headD 'z' = '\x7d') from rfl)]
        rfl
      | cons m ms =>
        have hfl : vfuel (Val.vdict (m :: ms)) = 1 + vfuelMembers (m :: ms) := by simp [vfuel]
        have hvin : vfuel m.2 ≤ vfuelMembers (m :: ms) := vfuelMembers_mem _ _ (by simp)
        have hv2 := vfuel_pos m.2
        have hpf1 : 1 ≤ pf := by omega
        have hD := dumpsV_vdict_cons pf lvl m ms
        have hskip : skipWs (w ++ (dumpsV (pf + 1) lvl (Val.vdict (m :: ms)) ++ rest))
            = '\x7b' :: (('\n' ::
              (membersText pf (lvl + 1) (m :: ms) ++ '\n' :: (spaces (2 * lvl) ++ ['\x7d']))) ++
                rest) := by
          rw [skipWs_append_ws _ _ hw, hD, List.cons_append]
          exact skipWs_cons_neg _ _ (by decide)
        rw [parseStep_pval_cons fl _ _ _ hskip, if_neg (by decide), if_neg (by decide),
          if_neg (by decide), if_neg (by decide), if_neg (by decide), if_pos rfl]
        have hcs : ('\n' ::
              (membersText pf (lvl + 1) (m :: ms) ++ '\n' :: (spaces (2 * lvl) ++ ['\x7d']))) ++
                rest
            = ['\n'] ++ (membersText pf (lvl + 1) (m :: ms) ++
                (('\n' :: spaces (2 * lvl)) ++ ('\x7d' :: rest))) := by
          simp
        obtain ⟨th, hsk2⟩ := skipWs_members_head pf (lvl + 1) m ms
          (('\n' :: spaces (2 * lvl)) ++ ('\x7d' :: rest))
        have hsk3 : skipWs (('\n' ::
              (membersText pf (lvl + 1) (m :: ms) ++ '\n' :: (spaces (2 * lvl) ++ ['\x7d']))) ++
                rest) = '"' :: th := by
          rw [hcs, skipWs_append_ws _ _ (by decide : ∀ c ∈ ['\n'], wsChar c = true)]
          exact hsk2
        rw [hsk3, if_neg (show ¬(('"' :: th).headD 'z' = '\x7d') from by
          simp only [List.headD_cons]
          decide)]
        rw [hcs]
        have hb2 : vfuelMembers (m :: ms) < b := by omega
        have happ := (IH _ hb2).2.2 (m :: ms) le_rfl (safeVal_vdict_keys _ hsafe)
          (safeVal_vdict_vals _ hsafe) (by simp)
          pf (lvl + 1) fl [] ['\n'] ('\n' :: spaces (2 * lvl)) rest
          (fun x hx => by have := vfuelMembers_mem _ _ hx; omega)
          (by decide) (ws_nl_spaces _) hrest
          (by
            have e1 : (w ++ (dumpsV (pf + 1) lvl (Val.vdict (m :: ms)) ++ rest)).length
                = w.length + ((dumpsV (pf + 1) lvl (Val.vdict (m :: ms))).length +
                  rest.length) := by
              simp only [List.length_append]
            have e2 : (dumpsV (pf + 1) lvl (Val.vdict (m :: ms))).length
                = (membersText pf (lvl + 1) (m :: ms)).length + 2 * lvl + 4 := by
              rw [hD]
              simp only [List.length_cons, List.length_append, List.length_nil, spaces,
                List.length_replicate]
              omega
            have e3 : (['\n'] ++ (membersText pf (lvl + 1) (m :: ms) ++
                  (('\n' :: spaces (2 * lvl)) ++ ('\x7d' :: rest)))).length
                = (membersText pf (lvl + 1) (m :: ms)).length + 2 * lvl + 3 + rest.length := by
              simp only [List.length_cons, List.length_append, spaces, List.length_replicate,
                List.length_nil]
              omega
            omega)
        rw [happ]
        simp
  have Helems : ∀ vl : List Val, vfuelList vl ≤ b → (∀ v ∈ vl, SafeVal v) → vl ≠ [] →
      ∀ pf el fuel (acc : List Val) (w w2 rest : Str),
        (∀ v ∈ vl, vfuel v ≤ pf) → (∀ c ∈ w, wsChar c = true) → (∀ c ∈ w2, wsChar c = true) →
        headNotDigit rest = true →
        3 * (w ++ (elemsText pf el vl ++ (w2 ++ ']' :: rest))).length + 3 ≤ fuel →
        parseStep fuel (PJob.pelems acc) (w ++ (elemsText pf el vl ++ (w2 ++ ']' :: rest)))
          = some (Val.vlist (acc.reverse ++ vl), rest) := by
    intro vl
    induction vl with
    | nil => intro _ _ hne; exact absurd rfl hne
    | cons v vs ihl =>
      intro hbl hsl _ pf el fuel acc w w2 rest hpfl hwws hw2ws hrest hfuel
      cases fuel with
      | zero => omega
      | succ fl =>
      have hvb : vfuel v ≤ b := le_trans (vfuelList_mem _ _ (by simp)) hbl
      have hvpf : vfuel v ≤ pf := hpfl v (by simp)
      have hpf1 : 1 ≤ pf := le_trans (vfuel_pos v) hvpf
      obtain ⟨ch, th, hsk, hhd⟩ := skipWs_elems pf el v vs (w2 ++ ']' :: rest) hpf1
      have hsk2 : skipWs (w ++ (elemsText pf el (v :: vs) ++ (w2 ++ ']' :: rest)))
          = ch :: th := by
        rw [skipWs_append_ws _ _ hwws]
        exact hsk
      have hwsp : ∀ c ∈ w ++ spaces (2 * el), wsChar c = true :=
        ws_append _ _ hwws (spaces_ws _)
      cases vs with
      | nil =>
        have hres : headNotDigit (w2 ++ ']' :: rest) = true := by
          cases w2 with
          | nil => simp [headNotDigit, isDigitCh]
          | cons cw tw =>
            have := ws_not_digit cw (hw2ws cw (by simp))
            simp [headNotDigit, this]
        have hseq : w ++ (elemsText pf el [v] ++ (w2 ++ ']' :: rest))
            = (w ++ spaces (2 * el)) ++ (dumpsV pf el v ++ (w2 ++ ']' :: rest)) := by
          rw [elemsText_single]
          simp
        have hval : parseStep fl PJob.pval (w ++ (elemsText pf el [v] ++ (w2 ++ ']' :: rest)))
            = some (v, w2 ++ ']' :: rest) := by
          rw [hseq]
          exact Hval v hvb (hsl v (by simp)) pf el fl (w ++ spaces (2 * el))
            (w2 ++ ']' :: rest) hvpf hwsp hres
            (by
              have e1 := congrArg List.length hseq
              simp only [List.length_append, List.length_cons, List.length_nil, spaces,
                List.length_replicate] at e1 hfuel ⊢
              omega)
        have hskX : skipWs (w2 ++ ']' :: rest) = ']' :: rest := by
          rw [skipWs_append_ws _ _ hw2ws]
          exact skipWs_cons_neg _ _ (by decide)
        rw [parseStep_pelems_close fl acc _ ch th hsk2 ((jhead_props ch hhd).2.1) v _ rest
          hval hskX]
        simp
      | cons v2 vs' =>
        have hseq : w ++ (elemsText pf el (v :: v2 :: vs') ++ (w2 ++ ']' :: rest))
            = (w ++ spaces (2 * el)) ++ (dumpsV pf el v ++
              ((',' :: '\n' :: elemsText pf el (v2 :: vs')) ++ (w2 ++ ']' :: rest))) := by
          rw [elemsText_cons₂]
          simp
        have hres : headNotDigit ((',' :: '\n' :: elemsText pf el (v2 :: vs')) ++
            (w2 ++ ']' :: rest)) = true := rfl
        have hval : parseStep fl PJob.pval
            (w ++ (elemsText pf el (v :: v2 :: vs') ++ (w2 ++ ']' :: rest)))
            = some (v, (',' :: '\n' :: elemsText pf el (v2 :: vs')) ++
              (w2 ++ ']' :: rest)) := by
          rw [hseq]
          exact Hval v hvb (hsl v (by simp)) pf el fl (w ++ spaces (2 * el))
            ((',' :: '\n' :: elemsText pf el (v2 :: vs')) ++ (w2 ++ ']' :: rest)) hvpf hwsp hres
            (by
              have e1 := congrArg List.length hseq
              simp only [List.length_append, List.length_cons, List.length_nil, spaces,
                List.length_replicate] at e1 hfuel ⊢
              omega)
        have hskR : skipWs ((',' :: '\n' :: elemsText pf el (v2 :: vs')) ++
            (w2 ++ ']' :: rest))
            = ',' :: (('\n' :: elemsText pf el (v2 :: vs')) ++ (w2 ++ ']' :: rest)) := by
          rw [List.cons_append]
          exact skipWs_cons_neg _ _ (by decide)
        rw [parseStep_pelems_comma fl acc _ ch th hsk2 ((jhead_props ch hhd).2.1) v _
          (('\n' :: elemsText pf el (v2 :: vs')) ++ (w2 ++ ']' :: rest)) hval hskR]
        have hshape : ('\n' :: elemsText pf el (v2 :: vs')) ++ (w2 ++ ']' :: rest)
            = ['\n'] ++ (elemsText pf el (v2 :: vs') ++ (w2 ++ ']' :: rest)) := by simp
        have hrec := ihl
          (by
            have h5 := vfuel_pos v
            simp only [vfuelList] at hbl ⊢
            omega)
          (fun x hx => hsl x (List.mem_cons_of_mem _ hx)) (by simp) pf el fl (v :: acc)
          ['\n'] w2 rest (fun x hx => hpfl x (List.mem_cons_of_mem _ hx))
          (by decide) hw2ws hrest
          (by
            have e1 := congrArg List.length hseq
            obtain ⟨cv, tv, hDv, _⟩ := dumpsV_head pf el v hpf1
            have hDvlen : (dumpsV pf el v).length = tv.length + 1 := by rw [hDv]; simp
            simp only [List.length_append, List.length_cons, spaces, List.length_nil,
              List.length_replicate] at e1 hfuel ⊢
            omega)
        rw [hshape, hrec]
        simp
  have Hmembers : ∀ d : List (Str × Val), vfuelMembers d ≤ b →
      (∀ m ∈ d, jsonPlainStr m.1 = true) → (∀ m ∈ d, SafeVal m.2) → d ≠ [] →
      ∀ pf el fuel (acc : List (Str × Val)) (w w2 rest : Str),
        (∀ m ∈ d, vfuel m.2 ≤ pf) → (∀ c ∈ w, wsChar c = true) → (∀ c ∈ w2, wsChar c = true) →
        headNotDigit rest = true →
        3 * (w ++ (membersText pf el d ++ (w2 ++ '\x7d' :: rest))).length + 3 ≤ fuel →
        parseStep fuel (PJob.pmembers acc) (w ++ (membersText pf el d ++ (w2 ++ '\x7d' :: rest)))
          = some (Val.vdict (acc.reverse ++ d), rest) := by
    intro d
    induction d with
    | nil => intro _ _ _ hne; exact absurd rfl hne
    | cons m ms ihd =>
      intro hbl hkl hsl _ pf el fuel acc w w2 rest hpfl hwws hw2ws hrest hfuel
      cases fuel with
      | zero => omega
      | succ fl =>
      have hvb : vfuel m.2 ≤ b := le_trans (vfuelMembers_mem _ _ (by simp)) hbl
      have hvpf : vfuel m.2 ≤ pf := hpfl m (by simp)
      have hpf1 : 1 ≤ pf := le_trans (vfuel_pos m.2) hvpf
      have hkq : ∀ c ∈ m.1, c ≠ '"' := jsonPlainStr_no_quote m.1 (hkl m (by simp))
      cases ms with
      | nil =>
        have hseq : w ++ (membersText pf el [m] ++ (w2 ++ '\x7d' :: rest))
            = (w ++ spaces (2 * el)) ++ ('"' :: (m.1 ++ ('"' ::
              (':' :: (' ' :: (dumpsV pf el m.2 ++ (w2 ++ '\x7d' :: rest))))))) := by
          rw [membersText_single]
          simp
        have hsk2 : skipWs (w ++ (membersText pf el [m] ++ (w2 ++ '\x7d' :: rest)))
            = '"' :: (m.1 ++ ('"' ::
              (':' :: (' ' :: (dumpsV pf el m.2 ++ (w2 ++ '\x7d' :: rest)))))) := by
          rw [hseq, skipWs_append_ws _ _ (ws_append _ _ hwws (spaces_ws _))]
          exact skipWs_cons_neg _ _ (by decide)
        have hrd := readStr_round m.1
          (':' :: (' ' :: (dumpsV pf el m.2 ++ (w2 ++ '\x7d' :: rest)))) hkq
        have h2 : skipWs (':' :: (' ' :: (dumpsV pf el m.2 ++ (w2 ++ '\x7d' :: rest))))
            = ':' :: (' ' :: (dumpsV pf el m.2 ++ (w2 ++ '\x7d' :: rest))) :=
          skipWs_cons_neg _ _ (by decide)
        have hres : headNotDigit (w2 ++ '\x7d' :: rest) = true := by
          cases w2 with
          | nil => simp [headNotDigit, isDigitCh]
          | cons cw tw =>
            have := ws_not_digit cw (hw2ws cw (by simp))
            simp [headNotDigit, this]
        have hval : parseStep fl PJob.pval
            (' ' :: (dumpsV pf el m.2 ++ (w2 ++ '\x7d' :: rest)))
            = some (m.2, w2 ++ '\x7d' :: rest) := by
          exact Hval m.2 hvb (hsl m (by simp)) pf el fl [' '] (w2 ++ '\x7d' :: rest) hvpf
            (by decide) hres
            (by
              have e1 := congrArg List.length hseq
              simp only [List.length_append, List.length_cons, List.length_nil, spaces,
                List.length_replicate] at e1 hfuel ⊢
              omega)
        have h3 : skipWs (w2 ++ '\x7d' :: rest) = '\x7d' :: rest := by
          rw [skipWs_append_ws _ _ hw2ws]
          exact skipWs_cons_neg _ _ (by decide)
        rw [parseStep_pmembers_close fl acc _ _ hsk2 m.1 _ hrd _ h2 m.2 _ rest hval h3]
        simp
      | cons m2 ms' =>
        have hseq : w ++ (membersText pf el (m :: m2 :: ms') ++ (w2 ++ '\x7d' :: rest))
            = (w ++ spaces (2 * el)) ++ ('"' :: (m.1 ++ ('"' ::
              (':' :: (' ' :: (dumpsV pf el m.2 ++
                ((',' :: '\n' :: membersText pf el (m2 :: ms')) ++
                  (w2 ++ '\x7d' :: rest)))))))) := by
          rw [membersText_cons₂]
          simp
        have hsk2 : skipWs (w ++ (membersText pf el (m :: m2 :: ms') ++
            (w2 ++ '\x7d' :: rest)))
            = '"' :: (m.1 ++ ('"' ::
              (':' :: (' ' :: (dumpsV pf el m.2 ++
                ((',' :: '\n' :: membersText pf el (m2 :: ms')) ++
                  (w2 ++ '\x7d' :: rest))))))) := by
          rw [hseq, skipWs_append_ws _ _ (ws_append _ _ hwws (spaces_ws _))]
          exact skipWs_cons_neg _ _ (by decide)
        have hrd := readStr_round m.1
          (':' :: (' ' :: (dumpsV pf el m.2 ++
            ((',' :: '\n' :: membersText pf el (m2 :: ms')) ++ (w2 ++ '\x7d' :: rest))))) hkq
        have h2 : skipWs (':' :: (' ' :: (dumpsV pf el m.2 ++
            ((',' :: '\n' :: membersText pf el (m2 :: ms')) ++ (w2 ++ '\x7d' :: rest)))))
            = ':' :: (' ' :: (dumpsV pf el m.2 ++
              ((',' :: '\n' :: membersText pf el (m2 :: ms')) ++ (w2 ++ '\x7d' :: rest)))) :=
          skipWs_cons_neg _ _ (by decide)
        have hres : headNotDigit ((',' :: '\n' :: membersText pf el (m2 :: ms')) ++
            (w2 ++ '\x7d' :: rest)) = true := rfl
        have hval : parseStep fl PJob.pval
            (' ' :: (dumpsV pf el m.2 ++
              ((',' :: '\n' :: membersText pf el (m2 :: ms')) ++ (w2 ++ '\x7d' :: rest))))
            = some (m.2, (',' :: '\n' :: membersText pf el (m2 :: ms')) ++
              (w2 ++ '\x7d' :: rest)) := by
          exact Hval m.2 hvb (hsl m (by simp)) pf el fl [' ']
            ((',' :: '\n' :: membersText pf el (m2 :: ms')) ++ (w2 ++ '\x7d' :: rest)) hvpf
            (by decide) hres
            (by
              have e1 := congrArg List.length hseq
              simp only [List.length_append, List.length_cons, List.length_nil, spaces,
                List.length_replicate] at e1 hfuel ⊢
              omega)
        have h3 : skipWs ((',' :: '\n' :: membersText pf el (m2 :: ms')) ++
            (w2 ++ '\x7d' :: rest))
            = ',' :: (('\n' :: membersText pf el (m2 :: ms')) ++ (w2 ++ '\x7d' :: rest)) := by
          rw [List.cons_append]
          exact skipWs_cons_neg _ _ (by decide)
        rw [parseStep_pmembers_comma fl acc _ _ hsk2 m.1 _ hrd _ h2 m.2 _
          (('\n' :: membersText pf el (m2 :: ms')) ++ (w2 ++ '\x7d' :: rest)) hval h3]
        have hshape : ('\n' :: membersText pf el (m2 :: ms')) ++ (w2 ++ '\x7d' :: rest)
            = ['\n'] ++ (membersText pf el (m2 :: ms') ++ (w2 ++ '\x7d' :: rest)) := by simp
        have hrec := ihd
          (by
            have h5 := vfuel_pos m.2
            simp only [vfuelMembers] at hbl ⊢
            omega)
          (fun x hx => hkl x (List.mem_cons_of_mem _ hx))
          (fun x hx => hsl x (List.mem_cons_of_mem _ hx)) (by simp) pf el fl
          ((m.1, m.2) :: acc) ['\n'] w2 rest (fun x hx => hpfl x (List.mem_cons_of_mem _ hx))
          (by decide) hw2ws hrest
          (by
            have e1 := congrArg List.length hseq
            obtain ⟨cv, tv, hDv, _⟩ := dumpsV_head pf el m.2 hpf1
            have hDvlen : (dumpsV pf el m.2).length = tv.length + 1 := by rw [hDv]; simp
            simp only [List.length_append, List.length_cons, spaces, List.length_nil,
              List.length_replicate] at e1 hfuel ⊢
            omega)
        rw [hshape, hrec]
        simp
  exact ⟨Hval, Helems, Hmembers⟩

theorem ppoLoop_cons (copy : Bool) (l : Str) (rest : List Str) :
    ppoLoop copy (l :: rest) =
      if stripStr l = "## Runtime options".data then ppoLoop true rest
      else if stripStr l = "## Field description".data then []
      else if copy then
        if stripStr l = "```json".data ∨ stripStr l = "```".data then ppoLoop copy rest
        else (l ++ ['\n']) ++ ppoLoop copy rest
      else ppoLoop copy rest := rfl

theorem ppo_skip (L rest : List Str)
    (h : ∀ l ∈ L, stripStr l ≠ "## Runtime options".data ∧
      stripStr l ≠ "## Field description".data) :
    ppoLoop false (L ++ rest) = ppoLoop false rest := by
  induction L with
  | nil => rfl
  | cons l L ih =>
    rw [List.cons_append, ppoLoop_cons, if_neg (h l (by simp)).1, if_neg (h l (by simp)).2,
      if_neg (by decide : ¬(false = true))]
    exact ih fun x hx => h x (List.mem_cons_of_mem _ hx)

theorem ppo_copy (L rest : List Str)
    (h : ∀ l ∈ L, stripStr l ≠ "## Runtime options".data ∧
      stripStr l ≠ "## Field description".data ∧
      stripStr l ≠ "```json".data ∧ stripStr l ≠ "```".data) :
    ppoLoop true (L ++ rest) = joinNl L ++ ppoLoop true rest := by
  induction L with
  | nil => rfl
  | cons l L ih =>
    rw [List.cons_append, ppoLoop_cons, if_neg (h l (by simp)).1, if_neg (h l (by simp)).2.1,
      if_pos rfl,
      if_neg (show ¬(stripStr l = "```json".data ∨ stripStr l = "```".data) from by
        rintro (hf | hf)
        · exact (h l (by simp)).2.2.1 hf
        · exact (h l (by simp)).2.2.2 hf),
      ih fun x hx => h x (List.mem_cons_of_mem _ hx), joinNl_cons]
    simp

theorem safeVal_filter (opts : List (Str × Val)) (h : SafeVal (Val.vdict opts)) :
    SafeVal (Val.vdict (options_filtered opts)) := by
  refine SafeVal.vdict _ ?_ ?_
  · intro m hm
    exact safeVal_vdict_keys _ h m (List.mem_of_mem_filter hm)
  · intro m hm
    exact safeVal_vdict_vals _ h m (List.mem_of_mem_filter hm)

theorem dictLookup_filter (d : List (Str × Val)) (bad k : Str) (hk : k ≠ bad) :
    dictLookup (d.filter fun kv => kv.1 ≠ bad) k = dictLookup d k := by
  induction d with
  | nil => rfl
  | cons a t ih =>
    by_cases hab : a.1 = bad
    · rw [List.filter_cons, if_neg (by simp [hab]), ih]
      have hak : ¬(a.1 = k) := by
        rw [hab]
        intro hkk
        exact hk hkk.symm
      show dictLookup t k = dictLookup (a :: t) k
      rw [show dictLookup (a :: t) k
          = (if a.1 = k then some a.2 else dictLookup t k) from by
        rw [show (a : Str × Val) = (a.1, a.2) from rfl]
        rfl]
      rw [if_neg hak]
    · rw [List.filter_cons, if_pos (by simp [hab])]
      rw [show dictLookup (a :: t.filter fun kv => kv.1 ≠ bad) k
          = (if a.1 = k then some a.2 else dictLookup (t.filter fun kv => kv.1 ≠ bad) k) from by
        rw [show (a : Str × Val) = (a.1, a.2) from rfl]
        rfl]
      rw [show dictLookup (a :: t) k
          = (if a.1 = k then some a.2 else dictLookup t k) from by
        rw [show (a : Str × Val) = (a.1, a.2) from rfl]
        rfl]
      by_cases hak : a.1 = k
      · rw [if_pos hak, if_pos hak]
      · rw [if_neg hak, if_neg hak, ih]

/-- C9: markdown round-trip of run options.  For every options dictionary
    in the escape-free `json.dumps` domain and any surrounding report text
    whose lines are not the runtime-options or field-description markers,
    parsing the `.md` file written by `Logger.save_md` with
    `process_previous_options` recovers exactly the runtime-options
    dictionary the Logger wrote (the options minus `sys_spec_commands`);
    in particular the recovered `backends` list and `metrics` map equal
    those of the original options. -/
theorem c9_md_roundtrip (pre post : Str) (opts : List (Str × Val))
    (hsafe : SafeVal (Val.vdict opts))
    (hpre : ∀ l ∈ splitNl pre, stripStr l ≠ "## Runtime options".data ∧
      stripStr l ≠ "## Field description".data) :
    process_previous_options (save_md_text pre opts post)
      = some (Val.vdict (options_filtered opts)) ∧
    dictLookup (options_filtered opts) "backends".data = dictLookup opts "backends".data ∧
    dictLookup (options_filtered opts) "metrics".data = dictLookup opts "metrics".data := by
  refine ⟨?_, dictLookup_filter opts _ _ (by decide), dictLookup_filter opts _ _ (by decide)⟩
  have hsafeF : SafeVal (Val.vdict (options_filtered opts)) := safeVal_filter opts hsafe
  have d1 : "\n## Runtime options\n\n```json\n".data
      = '\n' :: ("## Runtime options".data ++ '\n' :: ('\n' :: ("```json".data ++ ['\n']))) :=
    rfl
  have d2 : "\n```".data = '\n' :: "```".data := rfl
  have d3 : "\n\n## Field description\n\n".data
      = '\n' :: ('\n' :: ("## Field description".data ++ '\n' :: ['\n'])) := rfl
  have htext : save_md_text pre opts post
      = pre ++ '\n' :: ("## Runtime options".data ++ '\n' :: ('\n' :: ("```json".data ++ '\n' ::
        (dumps (Val.vdict (options_filtered opts)) ++ '\n' :: ("```".data ++ '\n' :: ('\n' ::
        ("## Field description".data ++ '\n' :: ('\n' :: post)))))))) := by
    simp [save_md_text, List.append_assoc]
  have hRTnl : splitNl "## Runtime options".data = ["## Runtime options".data] := by decide
  have hJSONFnl : splitNl "```json".data = ["```json".data] := by decide
  have hFENCEnl : splitNl "```".data = ["```".data] := by decide
  have hFDnl : splitNl "## Field description".data = ["## Field description".data] := by decide
  have hnlcons : ∀ s : Str, splitNl ('\n' :: s) = [] :: splitNl s := by
    intro s
    rw [splitNl_cons, if_pos rfl]
  have hlines : splitNl (save_md_text pre opts post)
      = splitNl pre ++ ("## Runtime options".data :: [] :: "```json".data ::
        (splitNl (dumps (Val.vdict (options_filtered opts))) ++ ("```".data :: [] ::
        "## Field description".data :: [] :: splitNl post))) := by
    rw [htext, splitNl_append_nl, splitNl_append_nl, hnlcons, splitNl_append_nl,
      splitNl_append_nl, splitNl_append_nl, hnlcons, splitNl_append_nl, hnlcons,
      hRTnl, hJSONFnl, hFENCEnl, hFDnl]
    simp
  have hJfree : ∀ l ∈ splitNl (dumps (Val.vdict (options_filtered opts))),
      stripStr l ≠ "## Runtime options".data ∧ stripStr l ≠ "## Field description".data ∧
      stripStr l ≠ "```json".data ∧ stripStr l ≠ "```".data := by
    intro l hl
    have hok := (dumps_lines (vfuel (Val.vdict (options_filtered opts)))).1
      (Val.vdict (options_filtered opts)) (vfuel (Val.vdict (options_filtered opts))) 0
      le_rfl le_rfl hsafeF l hl
    exact ⟨lineOk_strip_ne l hok '#' "# Runtime options".data (by decide),
      lineOk_strip_ne l hok '#' "# Field description".data (by decide),
      lineOk_strip_ne l hok '`' "``json".data (by decide),
      lineOk_strip_ne l hok '`' "``".data (by decide)⟩
  have hloop : ppoLoop false (splitNl (save_md_text pre opts post))
      = ['\n'] ++ (dumps (Val.vdict (options_filtered opts)) ++ ['\n', '\n']) := by
    rw [hlines, ppo_skip _ _ hpre, ppoLoop_cons, if_pos (by decide), ppoLoop_cons,
      if_neg (by decide), if_neg (by decide), if_pos rfl, if_neg (by decide), ppoLoop_cons,
      if_neg (by decide), if_neg (by decide), if_pos rfl, if_pos (by decide),
      ppo_copy _ _ hJfree, ppoLoop_cons, if_neg (by decide), if_neg (by decide), if_pos rfl,
      if_pos (by decide), ppoLoop_cons, if_neg (by decide), if_neg (by decide), if_pos rfl,
      if_neg (by decide), ppoLoop_cons, if_neg (by decide), if_pos (by decide),
      joinNl_splitNl]
    simp
  simp only [process_previous_options]
  rw [hloop,
    show dumps (Val.vdict (options_filtered opts))
      = dumpsV (vfuel (Val.vdict (options_filtered opts))) 0
        (Val.vdict (options_filtered opts)) from rfl]
  simp only [jloads]
  have hparse := (parse_dumps (vfuel (Val.vdict (options_filtered opts)))).1
    (Val.vdict (options_filtered opts)) le_rfl hsafeF
    (vfuel (Val.vdict (options_filtered opts))) 0
    (3 * (['\n'] ++ (dumpsV (vfuel (Val.vdict (options_filtered opts))) 0
      (Val.vdict (options_filtered opts)) ++ ['\n', '\n'])).length + 3)
    ['\n'] ['\n', '\n'] le_rfl (by decide) (by decide) (by omega)
  rw [hparse]
  rfl

/-- C9 witness: a concrete options dictionary (backends list, metrics map
    and a sys_spec_commands section) written into a report and recovered. -/
theorem c9_witness :
    process_previous_options (save_md_text "Experiment completed.".data
        [("backends".data, Val.vlist [Val.vstr "local".data]),
         ("metrics".data, Val.vdict []),
         ("sys_spec_commands".data, Val.vdict [("cpu".data, Val.vstr "nproc".data)])] [])
      = some (Val.vdict (options_filtered
        [("backends".data, Val.vlist [Val.vstr "local".data]),
         ("metrics".data, Val.vdict []),
         ("sys_spec_commands".data, Val.vdict [("cpu".data, Val.vstr "nproc".data)])])) ∧
    dictLookup (options_filtered
        [("backends".data, Val.vlist [Val.vstr "local".data]),
         ("metrics".data, Val.vdict []),
         ("sys_spec_commands".data, Val.vdict [("cpu".data, Val.vstr "nproc".data)])])
      "backends".data
      = dictLookup
        [("backends".data, Val.vlist [Val.vstr "local".data]),
         ("metrics".data, Val.vdict []),
         ("sys_spec_commands".data, Val.vdict [("cpu".data, Val.vstr "nproc".data)])]
      "backends".data ∧
    dictLookup (options_filtered
        [("backends".data, Val.vlist [Val.vstr "local".data]),
         ("metrics".data, Val.vdict []),
         ("sys_spec_commands".data, Val.vdict [("cpu".data, Val.vstr "nproc".data)])])
      "metrics".data
      = dictLookup
        [("backends".data, Val.vlist [Val.vstr "local".data]),
         ("metrics".data, Val.vdict []),
         ("sys_spec_commands".data, Val.vdict [("cpu".data, Val.vstr "nproc".data)])]
      "metrics".data :=
  c9_md_roundtrip "Experiment completed.".data []
    [("backends".data, Val.vlist [Val.vstr "local".data]),
     ("metrics".data, Val.vdict []),
     ("sys_spec_commands".data, Val.vdict [("cpu".data, Val.vstr "nproc".data)])]
    (by
      refine SafeVal.vdict _ ?_ ?_
      · intro m hm
        simp only [List.mem_cons, List.not_mem_nil, or_false] at hm
        rcases hm with rfl | rfl | rfl
        · decide
        · decide
        · decide
      · intro m hm
        simp only [List.mem_cons, List.not_mem_nil, or_false] at hm
        rcases hm with rfl | rfl | rfl
        · refine SafeVal.vlist _ ?_
          intro v hv
          simp only [List.mem_cons, List.not_mem_nil, or_false] at hv
          subst hv
          exact SafeVal.vstr _ (by decide)
        · exact SafeVal.vdict _ (by intro m2 hm2; exact absurd hm2 (List.not_mem_nil m2))
            (by intro m2 hm2; exact absurd hm2 (List.not_mem_nil m2))
        · refine SafeVal.vdict _ ?_ ?_
          · intro m2 hm2
            simp only [List.mem_cons, List.not_mem_nil, or_false] at hm2
            subst hm2
            decide
          · intro m2 hm2
            simp only [List.mem_cons, List.not_mem_nil, or_false] at hm2
            subst hm2
            exact SafeVal.vstr _ (by decide))
    (by decide)
